import Mathlib

/-!
# QP-trie (`src/Trie.hpp`): a shallow embedding and its verification

The container of `src/Trie.hpp` is embedded as pure functions.

* A key (`std::string_view`) is a list of bytes.
* A `Node` is the `std::variant<Leaf, Branch>`; the header fields of a `Branch`
  are kept as they are in the source (`head`, `capacity`, `index`, `bitmap`),
  the live part `twigs[0 .. size)` of the child array is a list and `size` is
  its length.
* Every `assert`, every out-of-range array access, every `std::get` on the
  wrong alternative and every out-of-range shift makes the embedded function
  return `none`; a result `some _` therefore says that the run was free of
  those failures.
* Pointer walks that end in an in-place update (`emplace`, `remove`) are
  embedded as recursive functions that rebuild the path they walked.
* The bit-field widths are kept: `index` is stored modulo `2 ^ 37`, `bitmap`
  modulo `2 ^ 16`.  Key sizes and nybble indices (`uint64_t`) are natural
  numbers.
-/

namespace jzt

/-- A key: the bytes of a `std::string_view`. -/
abbrev Key := List (Fin 256)

/-- The constant `NybbleHead = 0xFF`: the nybble of a key that has ended. -/
def NybbleHead : Nat := 0xFF

/-- The width of the bit-field `index : 37`. -/
def index_bits : Nat := 37

/-- The width of the bit-field `bitmap : 16`. -/
def bitmap_bits : Nat := 16

/-- The function `__builtin_popcount` on an `unsigned int`. -/
def popcount (x : Nat) : Nat := (List.range 32).countP (fun i => x.testBit i)

/-- The function `nybble_at(key, ni)`. -/
def nybble_at (key : Key) (ni : Nat) : Nat :=
  let bi := ni / 2
  match key.get? bi with
  | none => NybbleHead
  | some b => if ni &&& 1 = 0 then b.val &&& 0x0F else b.val >>> 4

/-- The loop of `Leaf::find_mismatch`, at byte `i`, with `ss` and `ks` what is
left of `sv` and `key` from byte `i` on; after the loop the two sizes are
compared. -/
def find_mismatch_loop (sv key : Key) : Nat → Key → Key → Option Nat
  | i, s :: ss, k :: ks =>
    let diff := s.val ^^^ k.val
    if diff ≠ 0 then
      if diff &&& 0x0F = 0 then some (1 + i * 2) else some (i * 2)
    else find_mismatch_loop sv key (i + 1) ss ks
  | _, _, _ =>
    if sv.length = key.length then none
    else some (min sv.length key.length * 2)

/-- The method `Leaf::find_mismatch(sv)` of a leaf with key `key`. -/
def find_mismatch (key sv : Key) : Option Nat :=
  find_mismatch_loop sv key 0 sv key

/-- The test `sv.compare(0, pfx.size(), pfx) == 0`. -/
def starts_with (sv pfx : Key) : Bool := decide (sv.take pfx.length = pfx)

/-- The class `Node`: a leaf holds its key and, in map mode, the mapped value
(`V = Unit` in set mode); a branch holds its header and the live twigs. -/
inductive Node (V : Type) where
  | leaf (key : Key) (val : V) : Node V
  | branch (twigs : List (Node V)) (head : Bool) (capacity : Nat) (index : Nat)
      (bitmap : Nat) : Node V

/-- The class `Branch`. -/
structure Branch (V : Type) where
  twigs : List (Node V)
  head : Bool
  capacity : Nat
  index : Nat
  bitmap : Nat

variable {V : Type}

/-- A node that holds the branch `b` (`Node(BranchType&&)`). -/
def Node.ofBranch (b : Branch V) : Node V :=
  .branch b.twigs b.head b.capacity b.index b.bitmap

/-- The method `Node::is_leaf`. -/
def Node.is_leaf : Node V → Bool
  | .leaf _ _ => true
  | .branch _ _ _ _ _ => false

/-- The method `Node::is_branch`. -/
def Node.is_branch : Node V → Bool
  | .leaf _ _ => false
  | .branch _ _ _ _ _ => true

/-- The method `Node::get_leaf` (`std::get<LeafType>`), with the data of the leaf. -/
def Node.get_leaf : Node V → Option (Key × V)
  | .leaf k v => some (k, v)
  | .branch _ _ _ _ _ => none

/-- The method `Node::get_branch` (`std::get<BranchType>`). -/
def Node.get_branch : Node V → Option (Branch V)
  | .leaf _ _ => none
  | .branch tw h c i bm => some ⟨tw, h, c, i, bm⟩

namespace Branch

/-- The field `size`. -/
def size (b : Branch V) : Nat := b.twigs.length

/-- The method `nybble_index`. -/
def nybble_index (b : Branch V) : Nat := b.index

/-- The method `has_head`. -/
def has_head (b : Branch V) : Bool := b.head

/-- The method `twig(idx)`. -/
def twig (b : Branch V) (idx : Nat) : Option (Node V) := b.twigs.get? idx

/-- The method `get_head`. -/
def get_head (b : Branch V) : Option (Node V) :=
  if b.head then b.twigs.get? (b.size - 1) else none

/-- The method `twig_count`, with its assertion. -/
def twig_count (b : Branch V) : Option Nat :=
  if popcount b.bitmap + b.head.toNat = b.size then some b.size else none

/-- The method `has_twig(n)`. -/
def has_twig (b : Branch V) (n : Nat) : Option Bool :=
  if n = NybbleHead then none else some (b.bitmap &&& (1 <<< n) ≠ 0)

/-- The method `twig_nybble(key)`. -/
def twig_nybble (b : Branch V) (key : Key) : Nat := nybble_at key b.index

/-- The method `twig_index(n)`. -/
def twig_index (b : Branch V) (n : Nat) : Option Nat :=
  if n = NybbleHead then none else some (popcount (b.bitmap &&& ((1 <<< n) - 1)))

/-- The loop `for (; i < hi; i++) { new (&new_twigs[j]) NodeType(std::move(twigs[i])); j++; }`
of `twig_expand_emplace_at`, for `n` turns from `i`: the nodes it puts into
consecutive slots of the new array. -/
def relocate (twigs : List (Node V)) : Nat → Nat → Option (List (Node V))
  | _, 0 => some []
  | i, n + 1 => do
    let x ← twigs.get? i
    let rest ← relocate twigs (i + 1) n
    some (x :: rest)

/-- The method `twig_expand_emplace_at`: the first loop fills the slots before
`idx` of a new array of `new_capacity` slots, `j++` leaves the slot `idx` free,
the second loop fills the slots after it, and the new node goes to the slot
`idx`; a new array too small for them is a failure. -/
def twig_expand_emplace_at (b : Branch V) (idx : Nat) (x : Node V) : Option (Branch V) :=
  if b.capacity ≤ 17 then
    let new_capacity := min (b.capacity * 3 / 2) 17
    do
      let before ← relocate b.twigs 0 idx
      let after ← relocate b.twigs idx (b.size - idx)
      let new_twigs := before ++ x :: after
      if new_twigs.length ≤ new_capacity then
        some { b with twigs := new_twigs, capacity := new_capacity }
      else none
  else none

/-- The loop `for (; i > idx; i--) twigs[i] = std::move(twigs[i - 1])` of
`twig_emplace_at`, for `n` turns down from `i = idx + n`. -/
def shift_up (idx : Nat) : Nat → List (Node V) → Option (List (Node V))
  | 0, tw => some tw
  | n + 1, tw => do
    let x ← tw.get? (idx + n)
    if idx + n + 1 < tw.length then shift_up idx n (tw.set (idx + n + 1) x) else none

/-- The method `twig_emplace_at`. Within the capacity and for `idx < size`, the
last twig is moved to the slot `size`, the loop moves the twigs from `idx` on up
by one slot, and the new node is assigned to the slot `idx`; for `idx = size`
the new node is constructed in the slot `size`. -/
def twig_emplace_at (b : Branch V) (idx : Nat) (x : Node V) : Option (Branch V) :=
  if b.size < 17 ∧ idx ≤ b.size then
    if b.size + 1 > b.capacity then b.twig_expand_emplace_at idx x
    else if idx < b.size then do
      let last ← b.twigs.get? (b.size - 1)
      let tw ← shift_up idx (b.size - 1 - idx) (b.twigs ++ [last])
      some { b with twigs := tw.set idx x }
    else some { b with twigs := b.twigs ++ [x] }
  else none

/-- The method `twig_emplace_back`. -/
def twig_emplace_back (b : Branch V) (x : Node V) : Option (Branch V) :=
  if b.size < 17 then b.twig_emplace_at b.size x else none

/-- The loop `for (int i = idx + 1; i < size; i++) twigs[i - 1] = std::move(twigs[i])`
of `twig_erase_at`, for `n` turns from `i`. -/
def shift_down : Nat → Nat → List (Node V) → Option (List (Node V))
  | _, 0, tw => some tw
  | i, n + 1, tw => do
    let x ← tw.get? i
    if 0 < i ∧ i - 1 < tw.length then shift_down (i + 1) n (tw.set (i - 1) x) else none

/-- The method `twig_erase_at`: the loop moves the twigs after `idx` down by one
slot, then the last slot is destroyed and `size` decremented. -/
def twig_erase_at (b : Branch V) (idx : Nat) : Option (Branch V) :=
  if 1 < b.size ∧ idx < b.size then do
    let tw ← shift_down (idx + 1) (b.size - (idx + 1)) b.twigs
    some { b with twigs := tw.dropLast }
  else none

/-- The constructor `Branch(i, leaf)`. -/
def new (i : Nat) (key : Key) (val : V) : Branch V :=
  let n := nybble_at key i
  { twigs := [.leaf key val]
    capacity := 2
    index := i % 2 ^ index_bits
    head := decide (n = NybbleHead)
    bitmap := if n = NybbleHead then 0 else (0 ||| (1 <<< n)) % 2 ^ bitmap_bits }

/-- The method `remove_head`. -/
def remove_head (b : Branch V) : Option (Branch V) :=
  if b.head ∧ 0 < b.size then some { b with twigs := b.twigs.dropLast, head := false }
  else none

/-- The method `twig_insert(leaf, n)`. -/
def twig_insert (b : Branch V) (key : Key) (val : V) (n : Nat) : Option (Branch V) :=
  if n = NybbleHead then
    if b.head then none
    else twig_emplace_back { b with head := true } (.leaf key val)
  else do
    let present ← b.has_twig n
    if present then none
    else
      let idx ← b.twig_index n
      let b' ← b.twig_emplace_at idx (.leaf key val)
      some { b' with bitmap := (b'.bitmap ||| (1 <<< n)) % 2 ^ bitmap_bits }

/-- The method `twig_insert(leaf)`. -/
def twig_insert_leaf (b : Branch V) (key : Key) (val : V) : Option (Branch V) :=
  b.twig_insert key val (b.twig_nybble key)

/-- The method `twig_insert(new_branch, n)`. -/
def twig_insert_branch (b : Branch V) (nb : Branch V) (n : Nat) : Option (Branch V) := do
  let idx ← b.twig_index n
  let b' ← b.twig_emplace_at idx (Node.ofBranch nb)
  some { b' with bitmap := (b'.bitmap ||| (1 <<< n)) % 2 ^ bitmap_bits }

/-- The method `twig_remove(n)`; `~(1 << n)` is cut to the 16 bits of the field. -/
def twig_remove (b : Branch V) (n : Nat) : Option (Branch V) := do
  let present ← b.has_twig n
  if present then
    let idx ← b.twig_index n
    let b' ← b.twig_erase_at idx
    some { b' with bitmap := b'.bitmap &&& ((2 ^ bitmap_bits - 1) ^^^ (1 <<< n)) }
  else none

end Branch

namespace Node

mutual
/-- The method `Node::find_similar`: the loop `while (node->is_branch())`. The
step `node = branch.get_head()` is the step to the twig at `size - 1` under the
assertion of `get_head`. -/
def find_similar : Node V → Key → Option (Node V)
  | .leaf k v, _ => some (.leaf k v)
  | .branch tw h c i bm, key =>
    let branch : Branch V := ⟨tw, h, c, i, bm⟩
    let n := branch.twig_nybble key
    if n = NybbleHead then
      if branch.has_head then
        if branch.head then find_similar_at tw (branch.size - 1) key else none
      else find_similar_at tw 0 key
    else
      match branch.has_twig n with
      | none => none
      | some true =>
        match branch.twig_index n with
        | none => none
        | some idx => find_similar_at tw idx key
      | some false =>
        if branch.has_head then
          if branch.head then find_similar_at tw (branch.size - 1) key else none
        else find_similar_at tw 0 key
/-- The step `node = branch.twig(idx)` of `find_similar`, then the loop goes on. -/
def find_similar_at : List (Node V) → Nat → Key → Option (Node V)
  | [], _, _ => none
  | t :: _, 0, key => find_similar t key
  | _ :: ts, idx + 1, key => find_similar_at ts idx key
end

/-- The method `Node::leaf_burst`. -/
def leaf_burst (mismatch_index : Nat) (key : Key) (val : V) : Node V → Option (Node V)
  | .leaf k v => do
    let branch := Branch.new mismatch_index key val
    let branch ← branch.twig_insert_leaf k v
    some (ofBranch branch)
  | .branch _ _ _ _ _ => none

/-- The method `Node::find`; `some none` is `nullptr`. -/
def find (t : Node V) (key : Key) : Option (Option (Node V)) :=
  match t with
  | .leaf k _ => if k = key then some (some t) else some none
  | .branch _ _ _ _ _ => do
    let similar_node ← t.find_similar key
    let (k, _) ← similar_node.get_leaf
    if k = key then some (some similar_node) else some none

/-- The method `Node::contains`. -/
def contains (t : Node V) (key : Key) : Option Bool :=
  match t with
  | .leaf k _ => some (decide (k = key))
  | .branch _ _ _ _ _ => do
    let similar_node ← t.find_similar key
    let (k, _) ← similar_node.get_leaf
    some (decide (k = key))

/-- The method `Node::contains_prefix`. -/
def contains_prefix (t : Node V) (pfx : Key) : Option Bool :=
  match t with
  | .leaf k _ => some (starts_with k pfx)
  | .branch _ _ _ _ _ => do
    let similar_node ← t.find_similar pfx
    let (k, _) ← similar_node.get_leaf
    some (starts_with k pfx)

mutual
/-- The second walk of `Node::emplace` (`Node* node = this; while ...`) from the
node it stands at, `ni` the mismatch index and `similar_key` the key of the
similar leaf; the result is what the node holds afterwards. -/
def emplace_walk (key : Key) (val : V) (ni : Nat) (similar_key : Key) :
    Node V → Option (Node V)
  | .leaf k v => leaf_burst ni key val (.leaf k v)
  | .branch tw h c i bm =>
    let branch : Branch V := ⟨tw, h, c, i, bm⟩
    let branch_ni := branch.nybble_index
    let n := branch.twig_nybble key
    if branch_ni < ni then
      match branch.twig_index n with
      | none => none
      | some idx =>
        match emplace_walk_at key val ni similar_key tw idx with
        | none => none
        | some tw' => some (.branch tw' h c i bm)
    else if branch_ni = ni then
      match branch.twig_insert_leaf key val with
      | none => none
      | some b' => some (ofBranch b')
    else
      let new_branch := Branch.new ni key val
      match new_branch.twig_insert_branch branch (nybble_at similar_key ni) with
      | none => none
      | some b' => some (ofBranch b')
/-- The step `node = branch.twig(idx); continue` of the second walk. -/
def emplace_walk_at (key : Key) (val : V) (ni : Nat) (similar_key : Key) :
    List (Node V) → Nat → Option (List (Node V))
  | [], _ => none
  | t :: ts, 0 =>
    match emplace_walk key val ni similar_key t with
    | none => none
    | some t' => some (t' :: ts)
  | t :: ts, idx + 1 =>
    match emplace_walk_at key val ni similar_key ts idx with
    | none => none
    | some ts' => some (t :: ts')
end

/-- The method `Node::emplace`: the result and what the node holds afterwards. -/
def emplace (t : Node V) (key : Key) (val : V) : Option (Bool × Node V) :=
  match t with
  | .leaf k _ =>
    match find_mismatch k key with
    | none => some (false, t)
    | some ni => do
      let t' ← leaf_burst ni key val t
      some (true, t')
  | .branch _ _ _ _ _ => do
    let similar_node ← t.find_similar key
    let (sk, _) ← similar_node.get_leaf
    match find_mismatch sk key with
    | none => some (false, t)
    | some ni =>
      let t' ← emplace_walk key val ni sk t
      some (true, t')

mutual
/-- The loop `while (node->is_branch())` of `Node::get_prefix`. -/
def prefix_walk (pfx : Key) : Node V → Option (Node V)
  | .leaf k v => some (.leaf k v)
  | .branch tw h c i bm =>
    let branch : Branch V := ⟨tw, h, c, i, bm⟩
    if branch.nybble_index ≥ pfx.length * 2 then some (.branch tw h c i bm)
    else
      match branch.twig_index (branch.twig_nybble pfx) with
      | none => none
      | some idx => prefix_walk_at pfx tw idx
/-- The step `node = branch.twig(...)` of that loop. -/
def prefix_walk_at (pfx : Key) : List (Node V) → Nat → Option (Node V)
  | [], _ => none
  | t :: _, 0 => prefix_walk pfx t
  | _ :: ts, idx + 1 => prefix_walk_at pfx ts idx
end

/-- The method `Node::get_prefix`; `some none` is `nullptr`. -/
def get_prefix (t : Node V) (pfx : Key) : Option (Option (Node V)) :=
  match t with
  | .leaf k _ => if starts_with k pfx then some (some t) else some none
  | .branch _ _ _ _ _ => do
    let similar_node ← t.find_similar pfx
    let (sv, _) ← similar_node.get_leaf
    if !starts_with sv pfx then some none
    else
      let node ← prefix_walk pfx t
      some (some node)

/-- The end of `Node::remove`, once the leaf is found: `branch` is the branch of
`parent.node`, `phead` and `pn` are `parent.head` and `parent.n`; the result
is what `parent.node` holds afterwards. -/
def remove_fixup (branch : Branch V) (phead : Bool) (pn : Nat) : Option (Node V) := do
  let count ← branch.twig_count
  if count > 2 then
    if phead then do
      let b' ← branch.remove_head
      some (ofBranch b')
    else do
      let b' ← branch.twig_remove pn
      some (ofBranch b')
  else
    if phead then branch.twig 0
    else do
      let leaf_idx ← branch.twig_index pn
      if leaf_idx = 0 then branch.twig 1
      else if leaf_idx = 1 then branch.twig 0
      else none

mutual
/-- The loop of `Node::remove` from a branch it stands at: `none` is a failed
run, `some none` is `return {false, empty}`, `some (some t)` is a removal after
which this node holds `t`. -/
def remove_walk (key : Key) : Node V → Option (Option (Node V))
  | .leaf _ _ => none
  | .branch tw h c i bm =>
    let branch : Branch V := ⟨tw, h, c, i, bm⟩
    let n := branch.twig_nybble key
    if n = NybbleHead then
      if branch.has_head then
        if branch.head then remove_walk_at key branch true n (branch.size - 1) tw (branch.size - 1)
        else none
      else some none
    else
      match branch.has_twig n with
      | none => none
      | some true =>
        match branch.twig_index n with
        | none => none
        | some idx => remove_walk_at key branch false n idx tw idx
      | some false => some none
/-- The step into the twig at `slot` of `parent`: a branch there is walked on
and put back, a leaf there ends the loop. -/
def remove_walk_at (key : Key) (parent : Branch V) (phead : Bool) (pn : Nat) (slot : Nat) :
    List (Node V) → Nat → Option (Option (Node V))
  | [], _ => none
  | t :: _, 0 =>
    if t.is_branch then
      match remove_walk key t with
      | none => none
      | some none => some none
      | some (some t') =>
        some (some (.branch (parent.twigs.set slot t') parent.head parent.capacity
          parent.index parent.bitmap))
    else
      match t.get_leaf with
      | none => none
      | some (leaf_key, _) =>
        if leaf_key ≠ key then some none
        else
          match remove_fixup parent phead pn with
          | none => none
          | some p' => some (some p')
  | _ :: ts, idx + 1 => remove_walk_at key parent phead pn slot ts idx
end

/-- The method `Node::remove`: the pair `{ok, empty}` and what the node holds
afterwards. -/
def remove (t : Node V) (key : Key) : Option ((Bool × Bool) × Node V) :=
  match t with
  | .leaf k _ => if k = key then some ((true, true), t) else some ((false, false), t)
  | .branch _ _ _ _ _ =>
    match remove_walk key t with
    | none => none
    | some none => some ((false, false), t)
    | some (some t') => some ((true, false), t')

end Node

mutual
/-- The number of nodes of a subtree: the loop of `next_leaf` pops at most that
many branches. -/
def Node.weight : Node V → Nat
  | .leaf _ _ => 1
  | .branch tw _ _ _ _ => 1 + Node.weight_list tw
/-- The number of nodes of the subtrees of a list. -/
def Node.weight_list : List (Node V) → Nat
  | [] => 0
  | t :: ts => Node.weight t + Node.weight_list ts
end

/-- The struct `IteratorBase`, and the classes `Iterator` and `ConstIterator`
that add no field: `stk` holds the nodes the stack points to, its top first. -/
structure Iterator (V : Type) where
  stk : List (Node V)

namespace Iterator

/-- The loop `for (int i = sz; i >= 0; i--) stk.push(branch.twig(i))`, from `i`. -/
def push_twigs (branch : Branch V) : Nat → List (Node V) → Option (List (Node V))
  | 0, stk => do
    let t ← branch.twig 0
    some (t :: stk)
  | i + 1, stk => do
    let t ← branch.twig (i + 1)
    push_twigs branch i (t :: stk)

/-- The loop `while (!stk.empty())` of `next_leaf`, run for at most `fuel` turns. -/
def next_leaf_loop : Nat → List (Node V) → Option (List (Node V))
  | _, [] => some []
  | 0, _ :: _ => none
  | fuel + 1, node :: rest =>
    if node.is_leaf then some (node :: rest)
    else do
      let branch ← node.get_branch
      let sz ← branch.twig_count
      if sz ≥ 2 then
        if branch.has_head then do
          let stk ← push_twigs branch (sz - 2) rest
          let h ← branch.get_head
          next_leaf_loop fuel (h :: stk)
        else do
          let stk ← push_twigs branch (sz - 1) rest
          next_leaf_loop fuel stk
      else none

/-- The method `IteratorBase::next_leaf`; the loop gets one turn for every node
the stack points to or holds below, and one more. -/
def next_leaf (it : Iterator V) : Option (Iterator V) :=
  match it.stk with
  | [] => some it
  | top :: rest =>
    let stk := if top.is_leaf then rest else top :: rest
    match next_leaf_loop (Node.weight_list stk + 1) stk with
    | none => none
    | some stk' => some ⟨stk'⟩

/-- The constructor `Iterator(root)`. -/
def new (root : Node V) : Option (Iterator V) :=
  if root.is_branch then next_leaf ⟨[root]⟩ else some ⟨[root]⟩

/-- The default constructor `Iterator()`, also the value of `Trie::end()`. -/
def iterator_end : Iterator V := ⟨[]⟩

/-- The test `it == end()`: `operator==` against an iterator whose stack is empty. -/
def at_end (it : Iterator V) : Bool := it.stk.isEmpty

/-- The operator `*it`: the data of the leaf on top of the stack. -/
def deref (it : Iterator V) : Option (Key × V) :=
  match it.stk with
  | [] => none
  | top :: _ => top.get_leaf

/-- The operator `++it`, `n` times. -/
def advance : Nat → Iterator V → Option (Iterator V)
  | 0, it => some it
  | n + 1, it =>
    match next_leaf it with
    | none => none
    | some it' => advance n it'

end Iterator

/-- The class `Trie`. -/
structure Trie (V : Type) where
  root : Option (Node V)

/-- The constructor `Trie()`. -/
def Trie.empty : Trie V := ⟨none⟩

/-- The method `Trie::max_key_size`. -/
def Trie.max_key_size : Nat := 1 <<< 37

/-- The method `Trie::begin` (and `cbegin`). -/
def Trie.begin (t : Trie V) : Option (Iterator V) :=
  match t.root with
  | none => some Iterator.iterator_end
  | some r => Iterator.new r

/-- The method `Trie::emplace`, of return type `void`: the value `()` it returns
and what the container holds afterwards; the result of `root->emplace` is
dropped. -/
def Trie.emplace (t : Trie V) (key : Key) (val : V) : Option (Unit × Trie V) :=
  match t.root with
  | none => some ((), ⟨some (.leaf key val)⟩)
  | some r =>
    match r.emplace key val with
    | none => none
    | some (_, r') => some ((), ⟨some r'⟩)

/-- The method `Trie::find`. -/
def Trie.find (t : Trie V) (key : Key) : Option (Iterator V) :=
  match t.root with
  | none => some Iterator.iterator_end
  | some r =>
    match r.find key with
    | none => none
    | some none => some Iterator.iterator_end
    | some (some node) => Iterator.new node

/-- The method `Trie::prefix`. -/
def Trie.prefix (t : Trie V) (pfx : Key) : Option (Iterator V) :=
  match t.root with
  | none => some Iterator.iterator_end
  | some r =>
    match Node.get_prefix r pfx with
    | none => none
    | some none => some Iterator.iterator_end
    | some (some node) => Iterator.new node

/-- The method `Trie::contains`. -/
def Trie.contains (t : Trie V) (key : Key) : Option Bool :=
  match t.root with
  | none => some false
  | some r => r.contains key

/-- The method `Trie::contains_prefix`. -/
def Trie.contains_prefix (t : Trie V) (pfx : Key) : Option Bool :=
  match t.root with
  | none => some false
  | some r => Node.contains_prefix r pfx

/-- The method `Trie::remove`: the result and what the container holds afterwards. -/
def Trie.remove (t : Trie V) (key : Key) : Option (Bool × Trie V) :=
  match t.root with
  | none => some (false, t)
  | some r =>
    match r.remove key with
    | none => none
    | some ((ok, empty), r') =>
      if !ok then some (false, ⟨some r'⟩)
      else if empty then some (true, ⟨none⟩)
      else some (true, ⟨some r'⟩)

end jzt

/-!
## Specification

The notions the statements below are written with: the entries a subtree holds in
the order of a traversal, the nybble each slot of a branch stands for, the
invariant of the trie, the order on keys that a traversal follows, and the
containers that `emplace` and `remove` build.
-/

namespace jzt

variable {V : Type}

/-- The set bits of `bm` below `n`, in ascending order. -/
def bits_below (bm n : Nat) : List Nat := (List.range n).filter (fun i => bm.testBit i)

/-- The set bits of `bm` from `n` on and below 16, in ascending order. -/
def bits_from (bm n : Nat) : List Nat := (List.range' n (16 - n)).filter (fun i => bm.testBit i)

/-- The nybbles that have a twig, in ascending order. -/
def bits (bm : Nat) : List Nat := bits_below bm 16

/-- The nybble each slot of the child array stands for: the set bits of the bitmap
in ascending order, then `NybbleHead` when the branch has a head. -/
def slots (h : Bool) (bm : Nat) : List Nat := bits bm ++ (if h then [NybbleHead] else [])

/-- The order in which `next_leaf` visits the twigs of a branch: the head, which
is the last twig, first, then the others in the order of the array. -/
def visit_order {α : Type} (h : Bool) (ls : List (List α)) : List α :=
  if h then (ls.getLast?.getD []) ++ ls.dropLast.flatten else ls.flatten

mutual
/-- The entries (key and mapped value) below a node, in the order of a traversal. -/
def Node.entries : Node V → List (Key × V)
  | .leaf k v => [(k, v)]
  | .branch tw h _ _ _ => visit_order h (Node.entries_each tw)
/-- The entries below each node of a list. -/
def Node.entries_each : List (Node V) → List (List (Key × V))
  | [] => []
  | t :: ts => Node.entries t :: Node.entries_each ts
end

/-- The entries a container holds, in the order of a traversal. -/
def Trie.entries (t : Trie V) : List (Key × V) :=
  match t.root with
  | none => []
  | some r => r.entries

/-- The keys a container holds, in the order of a traversal. -/
def Trie.keys (t : Trie V) : List Key := t.entries.map Prod.fst

/-- Every key below the twig `t` has the nybble `n` at index `i`. -/
def labelled (i : Nat) (n : Nat) (t : Node V) : Prop :=
  ∀ e ∈ t.entries, nybble_at e.1 i = n

/-- The invariant of a subtree. In every branch: the bitmap has 16 bits; there are
at least two twigs and at most `capacity ≤ 17`; the slots of the array hold, in
this order, the twigs of the set bits of the bitmap in ascending order and then
the head, every key below a twig having the nybble of its slot at the index of
the branch; all keys below the branch have the same nybbles before that index;
and every twig satisfies the invariant. -/
inductive Node.WF : Node V → Prop
  | leaf (k : Key) (v : V) : Node.WF (.leaf k v)
  | branch (tw : List (Node V)) (h : Bool) (c i bm : Nat) :
      bm < 2 ^ 16 → 2 ≤ tw.length → tw.length ≤ c → c ≤ 17 →
      List.Forall₂ (labelled i) (slots h bm) tw →
      (∀ t1 ∈ tw, ∀ t2 ∈ tw, ∀ e1 ∈ t1.entries, ∀ e2 ∈ t2.entries,
        ∀ j < i, nybble_at e1.1 j = nybble_at e2.1 j) →
      (∀ t ∈ tw, Node.WF t) →
      Node.WF (.branch tw h c i bm)

/-- The invariant of a branch but for the number of its twigs, which may be one
as in a branch that was just constructed; `ref` is a key with which all keys
below the branch agree before its index. -/
structure Branch.Pre (b : Branch V) (ref : Key) : Prop where
  bitmap_lt : b.bitmap < 2 ^ 16
  size_pos : 1 ≤ b.twigs.length
  size_le : b.twigs.length ≤ b.capacity
  cap_ge : 2 ≤ b.capacity
  cap_le : b.capacity ≤ 17
  slots_ok : List.Forall₂ (labelled b.index) (slots b.head b.bitmap) b.twigs
  agree : ∀ t ∈ b.twigs, ∀ e ∈ t.entries, ∀ j < b.index, nybble_at e.1 j = nybble_at ref j
  twigs_wf : ∀ t ∈ b.twigs, t.WF

/-- The invariant of a container. -/
def Trie.WF (t : Trie V) : Prop :=
  match t.root with
  | none => True
  | some r => r.WF

/-- The entries an iterator has yet to visit: those below the nodes its stack
points to, from the top of the stack down. -/
def Iterator.remaining (it : Iterator V) : List (Key × V) :=
  (it.stk.map Node.entries).flatten

/-- The state of an iterator between two operations: the nodes its stack points
to satisfy the invariant, and the top of the stack, if any, is a leaf. -/
def Iterator.Valid (it : Iterator V) : Prop :=
  (∀ t ∈ it.stk, t.WF) ∧ ∀ top ∈ it.stk.head?, top.is_leaf = true

/-- The rank of a nybble: the past-end sentinel comes before every real nybble. -/
def nybble_rank (n : Nat) : Nat := if n = NybbleHead then 0 else n + 1

/-- The order of the nybble sequences: `a` comes before `b` when at the first
index where their nybbles differ the nybble of `a` has the lower rank. -/
def nybble_lt (a b : Key) : Prop :=
  ∃ i, (∀ j < i, nybble_at a j = nybble_at b j) ∧
    nybble_rank (nybble_at a i) < nybble_rank (nybble_at b i)

/-- A key all of whose nybble indices, the past-end index `2 * size` included,
fit the bit-field `index : 37` of a branch. -/
def addressable (k : Key) : Prop := 2 * k.length < 2 ^ index_bits

instance (k : Key) : Decidable (addressable k) := by
  unfold addressable
  exact inferInstance

/-- The containers that a finite sequence of `emplace` and `remove` builds from
the empty container, the keys emplaced being addressable: a longer key is
outside the range of keys the container represents, its nybble indices do not
fit the index field of a branch. -/
inductive Reachable : Trie V → Prop
  | empty : Reachable Trie.empty
  | emplace (t t' : Trie V) (k : Key) (v : V) :
      Reachable t → addressable k → t.emplace k v = some ((), t') → Reachable t'
  | remove (t t' : Trie V) (k : Key) (b : Bool) :
      Reachable t → t.remove k = some (b, t') → Reachable t'

/-- The client loop `for (kv : kvs) t.emplace(kv.first, kv.second)`. -/
def Trie.emplace_all (t : Trie V) : List (Key × V) → Option (Trie V)
  | [] => some t
  | (k, v) :: rest =>
    match t.emplace k v with
    | none => none
    | some (_, t') => Trie.emplace_all t' rest

/-- The client loop `for (k : ks) results.push_back(t.remove(k))`. -/
def Trie.remove_all (t : Trie V) : List Key → Option (List Bool × Trie V)
  | [] => some ([], t)
  | k :: rest =>
    match t.remove k with
    | none => none
    | some (b, t') =>
      match Trie.remove_all t' rest with
      | none => none
      | some (bs, t'') => some (b :: bs, t'')

/-- The client loop `for (; it != end(); ++it) visit(*it)` visits the entries
`l` in this order: after `j` increments, for `j` below the length of `l`, the
iterator differs from `end()` and `*it` is the entry `j` of `l`, and after as
many increments as `l` is long the iterator equals `end()`. -/
def Iterator.yields (it : Iterator V) (l : List (Key × V)) : Prop :=
  (∀ j, j < l.length → ∃ it', Iterator.advance j it = some it' ∧ it'.at_end = false ∧
    it'.deref = l.get? j) ∧
  ∃ it', Iterator.advance l.length it = some it' ∧ it'.at_end = true

/-- The entries `("ab", 6)`, `("ad", 7)`, `("a", 8)` of the demonstration program,
as bytes. -/
def sample_entries : List (Key × Nat) := [([97, 98], 6), ([97, 100], 7), ([97], 8)]

/-- The container after `emplace("ab", 6)`, `emplace("ad", 7)`, `emplace("a", 8)`: a
branch at nybble index 2 with the twigs of the nybbles 2 and 4 and the head. -/
def sample_trie : Trie Nat :=
  ⟨some (.branch [.leaf [97, 98] 6, .leaf [97, 100] 7, .leaf [97] 8] true 3 2 20)⟩

/-- The comparison of two keys byte by byte, as `std::string_view::compare` does
it: the first differing byte decides, and a key that is a strict start of the
other is the smaller. -/
def byte_lex_lt : Key → Key → Bool
  | [], [] => false
  | [], _ :: _ => true
  | _ :: _, [] => false
  | x :: xs, y :: ys => if x < y then true else if y < x then false else byte_lex_lt xs ys

/-- A call of a client: `emplace(key, val)` or `remove(key)`. -/
inductive Op (V : Type) where
  | emplace (key : Key) (val : V) : Op V
  | remove (key : Key) : Op V

/-- The key a call is made with. -/
def Op.key : Op V → Key
  | .emplace k _ => k
  | .remove k => k

/-- The keys that a call may be made with: `emplace` is called with addressable
keys. -/
def Op.admissible : Op V → Prop
  | .emplace k _ => addressable k
  | .remove _ => True

instance (op : Op V) : Decidable op.admissible := by
  cases op with
  | emplace k _ => exact inferInstanceAs (Decidable (addressable k))
  | remove _ => exact inferInstanceAs (Decidable True)

/-- One call on a container: what the container holds afterwards. -/
def Trie.apply (t : Trie V) : Op V → Option (Trie V)
  | .emplace k v => (t.emplace k v).map Prod.snd
  | .remove k => (t.remove k).map Prod.snd

/-- The calls of a list, one after the other. -/
def Trie.run (t : Trie V) : List (Op V) → Option (Trie V)
  | [] => some t
  | op :: ops =>
    match t.apply op with
    | none => none
    | some t' => Trie.run t' ops

mutual
/-- The branches of a subtree, a branch before the branches below its twigs. -/
def Node.branches : Node V → List (Branch V)
  | .leaf _ _ => []
  | .branch tw h c i bm => ⟨tw, h, c, i, bm⟩ :: Node.branches_each tw
/-- The branches of the subtrees of a list. -/
def Node.branches_each : List (Node V) → List (Branch V)
  | [] => []
  | t :: ts => Node.branches t ++ Node.branches_each ts
end

/-- The branches of a container. -/
def Trie.branches (t : Trie V) : List (Branch V) :=
  match t.root with
  | none => []
  | some r => r.branches

/-- The node a path of slot numbers leads to from a node. -/
def Node.subtree_at : List Nat → Node V → Option (Node V)
  | [], t => some t
  | _ :: _, .leaf _ _ => none
  | s :: p, .branch tw _ _ _ _ =>
    match tw.get? s with
    | none => none
    | some x => Node.subtree_at p x

/-- The tree with the node at the end of a path replaced by `x`, all else as it
was. -/
def Node.replace_at (x : Node V) : List Nat → Node V → Option (Node V)
  | [], _ => some x
  | _ :: _, .leaf _ _ => none
  | s :: p, .branch tw h c i bm =>
    match tw.get? s with
    | none => none
    | some y =>
      match Node.replace_at x p y with
      | none => none
      | some y' => some (.branch (tw.set s y') h c i bm)

/-- The layout of the child array of a branch: `size` is the number of set bits
of the bitmap plus one for a head; for every nybble whose bit is set, the twig at
the offset `twig_index` computes exists and all keys below it have that nybble at
the index of the branch; these offsets ascend with the nybbles; and a head is the
twig in the last slot, after the twigs of all nybbles, the keys below it having
ended at the index of the branch. -/
def Branch.layout_ok (b : Branch V) : Prop :=
  b.size = popcount b.bitmap + b.head.toNat ∧
  (∀ n, n < 16 → b.bitmap.testBit n = true →
    ∃ idx x, b.twig_index n = some idx ∧ b.twig idx = some x ∧ labelled b.index n x) ∧
  (∀ n1 n2, n1 < n2 → n2 < 16 → b.bitmap.testBit n1 = true → b.bitmap.testBit n2 = true →
    ∃ i1 i2, b.twig_index n1 = some i1 ∧ b.twig_index n2 = some i2 ∧ i1 < i2) ∧
  (b.head = true →
    (∃ x, b.get_head = some x ∧ b.twig (b.size - 1) = some x ∧
      labelled b.index NybbleHead x) ∧
    ∀ n, n < 16 → b.bitmap.testBit n = true →
      ∃ idx, b.twig_index n = some idx ∧ idx < b.size - 1)

mutual
/-- The branches the second walk of `Node::emplace` stands at, from a node on:
below a branch whose index is less than the mismatch index `ni` the walk steps
to the twig of the nybble of the key, at any other branch it ends. -/
def Node.emplace_visited (key : Key) (ni : Nat) : Node V → List (Branch V)
  | .leaf _ _ => []
  | .branch tw h c i bm =>
    let branch : Branch V := ⟨tw, h, c, i, bm⟩
    if branch.nybble_index < ni then
      match branch.twig_index (branch.twig_nybble key) with
      | none => [branch]
      | some idx => branch :: Node.emplace_visited_at key ni tw idx
    else [branch]
/-- The step `node = branch.twig(idx)` of that walk. -/
def Node.emplace_visited_at (key : Key) (ni : Nat) : List (Node V) → Nat → List (Branch V)
  | [], _ => []
  | t :: _, 0 => Node.emplace_visited key ni t
  | _ :: ts, idx + 1 => Node.emplace_visited_at key ni ts idx
end

/-- The entries `("12345", 1)`, `("abcxy", 5)`, `("ab", 6)`, `("ad", 7)`, `("a", 8)`
that the demonstration program emplaces, in this order, as bytes. -/
def demo_entries : List (Key × Nat) :=
  [([49, 50, 51, 52, 53], 1), ([97, 98, 99, 120, 121], 5), ([97, 98], 6), ([97, 100], 7),
    ([97], 8)]

/-- The container after these entries are emplaced: a root at nybble index 1 with
the leaf of `"12345"` and a branch at nybble index 2, which holds a branch at
nybble index 4 with the leaf of `"abcxy"` and the head `"ab"`, the leaf of `"ad"`
and the head `"a"`. -/
def demo_trie : Trie Nat :=
  ⟨some (.branch
    [.leaf [49, 50, 51, 52, 53] 1,
      .branch
        [.branch [.leaf [97, 98, 99, 120, 121] 5, .leaf [97, 98] 6] true 2 4 8,
          .leaf [97, 100] 7, .leaf [97] 8] true 3 2 20] false 2 1 72)⟩

/-- One turn of the loop of `Node::find_similar` at a node: the node the loop
steps to from a branch, the twig of the nybble of the key if there is one, else
the head if there is one, else the twig in slot 0. At a leaf the loop has ended. -/
def Node.similar_step (key : Key) : Node V → Option (Node V)
  | .leaf _ _ => none
  | .branch tw h c i bm =>
    let branch : Branch V := ⟨tw, h, c, i, bm⟩
    let n := branch.twig_nybble key
    if n = NybbleHead then
      if branch.has_head then branch.get_head else branch.twig 0
    else
      match branch.has_twig n with
      | none => none
      | some true =>
        match branch.twig_index n with
        | none => none
        | some idx => branch.twig idx
      | some false => if branch.has_head then branch.get_head else branch.twig 0

/-- The node the loop of `Node::find_similar` stands at after `n` turns. -/
def Node.similar_run (key : Key) : Nat → Node V → Option (Node V)
  | 0, t => some t
  | n + 1, t =>
    match Node.similar_step key t with
    | none => none
    | some x => Node.similar_run key n x

/-- Two keys of the same size that differ in the high four bits of one byte and
in nothing else. -/
def differ_in_high_bits (a b : Key) : Prop :=
  a.length = b.length ∧
  ∃ (j : Nat) (x y : Fin 256), a.get? j = some x ∧ b.get? j = some y ∧
    x.val >>> 4 ≠ y.val >>> 4 ∧ x.val &&& 0x0F = y.val &&& 0x0F ∧
    ∀ i, i ≠ j → a.get? i = b.get? i

/-- The traversal of a container from `begin()` visits the key `a` before the
key `b`. -/
def Trie.visits_before (t : Trie V) (a b : Key) : Prop :=
  ∃ (it : Iterator V) (l : List (Key × V)) (i j : Nat), t.begin = some it ∧ it.yields l ∧
    i < j ∧ (l.get? i).map Prod.fst = some a ∧ (l.get? j).map Prod.fst = some b

mutual
/-- The shape of a subtree: the subtree with every capacity set to 0 and every
mapped value `v` replaced by `f v`; the indices, the bitmaps, the head flags, the
keys and the arrangement of the twigs are kept. -/
def Node.reshape {W : Type} (f : V → W) : Node V → Node W
  | .leaf k v => .leaf k (f v)
  | .branch tw h _ i bm => .branch (Node.reshape_each f tw) h 0 i bm
/-- The shapes of the subtrees of a list. -/
def Node.reshape_each {W : Type} (f : V → W) : List (Node V) → List (Node W)
  | [] => []
  | t :: ts => Node.reshape f t :: Node.reshape_each f ts
end

/-- The shape of a container. -/
def Trie.reshape {W : Type} (f : V → W) (t : Trie V) : Trie W :=
  match t.root with
  | none => ⟨none⟩
  | some r => ⟨some (r.reshape f)⟩

end jzt

/-!
## The bitmap

The set bits of a bitmap as a list, `popcount`, and what setting and clearing a
bit does to that list.
-/

namespace jzt

theorem mem_bits_below {bm n i : Nat} : i ∈ bits_below bm n ↔ i < n ∧ bm.testBit i = true := by
  simp [bits_below]

theorem mem_bits_from {bm n i : Nat} :
    i ∈ bits_from bm n ↔ (n ≤ i ∧ i < 16) ∧ bm.testBit i = true := by
  simp only [bits_from, List.mem_filter, List.mem_range'_1]
  constructor
  · rintro ⟨⟨h1, h2⟩, h3⟩
    exact ⟨⟨h1, by omega⟩, h3⟩
  · rintro ⟨⟨h1, h2⟩, h3⟩
    exact ⟨⟨h1, by omega⟩, h3⟩

theorem mem_bits {bm i : Nat} : i ∈ bits bm ↔ i < 16 ∧ bm.testBit i = true := mem_bits_below

theorem filter_lt_range (n m : Nat) (h : n ≤ m) :
    (List.range m).filter (fun i => decide (i < n)) = List.range n := by
  induction m with
  | zero =>
    have : n = 0 := by omega
    subst this
    rfl
  | succ m ih =>
    rw [List.range_succ, List.filter_append]
    by_cases hn : n ≤ m
    · rw [ih hn]
      have : ¬ m < n := by omega
      simp [this]
    · have hnm : n = m + 1 := by omega
      subst hnm
      have h1 : (List.range m).filter (fun i => decide (i < m + 1)) = List.range m := by
        apply List.filter_eq_self.mpr
        intro a ha
        have := List.mem_range.mp ha
        simp
        omega
      rw [h1, List.range_succ]
      simp

theorem popcount_and_mask (bm n : Nat) (h : n ≤ 32) :
    popcount (bm &&& (2 ^ n - 1)) = (bits_below bm n).length := by
  unfold popcount bits_below
  rw [List.countP_eq_length_filter]
  have h1 : (fun i => (bm &&& (2 ^ n - 1)).testBit i)
      = (fun i => (bm.testBit i && decide (i < n))) := by
    funext i
    rw [Nat.testBit_and, Nat.testBit_two_pow_sub_one]
  rw [h1, ← List.filter_filter, filter_lt_range n 32 h]

theorem popcount_eq_length_bits (bm : Nat) (h : bm < 2 ^ 16) :
    popcount bm = (bits bm).length := by
  have h1 : bm &&& (2 ^ 16 - 1) = bm := by
    rw [Nat.and_pow_two_sub_one_eq_mod, Nat.mod_eq_of_lt h]
  have h2 := popcount_and_mask bm 16 (by omega)
  rw [h1] at h2
  exact h2

theorem and_shift_ne_zero (bm n : Nat) : (bm &&& (1 <<< n) ≠ 0) ↔ bm.testBit n = true := by
  rw [Nat.one_shiftLeft, Nat.and_two_pow]
  cases h : bm.testBit n
  · simp
  · simp

theorem bits_below_add (bm n : Nat) :
    bits_below bm (n + 1) = bits_below bm n ++ (if bm.testBit n then [n] else []) := by
  unfold bits_below
  rw [List.range_succ, List.filter_append]
  cases h : bm.testBit n <;> simp [h]

theorem bits_from_eq (bm n : Nat) (h : n < 16) :
    bits_from bm n = (if bm.testBit n then [n] else []) ++ bits_from bm (n + 1) := by
  unfold bits_from
  have h1 : 16 - n = (16 - (n + 1)) + 1 := by omega
  rw [h1, List.range'_succ]
  cases h : bm.testBit n <;> simp [h]

theorem bits_split (bm n : Nat) (h : n ≤ 16) : bits bm = bits_below bm n ++ bits_from bm n := by
  unfold bits bits_below bits_from
  have h1 : List.range 16 = List.range n ++ List.range' n (16 - n) := by
    rw [List.range_eq_range', List.range_eq_range']
    have h2 := List.range'_append_1 0 n (16 - n)
    rw [Nat.zero_add] at h2
    rw [h2]
    congr 1
    omega
  rw [h1, List.filter_append]

theorem bits_split_mem (bm n : Nat) (h : n < 16) (hb : bm.testBit n = true) :
    bits bm = bits_below bm n ++ n :: bits_from bm (n + 1) := by
  rw [bits_split bm n (by omega), bits_from_eq bm n h, hb]
  simp

theorem bits_split_not_mem (bm n : Nat) (h : n < 16) (hb : bm.testBit n = false) :
    bits bm = bits_below bm n ++ bits_from bm (n + 1) := by
  rw [bits_split bm n (by omega), bits_from_eq bm n h, hb]
  simp

theorem bits_below_congr {bm bm' n : Nat} (h : ∀ i < n, bm'.testBit i = bm.testBit i) :
    bits_below bm' n = bits_below bm n := by
  unfold bits_below
  apply List.filter_congr
  intro i hi
  exact h i (List.mem_range.mp hi)

theorem bits_from_congr {bm bm' n : Nat} (h : ∀ i, n ≤ i → i < 16 → bm'.testBit i = bm.testBit i) :
    bits_from bm' n = bits_from bm n := by
  unfold bits_from
  apply List.filter_congr
  intro i hi
  have := List.mem_range'_1.mp hi
  exact h i this.1 (by omega)

theorem set_bit_eq (bm n : Nat) (hbm : bm < 2 ^ 16) (h : n < 16) :
    (bm ||| (1 <<< n)) % 2 ^ bitmap_bits = bm ||| 2 ^ n := by
  rw [Nat.one_shiftLeft]
  apply Nat.mod_eq_of_lt
  apply Nat.or_lt_two_pow hbm
  exact Nat.pow_lt_pow_right (by omega) h

theorem set_bit_lt (bm n : Nat) (hbm : bm < 2 ^ 16) (h : n < 16) : bm ||| 2 ^ n < 2 ^ 16 :=
  Nat.or_lt_two_pow hbm (Nat.pow_lt_pow_right (by omega) h)

theorem testBit_set_bit (bm n i : Nat) :
    (bm ||| 2 ^ n).testBit i = (bm.testBit i || decide (n = i)) := by
  rw [Nat.testBit_or, Nat.testBit_two_pow]

theorem bits_set_bit (bm n : Nat) (h : n < 16) :
    bits (bm ||| 2 ^ n) = bits_below bm n ++ n :: bits_from bm (n + 1) := by
  rw [bits_split_mem (bm ||| 2 ^ n) n h (by simp [testBit_set_bit])]
  congr 1
  · apply bits_below_congr
    intro i hi
    have : ¬ n = i := by omega
    simp [testBit_set_bit, this]
  · congr 1
    apply bits_from_congr
    intro i hi _
    have : ¬ n = i := by omega
    simp [testBit_set_bit, this]

theorem clear_bit_lt (bm n : Nat) (hbm : bm < 2 ^ 16) :
    bm &&& ((2 ^ bitmap_bits - 1) ^^^ (1 <<< n)) < 2 ^ 16 :=
  lt_of_le_of_lt Nat.and_le_left hbm

theorem testBit_clear_bit (bm n i : Nat) (hi : i < 16) :
    (bm &&& ((2 ^ bitmap_bits - 1) ^^^ (1 <<< n))).testBit i
      = (bm.testBit i && !decide (n = i)) := by
  rw [Nat.testBit_and, Nat.testBit_xor, Nat.one_shiftLeft, Nat.testBit_two_pow,
    Nat.testBit_two_pow_sub_one]
  simp [bitmap_bits, hi]

theorem bits_clear_bit (bm n : Nat) (h : n < 16) :
    bits (bm &&& ((2 ^ bitmap_bits - 1) ^^^ (1 <<< n)))
      = bits_below bm n ++ bits_from bm (n + 1) := by
  rw [bits_split_not_mem _ n h (by simp [testBit_clear_bit _ _ _ h])]
  congr 1
  · apply bits_below_congr
    intro i hi
    have : ¬ n = i := by omega
    rw [testBit_clear_bit _ _ _ (by omega)]
    simp [this]
  · apply bits_from_congr
    intro i hi hi'
    have : ¬ n = i := by omega
    rw [testBit_clear_bit _ _ _ hi']
    simp [this]

theorem bits_zero : bits 0 = [] := by
  unfold bits bits_below
  simp

theorem bits_below_zero (n : Nat) : bits_below 0 n = [] := by
  unfold bits_below
  simp

theorem bits_from_zero (n : Nat) : bits_from 0 n = [] := by
  unfold bits_from
  simp

theorem bits_below_length_le (bm n : Nat) (h : n ≤ 16) :
    (bits_below bm n).length ≤ (bits bm).length := by
  rw [bits_split bm n h]
  simp

theorem bits_length_le (bm : Nat) : (bits bm).length ≤ 16 := by
  unfold bits bits_below
  calc ((List.range 16).filter _).length ≤ (List.range 16).length := List.length_filter_le _ _
    _ = 16 := by simp

theorem bits_nodup (bm : Nat) : (bits bm).Nodup := by
  unfold bits bits_below
  exact (List.nodup_range 16).filter _

theorem bits_sorted (bm : Nat) : (bits bm).Pairwise (· < ·) := by
  unfold bits bits_below
  exact (List.pairwise_lt_range 16).filter _

end jzt

/-!
## Nybbles and mismatch indices
-/

namespace jzt

theorem byte_xor_eq_zero (s k : Fin 256) : s.val ^^^ k.val = 0 ↔ s = k := by
  constructor
  · intro h
    apply Fin.ext
    exact Nat.xor_eq_zero.mp h
  · intro h
    subst h
    exact Nat.xor_self _

theorem low_xor (a b : Nat) : (a ^^^ b) &&& 0x0F = 0 ↔ a &&& 0x0F = b &&& 0x0F := by
  rw [Nat.and_xor_distrib_right]
  exact Nat.xor_eq_zero

theorem byte_eq_of_nybbles (s k : Fin 256) (h1 : s.val &&& 0x0F = k.val &&& 0x0F)
    (h2 : s.val >>> 4 = k.val >>> 4) : s = k := by
  apply Fin.ext
  have e1 : ∀ x : Nat, x &&& 0x0F = x % 16 := fun x => Nat.and_pow_two_sub_one_eq_mod x 4
  have e2 : ∀ x : Nat, x >>> 4 = x / 16 := fun x => Nat.shiftRight_eq_div_pow x 4
  rw [e1, e1] at h1
  rw [e2, e2] at h2
  omega

theorem low_lt (x : Nat) : x &&& 0x0F < 16 := by
  have e1 : x &&& 0x0F = x % 16 := Nat.and_pow_two_sub_one_eq_mod x 4
  omega

theorem high_lt (s : Fin 256) : s.val >>> 4 < 16 := by
  have e2 : s.val >>> 4 = s.val / 16 := Nat.shiftRight_eq_div_pow s.val 4
  have := s.isLt
  omega

theorem nybble_at_nil (i : Nat) : nybble_at [] i = NybbleHead := by
  simp [nybble_at]

theorem nybble_at_cons_zero (s : Fin 256) (ss : Key) : nybble_at (s :: ss) 0 = s.val &&& 0x0F := by
  simp [nybble_at]

theorem nybble_at_cons_one (s : Fin 256) (ss : Key) : nybble_at (s :: ss) 1 = s.val >>> 4 := by
  simp [nybble_at]

theorem nybble_at_cons_add_two (s : Fin 256) (ss : Key) (j : Nat) :
    nybble_at (s :: ss) (j + 2) = nybble_at ss j := by
  unfold nybble_at
  have h1 : (j + 2) / 2 = j / 2 + 1 := by omega
  have h2 : (j + 2) &&& 1 = j &&& 1 := by
    rw [Nat.and_one_is_mod, Nat.and_one_is_mod]
    omega
  simp only [h1, h2, List.get?_cons_succ]

theorem nybble_at_eq_head_iff (k : Key) (i : Nat) :
    nybble_at k i = NybbleHead ↔ k.length ≤ i / 2 := by
  unfold nybble_at
  simp only [List.get?_eq_getElem?]
  constructor
  · intro h
    by_contra hc
    push_neg at hc
    rw [List.getElem?_eq_getElem hc] at h
    simp only at h
    split at h
    · have := low_lt (k[i / 2]).val
      unfold NybbleHead at h
      omega
    · have := high_lt (k[i / 2])
      unfold NybbleHead at h
      omega
  · intro h
    rw [List.getElem?_eq_none h]

theorem nybble_at_lt (k : Key) (i : Nat) (h : i / 2 < k.length) : nybble_at k i < 16 := by
  unfold nybble_at
  simp only [List.get?_eq_getElem?]
  rw [List.getElem?_eq_getElem h]
  simp only
  split
  · exact low_lt _
  · exact high_lt _

theorem nybble_at_cases (k : Key) (i : Nat) : nybble_at k i < 16 ∨ nybble_at k i = NybbleHead := by
  by_cases h : i / 2 < k.length
  · exact Or.inl (nybble_at_lt k i h)
  · exact Or.inr ((nybble_at_eq_head_iff k i).mpr (by omega))

theorem nybble_at_head_mono (k : Key) (i j : Nat) (hij : i ≤ j)
    (h : nybble_at k i = NybbleHead) : nybble_at k j = NybbleHead := by
  rw [nybble_at_eq_head_iff] at *
  have : i / 2 ≤ j / 2 := Nat.div_le_div_right hij
  omega

theorem find_mismatch_loop_spec (sv key : Key) :
    ∀ (ss ks : Key) (i : Nat), sv.length = i + ss.length → key.length = i + ks.length →
      (find_mismatch_loop sv key i ss ks = none ↔ ss = ks) ∧
      (∀ m, find_mismatch_loop sv key i ss ks = some m →
        ∃ d, m = 2 * i + d ∧ (∀ j < d, nybble_at ss j = nybble_at ks j) ∧
          nybble_at ss d ≠ nybble_at ks d ∧ d ≤ 2 * min ss.length ks.length) := by
  intro ss
  induction ss with
  | nil =>
    intro ks i hs hk
    cases ks with
    | nil =>
      simp only [find_mismatch_loop]
      simp at hs hk
      simp [hs, hk]
    | cons k ks =>
      simp only [find_mismatch_loop]
      simp at hs hk
      have hne : ¬ sv.length = key.length := by omega
      simp only [hne, if_false]
      refine ⟨by simp, ?_⟩
      intro m hm
      refine ⟨0, ?_, by simp, ?_, by simp⟩
      · simp at hm
        omega
      · rw [nybble_at_nil]
        have := nybble_at_lt (k :: ks) 0 (by simp)
        unfold NybbleHead
        omega
  | cons s ss ih =>
    intro ks i hs hk
    cases ks with
    | nil =>
      simp only [find_mismatch_loop]
      simp at hs hk
      have hne : ¬ sv.length = key.length := by omega
      simp only [hne, if_false]
      refine ⟨by simp, ?_⟩
      intro m hm
      refine ⟨0, ?_, by simp, ?_, by simp⟩
      · simp at hm
        omega
      · rw [nybble_at_nil]
        have := nybble_at_lt (s :: ss) 0 (by simp)
        unfold NybbleHead
        omega
    | cons k ks =>
      simp only [find_mismatch_loop]
      by_cases hd : s.val ^^^ k.val = 0
      · have hsk : s = k := (byte_xor_eq_zero s k).mp hd
        subst hsk
        simp only [hd, ne_eq, not_true_eq_false, if_false]
        simp only [List.length_cons] at hs hk
        obtain ⟨ih1, ih2⟩ := ih ks (i + 1) (by omega) (by omega)
        refine ⟨by simp [ih1], ?_⟩
        intro m hm
        obtain ⟨d, hd1, hd2, hd3, hd4⟩ := ih2 m hm
        refine ⟨d + 2, by omega, ?_, ?_, ?_⟩
        · intro j hj
          match j with
          | 0 => simp [nybble_at_cons_zero]
          | 1 => simp [nybble_at_cons_one]
          | j + 2 =>
            rw [nybble_at_cons_add_two, nybble_at_cons_add_two]
            exact hd2 j (by omega)
        · rw [nybble_at_cons_add_two, nybble_at_cons_add_two]
          exact hd3
        · simp only [List.length_cons]
          omega
      · have hsk : s ≠ k := fun h => hd ((byte_xor_eq_zero s k).mpr h)
        simp only [ne_eq, hd, not_false_eq_true, if_true]
        refine ⟨?_, ?_⟩
        · constructor
          · intro h
            split at h <;> simp at h
          · intro h
            exact absurd (List.cons.inj h).1 hsk
        · intro m hm
          by_cases hl : (s.val ^^^ k.val) &&& 0x0F = 0
          · simp only [hl, if_true, Option.some.injEq] at hm
            have hlow := (low_xor s.val k.val).mp hl
            refine ⟨1, by omega, ?_, ?_, by simp only [List.length_cons]; omega⟩
            · intro j hj
              have : j = 0 := by omega
              subst this
              rw [nybble_at_cons_zero, nybble_at_cons_zero]
              exact hlow
            · rw [nybble_at_cons_one, nybble_at_cons_one]
              intro hh
              exact hsk (byte_eq_of_nybbles s k hlow hh)
          · simp only [hl, if_false, Option.some.injEq] at hm
            refine ⟨0, by omega, by simp, ?_, by simp⟩
            rw [nybble_at_cons_zero, nybble_at_cons_zero]
            intro hh
            exact hl ((low_xor s.val k.val).mpr hh)

/-- `find_mismatch` finds no mismatch exactly between equal keys. -/
theorem find_mismatch_eq_none (a b : Key) : find_mismatch a b = none ↔ a = b := by
  unfold find_mismatch
  have := (find_mismatch_loop_spec b a b a 0 (by simp) (by simp)).1
  rw [this]
  exact eq_comm

/-- A mismatch index is the least nybble index at which the two keys differ. -/
theorem find_mismatch_eq_some (a b : Key) (m : Nat) (h : find_mismatch a b = some m) :
    (∀ j < m, nybble_at a j = nybble_at b j) ∧ nybble_at a m ≠ nybble_at b m ∧
      m ≤ 2 * min a.length b.length := by
  unfold find_mismatch at h
  obtain ⟨d, hd1, hd2, hd3, hd4⟩ := (find_mismatch_loop_spec b a b a 0 (by simp) (by simp)).2 m h
  have : m = d := by omega
  subst this
  refine ⟨fun j hj => (hd2 j hj).symm, fun hh => hd3 hh.symm, ?_⟩
  rw [Nat.min_comm]
  exact hd4

/-- Keys with the same nybble at every index are equal. -/
theorem key_ext (a b : Key) (h : ∀ j, nybble_at a j = nybble_at b j) : a = b := by
  cases hm : find_mismatch a b with
  | none => exact (find_mismatch_eq_none a b).mp hm
  | some m => exact absurd (h m) (find_mismatch_eq_some a b m hm).2.1

theorem nybble_at_append_left (p r : Key) (j : Nat) (h : j / 2 < p.length) :
    nybble_at (p ++ r) j = nybble_at p j := by
  unfold nybble_at
  simp only [List.get?_eq_getElem?]
  rw [List.getElem?_append_left h]

theorem nybble_at_take (k : Key) (n j : Nat) :
    nybble_at (k.take n) j = if j / 2 < n then nybble_at k j else NybbleHead := by
  unfold nybble_at
  simp only [List.get?_eq_getElem?, List.getElem?_take]
  by_cases h : j / 2 < n
  · simp only [h, if_true]
  · simp only [h, if_false]

/-- The test `starts_with` in terms of nybbles. -/
theorem starts_with_iff (k p : Key) :
    starts_with k p = true ↔ ∀ j < 2 * p.length, nybble_at k j = nybble_at p j := by
  unfold starts_with
  rw [decide_eq_true_iff]
  constructor
  · intro h j hj
    have hk : k = p ++ k.drop p.length := by
      conv_lhs => rw [← List.take_append_drop p.length k, h]
    rw [hk]
    exact nybble_at_append_left p _ j (by omega)
  · intro h
    apply key_ext
    intro j
    rw [nybble_at_take]
    split
    · exact h j (by omega)
    · rename_i hj
      exact ((nybble_at_eq_head_iff p j).mpr (by omega)).symm

theorem starts_with_iff_isPrefix (k p : Key) : starts_with k p = true ↔ p <+: k := by
  unfold starts_with
  rw [decide_eq_true_iff]
  rw [List.prefix_iff_eq_take]
  exact eq_comm

end jzt

/-!
## Entries, slots and the invariant
-/

namespace jzt

variable {V : Type}

theorem entries_each_eq_map (tw : List (Node V)) :
    Node.entries_each tw = tw.map Node.entries := by
  induction tw with
  | nil => rfl
  | cons t ts ih => simp [Node.entries_each, ih]

theorem mem_visit_order {α : Type} (h : Bool) (ls : List (List α)) (e : α) :
    e ∈ visit_order h ls ↔ ∃ l ∈ ls, e ∈ l := by
  unfold visit_order
  cases h with
  | false => simp [List.mem_flatten]
  | true =>
    simp only [if_true]
    rcases List.eq_nil_or_concat ls with hnil | ⟨init, last, hl⟩
    · subst hnil
      simp
    · subst hl
      rw [List.concat_eq_append, List.getLast?_concat, List.dropLast_concat]
      simp only [Option.getD_some, List.mem_append, List.mem_flatten, List.mem_singleton]
      constructor
      · rintro (h1 | ⟨l, hl, he⟩)
        · exact ⟨last, Or.inr rfl, h1⟩
        · exact ⟨l, Or.inl hl, he⟩
      · rintro ⟨l, (hl | hl), he⟩
        · exact Or.inr ⟨l, hl, he⟩
        · subst hl
          exact Or.inl he

theorem entries_leaf (k : Key) (v : V) : (Node.leaf k v).entries = [(k, v)] := by
  simp [Node.entries]

theorem entries_branch (tw : List (Node V)) (h : Bool) (c i bm : Nat) :
    (Node.branch tw h c i bm).entries = visit_order h (tw.map Node.entries) := by
  rw [Node.entries, entries_each_eq_map]

theorem mem_entries_branch {tw : List (Node V)} {h : Bool} {c i bm : Nat} {e : Key × V} :
    e ∈ (Node.branch tw h c i bm).entries ↔ ∃ t ∈ tw, e ∈ t.entries := by
  rw [entries_branch, mem_visit_order]
  simp

theorem forall₂_getElem?_left {α β : Type} {R : α → β → Prop} {ls : List α} {tw : List β}
    (hf : List.Forall₂ R ls tw) : ∀ {j : Nat} {n : α}, ls[j]? = some n →
      ∃ t, tw[j]? = some t ∧ R n t := by
  induction hf with
  | nil => intro j n h; simp at h
  | cons hr _ ih =>
    intro j n h
    cases j with
    | zero =>
      simp at h
      subst h
      exact ⟨_, by simp, hr⟩
    | succ j =>
      simp at h
      obtain ⟨t, h1, h2⟩ := ih h
      exact ⟨t, by simpa using h1, h2⟩

theorem forall₂_getElem?_right {α β : Type} {R : α → β → Prop} {ls : List α} {tw : List β}
    (hf : List.Forall₂ R ls tw) : ∀ {j : Nat} {t : β}, tw[j]? = some t →
      ∃ n, ls[j]? = some n ∧ R n t := by
  induction hf with
  | nil => intro j n h; simp at h
  | cons hr _ ih =>
    intro j n h
    cases j with
    | zero =>
      simp at h
      subst h
      exact ⟨_, by simp, hr⟩
    | succ j =>
      simp at h
      obtain ⟨t, h1, h2⟩ := ih h
      exact ⟨t, by simpa using h1, h2⟩

theorem forall₂_set {α β : Type} {R : α → β → Prop} {ls : List α} {tw : List β}
    (hf : List.Forall₂ R ls tw) : ∀ (j : Nat) (t' : β), (∀ n, ls[j]? = some n → R n t') →
      List.Forall₂ R ls (tw.set j t') := by
  induction hf with
  | nil => intro j t' _; simp
  | cons hr hrest ih =>
    intro j t' h
    cases j with
    | zero =>
      simp only [List.set_cons_zero]
      exact List.Forall₂.cons (h _ (by simp)) hrest
    | succ j =>
      simp only [List.set_cons_succ]
      exact List.Forall₂.cons hr (ih j t' (fun n hn => h n (by simpa using hn)))

theorem forall₂_insert {α β : Type} {R : α → β → Prop} {l1 l2 : List α} {tw : List β}
    (hf : List.Forall₂ R (l1 ++ l2) tw) (a : α) (x : β) (hx : R a x) :
    List.Forall₂ R (l1 ++ a :: l2) (tw.take l1.length ++ x :: tw.drop l1.length) := by
  have h1 := List.forall₂_take l1.length hf
  have h2 := List.forall₂_drop l1.length hf
  rw [List.take_left'] at h1
  rw [List.drop_left'] at h2
  · exact List.rel_append h1 (List.Forall₂.cons hx h2)
  · rfl
  · rfl

theorem forall₂_erase {α β : Type} {R : α → β → Prop} {l1 l2 : List α} {a : α} {tw : List β}
    (hf : List.Forall₂ R (l1 ++ a :: l2) tw) :
    List.Forall₂ R (l1 ++ l2) (tw.eraseIdx l1.length) := by
  rw [List.eraseIdx_eq_take_drop_succ]
  have h1 := List.forall₂_take l1.length hf
  have h2 := List.forall₂_drop (l1.length + 1) hf
  rw [List.take_left'] at h1
  · have h3 : List.drop (l1.length + 1) (l1 ++ a :: l2) = l2 := by
      rw [← List.drop_drop, List.drop_left']
      · rfl
      · rfl
    rw [h3] at h2
    exact List.rel_append h1 h2
  · rfl

theorem forall₂_dropLast {α β : Type} {R : α → β → Prop} {l1 : List α} {a : α} {tw : List β}
    (hf : List.Forall₂ R (l1 ++ [a]) tw) : List.Forall₂ R l1 tw.dropLast := by
  have hlen := hf.length_eq
  simp at hlen
  have h1 := List.forall₂_take l1.length hf
  rw [List.take_left'] at h1
  · rw [List.dropLast_eq_take]
    have : tw.length - 1 = l1.length := by omega
    rw [this]
    exact h1
  · rfl

theorem forall₂_concat {α β : Type} {R : α → β → Prop} {l1 : List α} {tw : List β}
    (hf : List.Forall₂ R l1 tw) (a : α) (x : β) (hx : R a x) :
    List.Forall₂ R (l1 ++ [a]) (tw ++ [x]) :=
  List.rel_append hf (List.Forall₂.cons hx List.Forall₂.nil)

theorem head_not_mem_bits (bm : Nat) : NybbleHead ∉ bits bm := by
  intro h
  have := (mem_bits.mp h).1
  unfold NybbleHead at this
  omega

theorem mem_slots {h : Bool} {bm n : Nat} :
    n ∈ slots h bm ↔ (n < 16 ∧ bm.testBit n = true) ∨ (h = true ∧ n = NybbleHead) := by
  unfold slots
  rw [List.mem_append, mem_bits]
  cases h <;> simp

theorem slots_nodup (h : Bool) (bm : Nat) : (slots h bm).Nodup := by
  unfold slots
  rw [List.nodup_append]
  refine ⟨bits_nodup bm, by cases h <;> simp, ?_⟩
  intro a ha hb
  cases h with
  | false => simp at hb
  | true =>
    simp at hb
    subst hb
    exact head_not_mem_bits bm ha

theorem slots_length (h : Bool) (bm : Nat) : (slots h bm).length = (bits bm).length + h.toNat := by
  unfold slots
  cases h <;> simp

theorem slots_bit_index (h : Bool) (bm n : Nat) (hn : n < 16) (hb : bm.testBit n = true) :
    (slots h bm)[(bits_below bm n).length]? = some n := by
  unfold slots
  rw [bits_split_mem bm n hn hb, List.append_assoc]
  rw [List.getElem?_append_right (le_refl _)]
  simp

theorem slots_head_index (bm : Nat) : (slots true bm)[(bits bm).length]? = some NybbleHead := by
  unfold slots
  rw [List.getElem?_append_right (le_refl _)]
  simp

theorem slots_index_inj (h : Bool) (bm : Nat) {j1 j2 n : Nat}
    (h1 : (slots h bm)[j1]? = some n) (h2 : (slots h bm)[j2]? = some n) : j1 = j2 := by
  have hlt : j1 < (slots h bm).length := (List.getElem?_eq_some.mp h1).1
  exact List.getElem?_inj hlt (slots_nodup h bm) (h1.trans h2.symm)

/-- The twig of a set bit is at the slot `twig_index` computes. -/
theorem twig_of_bit {tw : List (Node V)} {h : Bool} {i bm n : Nat}
    (hf : List.Forall₂ (labelled i) (slots h bm) tw) (hn : n < 16)
    (hb : bm.testBit n = true) :
    ∃ t, tw[(bits_below bm n).length]? = some t ∧ labelled i n t :=
  forall₂_getElem?_left hf (slots_bit_index h bm n hn hb)

/-- The head is the last twig. -/
theorem twig_of_head {tw : List (Node V)} {i bm : Nat}
    (hf : List.Forall₂ (labelled i) (slots true bm) tw) :
    ∃ t, tw[tw.length - 1]? = some t ∧ labelled i NybbleHead t := by
  have hlen := hf.length_eq
  rw [slots_length] at hlen
  simp at hlen
  have := forall₂_getElem?_left hf (slots_head_index bm)
  have e : tw.length - 1 = (bits bm).length := by omega
  rw [e]
  exact this

theorem child_of_entry {tw : List (Node V)} {h : Bool} {c i bm : Nat} {e : Key × V}
    (hf : List.Forall₂ (labelled i) (slots h bm) tw)
    (he : e ∈ (Node.branch tw h c i bm).entries) :
    ∃ (j : Nat) (t : Node V), tw[j]? = some t ∧ e ∈ t.entries ∧ (slots h bm)[j]? = some (nybble_at e.1 i) := by
  obtain ⟨t, ht, het⟩ := mem_entries_branch.mp he
  obtain ⟨j, hj⟩ := List.mem_iff_getElem?.mp ht
  obtain ⟨n, hn, hl⟩ := forall₂_getElem?_right hf hj
  refine ⟨j, t, hj, het, ?_⟩
  rw [hl e het]
  exact hn

/-- An entry whose nybble at the index of the branch is real lies below the twig
of that nybble. -/
theorem child_of_entry_bit {tw : List (Node V)} {h : Bool} {c i bm : Nat} {e : Key × V}
    (hf : List.Forall₂ (labelled i) (slots h bm) tw)
    (he : e ∈ (Node.branch tw h c i bm).entries) (hn : nybble_at e.1 i ≠ NybbleHead) :
    nybble_at e.1 i < 16 ∧ bm.testBit (nybble_at e.1 i) = true ∧
      ∃ t, tw[(bits_below bm (nybble_at e.1 i)).length]? = some t ∧ e ∈ t.entries := by
  obtain ⟨j, t, hj, het, hs⟩ := child_of_entry hf he
  have hm : nybble_at e.1 i ∈ slots h bm := List.mem_iff_getElem?.mpr ⟨j, hs⟩
  rcases mem_slots.mp hm with ⟨h1, h2⟩ | ⟨_, h2⟩
  · refine ⟨h1, h2, t, ?_, het⟩
    have := slots_index_inj h bm hs (slots_bit_index h bm _ h1 h2)
    rw [← this]
    exact hj
  · exact absurd h2 hn

/-- An entry whose key has ended at the index of the branch lies below the head. -/
theorem child_of_entry_head {tw : List (Node V)} {h : Bool} {c i bm : Nat} {e : Key × V}
    (hf : List.Forall₂ (labelled i) (slots h bm) tw)
    (he : e ∈ (Node.branch tw h c i bm).entries) (hn : nybble_at e.1 i = NybbleHead) :
    h = true ∧ ∃ t, tw[tw.length - 1]? = some t ∧ e ∈ t.entries := by
  obtain ⟨j, t, hj, het, hs⟩ := child_of_entry hf he
  have hm : nybble_at e.1 i ∈ slots h bm := List.mem_iff_getElem?.mpr ⟨j, hs⟩
  rcases mem_slots.mp hm with ⟨h1, _⟩ | ⟨h1, _⟩
  · rw [hn] at h1
    unfold NybbleHead at h1
    omega
  · subst h1
    refine ⟨rfl, t, ?_, het⟩
    rw [hn] at hs
    have := slots_index_inj true bm hs (slots_head_index bm)
    have hlen := hf.length_eq
    rw [slots_length] at hlen
    simp at hlen
    have e2 : tw.length - 1 = j := by omega
    rw [e2]
    exact hj

theorem Node.WF.entries_ne_nil {t : Node V} (h : t.WF) : t.entries ≠ [] := by
  induction h with
  | leaf k v => simp [entries_leaf]
  | branch tw h c i bm _ hlen _ _ _ _ _ ih =>
    match tw, hlen, ih with
    | t :: ts, _, ih =>
      have h1 := ih t (by simp)
      obtain ⟨e, he⟩ := List.exists_mem_of_ne_nil _ h1
      intro hnil
      have : e ∈ (Node.branch (t :: ts) h c i bm).entries :=
        mem_entries_branch.mpr ⟨t, by simp, he⟩
      rw [hnil] at this
      simp at this

theorem Node.WF.exists_entry {t : Node V} (h : t.WF) : ∃ e, e ∈ t.entries :=
  List.exists_mem_of_ne_nil _ h.entries_ne_nil

end jzt

/-!
## The approximate descent
-/

namespace jzt

variable {V : Type}

theorem has_twig_eq (b : Branch V) (n : Nat) (hn : n ≠ NybbleHead) :
    b.has_twig n = some (b.bitmap.testBit n) := by
  unfold Branch.has_twig
  rw [if_neg hn]
  congr 1
  cases h : b.bitmap.testBit n
  · have := (and_shift_ne_zero b.bitmap n).not.mpr (by simp [h])
    simp [this]
  · have := (and_shift_ne_zero b.bitmap n).mpr h
    simp [this]

theorem twig_index_eq (b : Branch V) (n : Nat) (hn : n < 16) :
    b.twig_index n = some (bits_below b.bitmap n).length := by
  unfold Branch.twig_index
  have h1 : n ≠ NybbleHead := by
    unfold NybbleHead
    omega
  rw [if_neg h1, Nat.one_shiftLeft, popcount_and_mask b.bitmap n (by omega)]

theorem twig_index_head (b : Branch V) : b.twig_index NybbleHead = none := by
  simp [Branch.twig_index]

theorem find_similar_at_eq (tw : List (Node V)) (idx : Nat) (key : Key) :
    Node.find_similar_at tw idx key = tw[idx]?.bind (fun t => t.find_similar key) := by
  induction tw generalizing idx with
  | nil => simp [Node.find_similar_at]
  | cons t ts ih =>
    cases idx with
    | zero => simp [Node.find_similar_at]
    | succ idx => simp [Node.find_similar_at, ih]

theorem agree_le_of_lt {tw : List (Node V)} {h : Bool} {c i bm : Nat}
    (hagree : ∀ t1 ∈ tw, ∀ t2 ∈ tw, ∀ e1 ∈ t1.entries, ∀ e2 ∈ t2.entries,
      ∀ j < i, nybble_at e1.1 j = nybble_at e2.1 j)
    {e1 e2 : Key × V} (h1 : e1 ∈ (Node.branch tw h c i bm).entries)
    (h2 : e2 ∈ (Node.branch tw h c i bm).entries) {j : Nat} (hj : j < i) :
    nybble_at e1.1 j = nybble_at e2.1 j := by
  obtain ⟨t1, ht1, he1⟩ := mem_entries_branch.mp h1
  obtain ⟨t2, ht2, he2⟩ := mem_entries_branch.mp h2
  exact hagree t1 ht1 t2 ht2 e1 he1 e2 he2 j hj

/-- The approximate descent ends at a leaf of the subtree, and the key of that
leaf agrees with the probe at least as far as the key of any other entry. -/
theorem find_similar_spec {t : Node V} (hwf : t.WF) (key : Key) :
    ∃ sk sv, t.find_similar key = some (.leaf sk sv) ∧ (sk, sv) ∈ t.entries ∧
      ∀ e ∈ t.entries, ∀ m, (∀ j ≤ m, nybble_at e.1 j = nybble_at key j) →
        ∀ j ≤ m, nybble_at sk j = nybble_at key j := by
  induction hwf with
  | leaf k v =>
    refine ⟨k, v, by simp [Node.find_similar], by simp [entries_leaf], ?_⟩
    intro e he m hm
    simp [entries_leaf] at he
    subst he
    exact hm
  | branch tw h c i bm hbm hlen hcap hc17 hf hagree hwf ih =>
    -- the step into a twig below which every entry that has the nybble of the probe lies
    have step : ∀ (j0 : Nat) (t0 : Node V), tw[j0]? = some t0 →
        (∀ e ∈ (Node.branch tw h c i bm).entries, nybble_at e.1 i = nybble_at key i →
          e ∈ t0.entries) →
        ∃ sk sv, Node.find_similar_at tw j0 key = some (.leaf sk sv) ∧
          (sk, sv) ∈ (Node.branch tw h c i bm).entries ∧
          ∀ e ∈ (Node.branch tw h c i bm).entries, ∀ m,
            (∀ j ≤ m, nybble_at e.1 j = nybble_at key j) →
            ∀ j ≤ m, nybble_at sk j = nybble_at key j := by
      intro j0 t0 ht0 hC
      have hmem : t0 ∈ tw := List.mem_iff_getElem?.mpr ⟨j0, ht0⟩
      obtain ⟨sk, sv, h1, h2, h3⟩ := ih t0 hmem
      have hsk : (sk, sv) ∈ (Node.branch tw h c i bm).entries :=
        mem_entries_branch.mpr ⟨t0, hmem, h2⟩
      refine ⟨sk, sv, ?_, hsk, ?_⟩
      · rw [find_similar_at_eq, ht0]
        exact h1
      · intro e he m hm j hj
        by_cases hmi : m < i
        · have := agree_le_of_lt hagree hsk he (j := j) (by omega)
          rw [this]
          exact hm j hj
        · exact h3 e (hC e he (hm i (by omega))) m hm j hj
    have hfirst : ∃ t0, tw[0]? = some t0 := by
      match tw, hlen with
      | t :: _, _ => exact ⟨t, by simp⟩
    simp only [Node.find_similar, Branch.twig_nybble, Branch.has_head, Branch.size]
    by_cases hn : nybble_at key i = NybbleHead
    · simp only [hn, if_true]
      cases h with
      | true =>
        simp only [if_true]
        obtain ⟨t0, ht0, hl⟩ := twig_of_head hf
        apply step _ t0 ht0
        intro e he hne
        obtain ⟨_, t1, ht1, he1⟩ := child_of_entry_head hf he (hne.trans hn)
        rw [ht0] at ht1
        cases ht1
        exact he1
      | false =>
        simp only [Bool.false_eq_true, if_false]
        obtain ⟨t0, ht0⟩ := hfirst
        apply step _ t0 ht0
        intro e he hne
        have := (child_of_entry_head hf he (hne.trans hn)).1
        simp at this
    · simp only [hn, if_false]
      rw [has_twig_eq _ _ hn]
      have hn16 : nybble_at key i < 16 := by
        rcases nybble_at_cases key i with h1 | h1
        · exact h1
        · exact absurd h1 hn
      cases hb : bm.testBit (nybble_at key i) with
      | true =>
        simp only [hb]
        rw [twig_index_eq _ _ hn16]
        simp only
        obtain ⟨t0, ht0, hl⟩ := twig_of_bit hf hn16 hb
        apply step _ t0 ht0
        intro e he hne
        obtain ⟨_, _, t1, ht1, he1⟩ := child_of_entry_bit hf he (by rw [hne]; exact hn)
        rw [hne, ht0] at ht1
        cases ht1
        exact he1
      | false =>
        simp only [hb]
        have hnone : ∀ e ∈ (Node.branch tw h c i bm).entries,
            nybble_at e.1 i = nybble_at key i → False := by
          intro e he hne
          have := (child_of_entry_bit hf he (by rw [hne]; exact hn)).2.1
          rw [hne, hb] at this
          cases this
        cases h with
        | true =>
          simp only [if_true]
          obtain ⟨t0, ht0, hl⟩ := twig_of_head hf
          exact step _ t0 ht0 (fun e he hne => (hnone e he hne).elim)
        | false =>
          simp only [Bool.false_eq_true, if_false]
          obtain ⟨t0, ht0⟩ := hfirst
          exact step _ t0 ht0 (fun e he hne => (hnone e he hne).elim)

end jzt

/-!
## The order of the entries
-/

namespace jzt

variable {V : Type}

theorem nybble_lt_irrefl (a : Key) : ¬ nybble_lt a a := by
  rintro ⟨i, _, h⟩
  exact lt_irrefl _ h

theorem pairwise_of_forall₂ {α β : Type} {P : α → β → Prop} {Q : α → α → Prop}
    {S : β → β → Prop} {ls : List α} {tw : List β} (hf : List.Forall₂ P ls tw)
    (hq : ls.Pairwise Q)
    (hs : ∀ n1 n2 t1 t2, t1 ∈ tw → t2 ∈ tw → P n1 t1 → P n2 t2 → Q n1 n2 → S t1 t2) :
    tw.Pairwise S := by
  induction hf with
  | nil => exact List.Pairwise.nil
  | @cons a b l1 l2 hab hrest ih =>
    rw [List.pairwise_cons] at hq ⊢
    refine ⟨?_, ih hq.2 ?_⟩
    · intro t2 ht2
      obtain ⟨j, hj⟩ := List.mem_iff_getElem?.mp ht2
      obtain ⟨n2, hn2, hp2⟩ := forall₂_getElem?_right hrest hj
      have hmem : n2 ∈ l1 := List.mem_iff_getElem?.mpr ⟨j, hn2⟩
      exact hs a n2 b t2 (by simp) (by simp [ht2]) hab hp2 (hq.1 n2 hmem)
    · intro n1 n2 t1 t2 ht1 ht2
      exact hs n1 n2 t1 t2 (by simp [ht1]) (by simp [ht2])

theorem bits_rank_sorted (bm : Nat) :
    (bits bm).Pairwise (fun n1 n2 => nybble_rank n1 < nybble_rank n2) := by
  apply (bits_sorted bm).imp_of_mem
  intro a b ha hb hab
  have ha' := (mem_bits.mp ha).1
  have hb' := (mem_bits.mp hb).1
  unfold nybble_rank NybbleHead
  rw [if_neg (by omega), if_neg (by omega)]
  omega

theorem twigs_sorted {tw : List (Node V)} {i : Nat} {ls : List Nat}
    (hf : List.Forall₂ (labelled i) ls tw)
    (hq : ls.Pairwise (fun n1 n2 => nybble_rank n1 < nybble_rank n2))
    (hagree : ∀ t1 ∈ tw, ∀ t2 ∈ tw, ∀ e1 ∈ t1.entries, ∀ e2 ∈ t2.entries,
      ∀ j < i, nybble_at e1.1 j = nybble_at e2.1 j)
    (ih : ∀ t ∈ tw, t.entries.Pairwise (fun e1 e2 => nybble_lt e1.1 e2.1)) :
    (tw.map Node.entries).flatten.Pairwise (fun e1 e2 => nybble_lt e1.1 e2.1) := by
  rw [List.pairwise_flatten]
  constructor
  · intro l hl
    obtain ⟨t, ht, rfl⟩ := List.mem_map.mp hl
    exact ih t ht
  · rw [List.pairwise_map]
    apply pairwise_of_forall₂ hf hq
    intro n1 n2 t1 t2 ht1 ht2 hp1 hp2 hlt x hx y hy
    refine ⟨i, fun j hj => hagree t1 ht1 t2 ht2 x hx y hy j hj, ?_⟩
    rw [hp1 x hx, hp2 y hy]
    exact hlt

/-- The entries of a subtree that satisfies the invariant are in strictly
increasing order of their keys. -/
theorem entries_sorted {t : Node V} (hwf : t.WF) :
    t.entries.Pairwise (fun e1 e2 => nybble_lt e1.1 e2.1) := by
  induction hwf with
  | leaf k v => simp [entries_leaf]
  | branch tw h c i bm hbm hlen hcap hc17 hf hagree hwf ih =>
    rw [entries_branch]
    cases h with
    | false =>
      simp only [visit_order, Bool.false_eq_true, if_false]
      have hf' : List.Forall₂ (labelled i) (bits bm) tw := by
        simpa [slots] using hf
      exact twigs_sorted hf' (bits_rank_sorted bm) hagree ih
    | true =>
      obtain ⟨last, hlast, hl⟩ := twig_of_head hf
      have hf' : List.Forall₂ (labelled i) (bits bm) tw.dropLast := by
        apply forall₂_dropLast (a := NybbleHead)
        simpa [slots] using hf
      have hsplit : tw.dropLast ++ [last] = tw := by
        apply List.dropLast_append_getLast?
        rw [List.getLast?_eq_getElem?, hlast]
        rfl
      have hlm : last ∈ tw := List.mem_iff_getElem?.mpr ⟨_, hlast⟩
      have hsub : ∀ t ∈ tw.dropLast, t ∈ tw := fun t ht => List.dropLast_subset tw ht
      simp only [visit_order, if_true]
      have e1 : (tw.map Node.entries).getLast?.getD [] = last.entries := by
        conv_lhs => rw [← hsplit]
        simp
      have e2 : (tw.map Node.entries).dropLast = tw.dropLast.map Node.entries := by
        conv_lhs => rw [← hsplit]
        rw [List.map_append, List.map_singleton, List.dropLast_concat]
      rw [e1, e2, List.pairwise_append]
      refine ⟨ih last hlm, ?_, ?_⟩
      · exact twigs_sorted hf' (bits_rank_sorted bm)
          (fun t1 h1 t2 h2 => hagree t1 (hsub t1 h1) t2 (hsub t2 h2))
          (fun t ht => ih t (hsub t ht))
      · intro a ha b hb
        obtain ⟨l, hl1, hl2⟩ := List.mem_flatten.mp hb
        obtain ⟨t, ht, rfl⟩ := List.mem_map.mp hl1
        obtain ⟨j, hj⟩ := List.mem_iff_getElem?.mp ht
        obtain ⟨n, hn, hp⟩ := forall₂_getElem?_right hf' hj
        have hn16 : n < 16 := (mem_bits.mp (List.mem_iff_getElem?.mpr ⟨j, hn⟩)).1
        refine ⟨i, fun j hj => hagree last hlm t (hsub t ht) a ha b hl2 j hj, ?_⟩
        rw [hl a ha, hp b hl2]
        unfold nybble_rank NybbleHead
        rw [if_pos rfl, if_neg (by omega)]
        omega

/-- No two entries of a subtree that satisfies the invariant have the same key. -/
theorem keys_nodup {t : Node V} (hwf : t.WF) : (t.entries.map Prod.fst).Nodup := by
  have h := entries_sorted hwf
  rw [List.Nodup, List.pairwise_map]
  apply h.imp
  intro a b hab heq
  rw [heq] at hab
  exact nybble_lt_irrefl _ hab

theorem entries_nodup {t : Node V} (hwf : t.WF) : t.entries.Nodup :=
  (keys_nodup hwf).of_map _

theorem value_unique {t : Node V} (hwf : t.WF) {k : Key} {v1 v2 : V}
    (h1 : (k, v1) ∈ t.entries) (h2 : (k, v2) ∈ t.entries) : v1 = v2 := by
  have := List.inj_on_of_nodup_map (keys_nodup hwf) h1 h2 rfl
  exact (Prod.mk.inj this).2

/-- The approximate descent for a stored key ends at the leaf of that key. -/
theorem find_similar_of_mem {t : Node V} (hwf : t.WF) {k : Key} {v : V}
    (h : (k, v) ∈ t.entries) : t.find_similar k = some (.leaf k v) := by
  obtain ⟨sk, sv, h1, h2, h3⟩ := find_similar_spec hwf k
  have hk : sk = k := by
    apply key_ext
    intro j
    exact h3 (k, v) h j (fun _ _ => rfl) j (le_refl j)
  subst hk
  rw [value_unique hwf h h2]
  exact h1

/-- The approximate descent for a key that is not stored ends at a leaf with
another key. -/
theorem find_similar_of_not_mem {t : Node V} (hwf : t.WF) {k : Key}
    (h : k ∉ t.entries.map Prod.fst) :
    ∃ sk sv, t.find_similar k = some (.leaf sk sv) ∧ (sk, sv) ∈ t.entries ∧ sk ≠ k := by
  obtain ⟨sk, sv, h1, h2, _⟩ := find_similar_spec hwf k
  refine ⟨sk, sv, h1, h2, ?_⟩
  intro hk
  subst hk
  exact h (List.mem_map.mpr ⟨(sk, sv), h2, rfl⟩)

end jzt

/-!
## The loops that move twigs
-/

namespace jzt

variable {V : Type}

/-- The relocation loop reads the twigs `i`, …, `i + n - 1` in this order. -/
theorem relocate_eq (tw : List (Node V)) : ∀ (n i : Nat), i + n ≤ tw.length →
    Branch.relocate tw i n = some ((tw.drop i).take n) := by
  intro n
  induction n with
  | zero => intro i _; simp [Branch.relocate]
  | succ n ih =>
    intro i h
    have hi : i < tw.length := by omega
    simp only [Branch.relocate, List.get?_eq_getElem?, List.getElem?_eq_getElem hi,
      Option.bind_eq_bind, Option.some_bind]
    rw [ih (i + 1) (by omega)]
    simp only [Option.some_bind, Option.some.injEq]
    rw [List.drop_eq_getElem_cons hi, List.take_succ_cons]

/-- The loop of `twig_emplace_at` moves the twigs `mid` up by one slot, onto the
slot of `y`, and leaves the first of them in its slot too. -/
theorem shift_up_split (pre : List (Node V)) : ∀ (mid : List (Node V)) (y : Node V)
    (post : List (Node V)),
    Branch.shift_up pre.length mid.length (pre ++ mid ++ y :: post)
      = some (pre ++ (mid.head?.getD y) :: mid ++ post) := by
  intro mid
  induction mid using List.reverseRecOn with
  | nil =>
    intro y post
    simp [Branch.shift_up]
  | append_singleton r z ih =>
    intro y post
    have hlen : (r ++ [z]).length = r.length + 1 := by simp
    rw [hlen]
    have hget : (pre ++ (r ++ [z]) ++ y :: post).get? (pre.length + r.length) = some z := by
      rw [List.get?_eq_getElem?, List.append_assoc, List.append_assoc,
        List.getElem?_append_right (by omega)]
      have e : pre.length + r.length - pre.length = r.length := by omega
      rw [e, List.getElem?_append_right (le_refl _)]
      simp
    have hlt : pre.length + r.length + 1 < (pre ++ (r ++ [z]) ++ y :: post).length := by
      simp only [List.length_append, List.length_cons, List.length_nil]
      omega
    have hset : (pre ++ (r ++ [z]) ++ y :: post).set (pre.length + r.length + 1) z
        = pre ++ r ++ z :: (z :: post) := by
      have e1 : pre ++ (r ++ [z]) ++ y :: post = (pre ++ r ++ [z]) ++ y :: post := by
        simp [List.append_assoc]
      have e2 : pre.length + r.length + 1 = (pre ++ r ++ [z]).length := by
        simp only [List.length_append, List.length_singleton]
      rw [e1, e2, List.set_append_right _ _ (le_refl _)]
      simp [List.append_assoc]
    simp only [Branch.shift_up, hget, Option.bind_eq_bind, Option.some_bind, hlt, if_true, hset]
    rw [ih z (z :: post)]
    congr 1
    cases r with
    | nil => simp
    | cons m r' => simp [List.append_assoc]

/-- The steps of `twig_emplace_at` within the capacity put the new node at the
slot `idx` and leave the other twigs in their order. -/
theorem inplace_insert_eq (tw : List (Node V)) (idx : Nat) (x : Node V) (h : idx < tw.length) :
    ∃ last tw', tw.get? (tw.length - 1) = some last ∧
      Branch.shift_up idx (tw.length - 1 - idx) (tw ++ [last]) = some tw' ∧
      tw'.set idx x = tw.take idx ++ x :: tw.drop idx := by
  have hsplit : tw = tw.take idx ++ tw.drop idx := (List.take_append_drop idx tw).symm
  have hne : tw.drop idx ≠ [] := by
    intro h0
    have := congrArg List.length h0
    simp at this
    omega
  obtain ⟨r, z, hr⟩ : ∃ r z, tw.drop idx = r ++ [z] := by
    rcases List.eq_nil_or_concat (tw.drop idx) with h0 | ⟨r, z, h0⟩
    · exact absurd h0 hne
    · exact ⟨r, z, by rw [h0, List.concat_eq_append]⟩
  have hpl : (tw.take idx).length = idx := by
    rw [List.length_take]
    omega
  have hrl : r.length = tw.length - 1 - idx := by
    have := congrArg List.length hr
    simp at this
    omega
  have htw : tw = tw.take idx ++ r ++ [z] := by
    conv_lhs => rw [hsplit, hr]
    simp [List.append_assoc]
  have hlast : tw.get? (tw.length - 1) = some z := by
    rw [List.get?_eq_getElem?, ← List.getLast?_eq_getElem?]
    conv_lhs => rw [htw]
    simp
  have hbuf : tw ++ [z] = tw.take idx ++ r ++ z :: [z] := by
    conv_lhs => rw [htw]
    simp [List.append_assoc]
  have hup := shift_up_split (tw.take idx) r z [z]
  rw [hpl, hrl, ← hbuf] at hup
  have hset : ∀ (p : List (Node V)), p.length = idx →
      (p ++ (r.head?.getD z) :: r ++ [z]).set idx x = p ++ x :: r ++ [z] := by
    intro p hp
    subst hp
    rw [List.append_assoc, List.set_append_right _ _ (le_refl _)]
    simp
  refine ⟨z, _, hlast, hup, ?_⟩
  rw [hset _ hpl, hr]
  simp [List.append_assoc]

/-- The loop of `twig_erase_at` moves the twigs `mid` down by one slot, onto the
slot of `y`, and leaves the last of them in its slot too. -/
theorem shift_down_split : ∀ (mid pre : List (Node V)) (y : Node V) (post : List (Node V)),
    Branch.shift_down (pre.length + 1) mid.length (pre ++ y :: mid ++ post)
      = some (pre ++ mid ++ (mid.getLast?.getD y) :: post) := by
  intro mid
  induction mid with
  | nil =>
    intro pre y post
    simp [Branch.shift_down]
  | cons m r ih =>
    intro pre y post
    have hget : (pre ++ y :: (m :: r) ++ post).get? (pre.length + 1) = some m := by
      rw [List.get?_eq_getElem?, List.append_assoc, List.getElem?_append_right (by omega)]
      have e : pre.length + 1 - pre.length = 1 := by omega
      rw [e]
      simp
    have hlt : 0 < pre.length + 1 ∧ pre.length + 1 - 1 < (pre ++ y :: (m :: r) ++ post).length := by
      simp only [List.length_append, List.length_cons]
      omega
    have hset : (pre ++ y :: (m :: r) ++ post).set (pre.length + 1 - 1) m
        = (pre ++ [m]) ++ m :: r ++ post := by
      have e : pre.length + 1 - 1 = pre.length := by omega
      rw [e, List.append_assoc, List.set_append_right _ _ (le_refl _)]
      simp [List.append_assoc]
    simp only [List.length_cons, Branch.shift_down, hget, Option.bind_eq_bind,
      Option.some_bind, hlt, and_self, if_true, hset]
    have := ih (pre ++ [m]) m post
    simp only [List.length_append, List.length_singleton] at this
    rw [this]
    congr 1
    cases r with
    | nil => simp
    | cons m' r' =>
      have e : ∀ d : Node V, (m' :: r').getLast?.getD d
          = (m' :: r').getLast (List.cons_ne_nil m' r') := by
        intro d
        rw [List.getLast?_eq_getLast _ (List.cons_ne_nil m' r'), Option.getD_some]
      have e' : (m :: m' :: r').getLast?.getD y = (m' :: r').getLast?.getD m := by
        rw [e m, List.getLast?_eq_getLast _ (List.cons_ne_nil m (m' :: r')), Option.getD_some,
          List.getLast_cons (List.cons_ne_nil m' r')]
      rw [e']
      simp [List.append_assoc]

/-- The loop of `twig_erase_at` and the destruction of the last slot take the twig
at `idx` out and leave the other twigs in their order. -/
theorem erase_loop_eq (tw : List (Node V)) (idx : Nat) (h : idx < tw.length) :
    ∃ tw', Branch.shift_down (idx + 1) (tw.length - (idx + 1)) tw = some tw' ∧
      tw'.dropLast = tw.eraseIdx idx := by
  have hpl : (tw.take idx).length = idx := by
    rw [List.length_take]
    omega
  have hsplit : tw = tw.take idx ++ tw[idx] :: tw.drop (idx + 1) := by
    conv_lhs => rw [← List.take_append_drop idx tw, List.drop_eq_getElem_cons h]
  have hml : (tw.drop (idx + 1)).length = tw.length - (idx + 1) := List.length_drop _ _
  have := shift_down_split (tw.drop (idx + 1)) (tw.take idx) tw[idx] []
  rw [hpl, hml, List.append_nil, ← hsplit] at this
  refine ⟨_, this, ?_⟩
  rw [List.dropLast_concat, List.eraseIdx_eq_take_drop_succ]

/-- The method `twig_erase_at` takes the twig at `idx` out and leaves the other
twigs in their order, the capacity as it was. -/
theorem twig_erase_at_eq (b : Branch V) (idx : Nat) (h1 : 1 < b.size) (hidx : idx < b.size) :
    b.twig_erase_at idx = some { b with twigs := b.twigs.eraseIdx idx } := by
  unfold Branch.twig_erase_at
  rw [if_pos ⟨h1, hidx⟩]
  obtain ⟨tw', h1', h2'⟩ := erase_loop_eq b.twigs idx hidx
  unfold Branch.size
  rw [h1']
  simp only [Option.bind_eq_bind, Option.some_bind, h2']

end jzt

/-!
## The methods of `Branch` that put a twig in
-/

namespace jzt

variable {V : Type}

theorem mem_entries_ofBranch {b : Branch V} {e : Key × V} :
    e ∈ (Node.ofBranch b).entries ↔ ∃ t ∈ b.twigs, e ∈ t.entries := by
  unfold Node.ofBranch
  exact mem_entries_branch

theorem Branch.Pre.of_wf {tw : List (Node V)} {h : Bool} {c i bm : Nat}
    (hwf : (Node.branch tw h c i bm).WF) {ref : Key × V}
    (href : ref ∈ (Node.branch tw h c i bm).entries) :
    Branch.Pre ⟨tw, h, c, i, bm⟩ ref.1 := by
  cases hwf with
  | branch _ _ _ _ _ hbm hlen hcap hc17 hf hagree hwf =>
    obtain ⟨t0, ht0, he0⟩ := mem_entries_branch.mp href
    exact
      { bitmap_lt := hbm
        size_pos := by simp only; omega
        size_le := hcap
        cap_ge := by simp only; omega
        cap_le := hc17
        slots_ok := hf
        agree := fun t ht e he j hj => hagree t ht t0 ht0 e he ref he0 j hj
        twigs_wf := hwf }

theorem Branch.Pre.wf {b : Branch V} {ref : Key} (hp : b.Pre ref) (h2 : 2 ≤ b.twigs.length) :
    (Node.ofBranch b).WF := by
  unfold Node.ofBranch
  refine Node.WF.branch _ _ _ _ _ hp.bitmap_lt h2 hp.size_le hp.cap_le hp.slots_ok ?_ hp.twigs_wf
  intro t1 ht1 t2 ht2 e1 he1 e2 he2 j hj
  rw [hp.agree t1 ht1 e1 he1 j hj, hp.agree t2 ht2 e2 he2 j hj]

theorem Branch.Pre.size_eq {b : Branch V} {ref : Key} (hp : b.Pre ref) :
    b.twigs.length = (bits b.bitmap).length + b.head.toNat := by
  rw [← hp.slots_ok.length_eq, slots_length]

theorem bits_length_lt_of_not_mem (bm n : Nat) (hn : n < 16) (hb : bm.testBit n = false) :
    (bits bm).length < 16 := by
  have h1 := bits_length_le (bm ||| 2 ^ n)
  rw [bits_set_bit bm n hn] at h1
  rw [bits_split_not_mem bm n hn hb]
  simp only [List.length_append, List.length_cons] at h1 ⊢
  omega

theorem twig_emplace_at_eq (b : Branch V) (idx : Nat) (x : Node V) (h17 : b.size < 17)
    (hidx : idx ≤ b.size) (hsz : b.size ≤ b.capacity) (hc2 : 2 ≤ b.capacity)
    (hc17 : b.capacity ≤ 17) :
    ∃ c', b.twig_emplace_at idx x
        = some ⟨b.twigs.take idx ++ x :: b.twigs.drop idx, b.head, c', b.index, b.bitmap⟩ ∧
      b.size + 1 ≤ c' ∧ c' ≤ 17 ∧ b.capacity ≤ c' := by
  unfold Branch.twig_emplace_at
  rw [if_pos ⟨h17, hidx⟩]
  by_cases hfull : b.size + 1 > b.capacity
  · rw [if_pos hfull]
    unfold Branch.twig_expand_emplace_at
    rw [if_pos hc17]
    have hnew : b.size + 1 ≤ min (b.capacity * 3 / 2) 17 := by
      have : b.capacity * 3 / 2 ≥ b.capacity + 1 := by omega
      omega
    unfold Branch.size at hidx
    have hnew' : b.twigs.length + 1 ≤ min (b.capacity * 3 / 2) 17 := hnew
    have hlen : (b.twigs.take idx ++ x :: b.twigs.drop idx).length
        ≤ min (b.capacity * 3 / 2) 17 := by
      simp only [List.length_append, List.length_take, List.length_cons, List.length_drop]
      omega
    rw [relocate_eq b.twigs idx 0 (by omega)]
    unfold Branch.size
    rw [relocate_eq b.twigs (b.twigs.length - idx) idx (by omega)]
    simp only [Option.bind_eq_bind, Option.some_bind, List.drop_zero]
    rw [List.take_of_length_le (l := b.twigs.drop idx) (by simp), if_pos hlen]
    exact ⟨min (b.capacity * 3 / 2) 17, rfl, hnew', by omega, by omega⟩
  · rw [if_neg hfull]
    by_cases hlt : idx < b.size
    · rw [if_pos hlt]
      unfold Branch.size at hlt ⊢
      obtain ⟨last, tw', e1, e2, e3⟩ := inplace_insert_eq b.twigs idx x hlt
      rw [e1]
      simp only [Option.bind_eq_bind, Option.some_bind, e2, e3]
      unfold Branch.size at hfull
      exact ⟨b.capacity, rfl, by omega, hc17, le_refl _⟩
    · rw [if_neg hlt]
      have he : idx = b.twigs.length := by
        unfold Branch.size at hlt hidx
        omega
      refine ⟨b.capacity, ?_, by omega, hc17, le_refl _⟩
      rw [he]
      simp

theorem mem_insert_iff {α : Type} (l : List α) (idx : Nat) (x t : α) :
    t ∈ l.take idx ++ x :: l.drop idx ↔ t = x ∨ t ∈ l := by
  rw [List.mem_append, List.mem_cons]
  conv_rhs => rw [← List.take_append_drop idx l, List.mem_append]
  tauto

/-- A new twig for a real nybble that has none yet, put in by `twig_emplace_at` at
the slot `twig_index` computes, the bit of the nybble then set. -/
theorem emplace_at_bit {b : Branch V} {ref : Key} (hp : b.Pre ref) (x : Node V) (n : Nat)
    (hn : n < 16) (hb : b.bitmap.testBit n = false) (hx : x.WF)
    (hl : labelled b.index n x)
    (hxa : ∀ e ∈ x.entries, ∀ j < b.index, nybble_at e.1 j = nybble_at ref j) :
    ∃ b', b.twig_emplace_at (bits_below b.bitmap n).length x = some b' ∧
      Branch.Pre ⟨b'.twigs, b'.head, b'.capacity, b'.index,
        (b'.bitmap ||| (1 <<< n)) % 2 ^ bitmap_bits⟩ ref ∧
      2 ≤ b'.twigs.length ∧ b'.index = b.index ∧ b.capacity ≤ b'.capacity ∧
      (∀ t, t ∈ b'.twigs ↔ t = x ∨ t ∈ b.twigs) := by
  have hlen := hp.size_eq
  have hbits := bits_length_lt_of_not_mem b.bitmap n hn hb
  have hidx : (bits_below b.bitmap n).length ≤ b.size := by
    have := bits_below_length_le b.bitmap n (by omega)
    unfold Branch.size
    omega
  have h17 : b.size < 17 := by
    unfold Branch.size
    have : b.head.toNat ≤ 1 := by cases b.head <;> simp
    omega
  obtain ⟨c', hc, hc1, hc2, hc3⟩ :=
    twig_emplace_at_eq b _ x h17 hidx hp.size_le hp.cap_ge hp.cap_le
  refine ⟨_, hc, ?_, ?_, rfl, hc3, ?_⟩
  · have hsz : (b.twigs.take (bits_below b.bitmap n).length ++
        x :: b.twigs.drop (bits_below b.bitmap n).length).length = b.size + 1 := by
      unfold Branch.size at hidx ⊢
      simp only [List.length_append, List.length_take, List.length_cons, List.length_drop]
      omega
    exact
      { bitmap_lt := by
          simp only
          rw [set_bit_eq _ _ hp.bitmap_lt hn]
          exact set_bit_lt _ _ hp.bitmap_lt hn
        size_pos := by simp only; rw [hsz]; omega
        size_le := by simp only; rw [hsz]; exact hc1
        cap_ge := by
          have := hp.cap_ge
          show 2 ≤ c'
          omega
        cap_le := hc2
        slots_ok := by
          simp only
          rw [set_bit_eq _ _ hp.bitmap_lt hn]
          unfold slots
          rw [bits_set_bit _ _ hn, List.append_assoc, List.cons_append]
          apply forall₂_insert _ n x hl
          have := hp.slots_ok
          unfold slots at this
          rw [bits_split_not_mem _ _ hn hb, List.append_assoc] at this
          exact this
        agree := by
          intro t ht
          rcases (mem_insert_iff _ _ _ _).mp ht with h1 | h1
          · subst h1
            exact hxa
          · exact hp.agree t h1
        twigs_wf := by
          intro t ht
          rcases (mem_insert_iff _ _ _ _).mp ht with h1 | h1
          · subst h1
            exact hx
          · exact hp.twigs_wf t h1 }
  · simp only [List.length_append, List.length_take, List.length_cons, List.length_drop]
    have := hp.size_pos
    unfold Branch.size at hidx
    omega
  · intro t
    exact mem_insert_iff _ _ _ _

/-- A head for a branch that has none, put in by `twig_emplace_back`. -/
theorem emplace_back_head {b : Branch V} {ref : Key} (hp : b.Pre ref) (x : Node V)
    (hh : b.head = false) (hx : x.WF) (hl : labelled b.index NybbleHead x)
    (hxa : ∀ e ∈ x.entries, ∀ j < b.index, nybble_at e.1 j = nybble_at ref j) :
    ∃ b', Branch.twig_emplace_back { b with head := true } x = some b' ∧
      b'.Pre ref ∧ 2 ≤ b'.twigs.length ∧ b'.index = b.index ∧ b.capacity ≤ b'.capacity ∧
      (∀ t, t ∈ b'.twigs ↔ t = x ∨ t ∈ b.twigs) := by
  have hlen := hp.size_eq
  rw [hh] at hlen
  simp only [Bool.toNat_false, Nat.add_zero] at hlen
  have hbits := bits_length_le b.bitmap
  have h17 : b.twigs.length < 17 := by omega
  unfold Branch.twig_emplace_back
  have hs : Branch.size { b with head := true } = b.twigs.length := rfl
  rw [hs, if_pos h17]
  obtain ⟨c', hc, hc1, hc2, hc3⟩ :=
    twig_emplace_at_eq { b with head := true } b.twigs.length x h17 (le_refl _) hp.size_le
      hp.cap_ge hp.cap_le
  simp only [List.take_length, List.drop_length] at hc
  refine ⟨_, hc, ?_, ?_, rfl, hc3, ?_⟩
  · exact
      { bitmap_lt := hp.bitmap_lt
        size_pos := by simp
        size_le := by
          simp only [List.length_append, List.length_singleton]
          exact hc1
        cap_ge := by
          have h3 : b.capacity ≤ c' := hc3
          have := hp.cap_ge
          show 2 ≤ c'
          omega
        cap_le := hc2
        slots_ok := by
          simp only
          have := hp.slots_ok
          rw [hh] at this
          unfold slots at this ⊢
          simp only [Bool.false_eq_true, if_false, List.append_nil] at this
          simp only [if_true]
          exact forall₂_concat this _ _ hl
        agree := by
          intro t ht
          simp only [List.mem_append, List.mem_singleton] at ht
          rcases ht with h1 | h1
          · exact hp.agree t h1
          · subst h1
            exact hxa
        twigs_wf := by
          intro t ht
          simp only [List.mem_append, List.mem_singleton] at ht
          rcases ht with h1 | h1
          · exact hp.twigs_wf t h1
          · subst h1
            exact hx }
  · simp only [List.length_append, List.length_singleton]
    have := hp.size_pos
    omega
  · intro t
    simp only [List.mem_append, List.mem_singleton]
    tauto

/-- The method `twig_insert` for a leaf whose nybble at the index of the branch
has no twig yet. -/
theorem twig_insert_spec {b : Branch V} {ref : Key} (hp : b.Pre ref) (k : Key) (v : V)
    (hfree : ∀ e ∈ (Node.ofBranch b).entries, nybble_at e.1 b.index ≠ nybble_at k b.index)
    (hka : ∀ j < b.index, nybble_at k j = nybble_at ref j) :
    ∃ b', b.twig_insert_leaf k v = some b' ∧ (Node.ofBranch b').WF ∧ b'.index = b.index ∧
      b.capacity ≤ b'.capacity ∧
      (∀ e, e ∈ (Node.ofBranch b').entries ↔ e = (k, v) ∨ e ∈ (Node.ofBranch b).entries) := by
  have hxwf : (Node.leaf k v).WF := Node.WF.leaf k v
  have hxl : labelled b.index (nybble_at k b.index) (Node.leaf k v) := by
    intro e he
    simp [entries_leaf] at he
    subst he
    rfl
  have hxa : ∀ e ∈ (Node.leaf k v).entries, ∀ j < b.index,
      nybble_at e.1 j = nybble_at ref j := by
    intro e he
    simp [entries_leaf] at he
    subst he
    exact hka
  have hment : ∀ (b' : Branch V), (∀ t, t ∈ b'.twigs ↔ t = Node.leaf k v ∨ t ∈ b.twigs) →
      ∀ e, e ∈ (Node.ofBranch b').entries ↔ e = (k, v) ∨ e ∈ (Node.ofBranch b).entries := by
    intro b' hm e
    unfold Node.ofBranch
    rw [mem_entries_branch, mem_entries_branch]
    constructor
    · rintro ⟨t, ht, he⟩
      rcases (hm t).mp ht with h1 | h1
      · subst h1
        simp [entries_leaf] at he
        exact Or.inl he
      · exact Or.inr ⟨t, h1, he⟩
    · rintro (h1 | ⟨t, ht, he⟩)
      · exact ⟨Node.leaf k v, (hm _).mpr (Or.inl rfl), by simp [entries_leaf, h1]⟩
      · exact ⟨t, (hm t).mpr (Or.inr ht), he⟩
  unfold Branch.twig_insert_leaf Branch.twig_insert Branch.twig_nybble
  by_cases hn : nybble_at k b.index = NybbleHead
  · rw [if_pos hn]
    have hh : b.head = false := by
      cases hbh : b.head with
      | false => rfl
      | true =>
        have hs := hp.slots_ok
        rw [hbh] at hs
        obtain ⟨t0, ht0, hl0⟩ := twig_of_head hs
        have ht0m : t0 ∈ b.twigs := List.mem_iff_getElem?.mpr ⟨_, ht0⟩
        obtain ⟨e, he⟩ := (hp.twigs_wf t0 ht0m).exists_entry
        have := hfree e (by unfold Node.ofBranch; exact mem_entries_branch.mpr ⟨t0, ht0m, he⟩)
        rw [hl0 e he, hn] at this
        exact absurd rfl this
    rw [hh]
    simp only [Bool.false_eq_true, if_false]
    rw [hn] at hxl
    obtain ⟨b', h1, h2, h3, h4, h5, h6⟩ := emplace_back_head hp (Node.leaf k v) hh hxwf hxl hxa
    exact ⟨b', h1, h2.wf h3, h4, h5, hment b' h6⟩
  · rw [if_neg hn]
    have hn16 : nybble_at k b.index < 16 := by
      rcases nybble_at_cases k b.index with h1 | h1
      · exact h1
      · exact absurd h1 hn
    have hb : b.bitmap.testBit (nybble_at k b.index) = false := by
      cases hbt : b.bitmap.testBit (nybble_at k b.index) with
      | false => rfl
      | true =>
        obtain ⟨t0, ht0, hl0⟩ := twig_of_bit hp.slots_ok hn16 hbt
        have ht0m : t0 ∈ b.twigs := List.mem_iff_getElem?.mpr ⟨_, ht0⟩
        obtain ⟨e, he⟩ := (hp.twigs_wf t0 ht0m).exists_entry
        have := hfree e (by unfold Node.ofBranch; exact mem_entries_branch.mpr ⟨t0, ht0m, he⟩)
        rw [hl0 e he] at this
        exact absurd rfl this
    rw [has_twig_eq _ _ hn, hb, twig_index_eq _ _ hn16]
    obtain ⟨b', h1, h2, h3, h4, h5, h6⟩ := emplace_at_bit hp (Node.leaf k v) _ hn16 hb hxwf hxl hxa
    refine ⟨_, ?_, h2.wf h3, h4, h5, hment _ h6⟩
    simp [h1]

/-- The method `twig_insert(new_branch, n)` for a real nybble that has no twig. -/
theorem twig_insert_branch_spec {b : Branch V} {ref : Key} (hp : b.Pre ref) (nb : Branch V)
    (n : Nat) (hn : n < 16) (hb : b.bitmap.testBit n = false) (hx : (Node.ofBranch nb).WF)
    (hl : labelled b.index n (Node.ofBranch nb))
    (hxa : ∀ e ∈ (Node.ofBranch nb).entries, ∀ j < b.index,
      nybble_at e.1 j = nybble_at ref j) :
    ∃ b', b.twig_insert_branch nb n = some b' ∧ (Node.ofBranch b').WF ∧ b'.index = b.index ∧
      (∀ e, e ∈ (Node.ofBranch b').entries ↔
        e ∈ (Node.ofBranch nb).entries ∨ e ∈ (Node.ofBranch b).entries) := by
  unfold Branch.twig_insert_branch
  rw [twig_index_eq _ _ hn]
  obtain ⟨b', h1, h2, h3, h4, _, h6⟩ := emplace_at_bit hp (Node.ofBranch nb) _ hn hb hx hl hxa
  refine ⟨_, by simp [h1], h2.wf h3, h4, ?_⟩
  intro e
  rw [mem_entries_ofBranch, mem_entries_ofBranch (b := b)]
  constructor
  · rintro ⟨t, ht, he⟩
    rcases (h6 t).mp ht with h1 | h1
    · subst h1
      exact Or.inl he
    · exact Or.inr ⟨t, h1, he⟩
  · rintro (h1 | ⟨t, ht, he⟩)
    · exact ⟨_, (h6 _).mpr (Or.inl rfl), h1⟩
    · exact ⟨t, (h6 t).mpr (Or.inr ht), he⟩

end jzt

/-!
## The constructor of `Branch`, the burst, and twigs put back
-/

namespace jzt

variable {V : Type}

theorem new_index (m : Nat) (key : Key) (val : V) (hm : m < 2 ^ index_bits) :
    (Branch.new m key val).index = m := by
  unfold Branch.new
  exact Nat.mod_eq_of_lt hm

theorem new_twigs (m : Nat) (key : Key) (val : V) :
    (Branch.new m key val).twigs = [Node.leaf key val] := rfl

theorem new_entries (m : Nat) (key : Key) (val : V) (e : Key × V) :
    e ∈ (Node.ofBranch (Branch.new m key val)).entries ↔ e = (key, val) := by
  rw [mem_entries_ofBranch, new_twigs]
  simp [entries_leaf]

theorem new_testBit (m : Nat) (key : Key) (val : V) (n : Nat) (hn : n ≠ nybble_at key m) :
    (Branch.new m key val).bitmap.testBit n = false := by
  unfold Branch.new
  simp only
  split
  · exact Nat.zero_testBit n
  · rename_i hh
    have h16 : nybble_at key m < 16 := by
      rcases nybble_at_cases key m with h1 | h1
      · exact h1
      · exact absurd h1 hh
    rw [set_bit_eq 0 _ (by norm_num) h16, testBit_set_bit]
    have : ¬ nybble_at key m = n := fun h => hn h.symm
    simp [this]

theorem new_slots (m : Nat) (key : Key) (val : V) :
    slots (Branch.new m key val).head (Branch.new m key val).bitmap = [nybble_at key m] := by
  unfold Branch.new slots
  simp only
  by_cases hh : nybble_at key m = NybbleHead
  · simp [hh, bits_zero]
  · have h16 : nybble_at key m < 16 := by
      rcases nybble_at_cases key m with h1 | h1
      · exact h1
      · exact absurd h1 hh
    simp only [hh, if_false, decide_False, Bool.false_eq_true, List.append_nil]
    rw [set_bit_eq 0 _ (by norm_num) h16, bits_set_bit 0 _ h16, bits_below_zero, bits_from_zero]
    rfl

/-- The branch that `Branch(i, leaf)` constructs satisfies the invariant but for
having one twig only. -/
theorem new_pre (m : Nat) (key : Key) (val : V) (hm : m < 2 ^ index_bits) :
    (Branch.new m key val).Pre key :=
  { bitmap_lt := by
      unfold Branch.new
      simp only
      split
      · norm_num
      · exact Nat.mod_lt _ (by unfold bitmap_bits; norm_num)
    size_pos := by simp [new_twigs]
    size_le := by simp [new_twigs, Branch.new]
    cap_ge := by simp [Branch.new]
    cap_le := by simp [Branch.new]
    slots_ok := by
      rw [new_slots, new_twigs, new_index m key val hm]
      refine List.Forall₂.cons ?_ List.Forall₂.nil
      intro e he
      simp [entries_leaf] at he
      subst he
      rfl
    agree := by
      intro t ht e he j _
      rw [new_twigs] at ht
      simp at ht
      subst ht
      simp [entries_leaf] at he
      subst he
      rfl
    twigs_wf := by
      intro t ht
      rw [new_twigs] at ht
      simp at ht
      subst ht
      exact Node.WF.leaf key val }

/-- A burst: the leaf becomes a branch at the mismatch index that holds the old
entry and the new one. -/
theorem leaf_burst_spec (k0 : Key) (v0 : V) (key : Key) (val : V) (m : Nat)
    (hm : m < 2 ^ index_bits) (hagree : ∀ j < m, nybble_at k0 j = nybble_at key j)
    (hdiff : nybble_at k0 m ≠ nybble_at key m) :
    ∃ t', Node.leaf_burst m key val (Node.leaf k0 v0) = some t' ∧ t'.WF ∧
      (∀ e, e ∈ t'.entries ↔ e = (key, val) ∨ e = (k0, v0)) := by
  have hp := new_pre m key val hm
  have hidx := new_index m key val hm
  obtain ⟨b', h1, h2, _, _, h5⟩ := twig_insert_spec hp k0 v0
    (by
      intro e he
      rw [new_entries] at he
      subst he
      rw [hidx]
      exact fun h => hdiff h.symm)
    (by
      rw [hidx]
      exact hagree)
  refine ⟨Node.ofBranch b', ?_, h2, ?_⟩
  · simp [Node.leaf_burst, h1]
  · intro e
    rw [h5, new_entries]
    tauto

theorem emplace_walk_at_eq (key : Key) (val : V) (ni : Nat) (sk : Key) (tw : List (Node V))
    (idx : Nat) :
    Node.emplace_walk_at key val ni sk tw idx =
      match tw[idx]? with
      | none => none
      | some t =>
        match Node.emplace_walk key val ni sk t with
        | none => none
        | some t' => some (tw.set idx t') := by
  induction tw generalizing idx with
  | nil => simp [Node.emplace_walk_at]
  | cons t ts ih =>
    cases idx with
    | zero =>
      cases hw : Node.emplace_walk key val ni sk t <;>
        simp [Node.emplace_walk_at, hw]
    | succ idx =>
      rw [Node.emplace_walk_at, ih]
      cases hg : ts[idx]? with
      | none => simp [hg]
      | some t0 =>
        cases hw : Node.emplace_walk key val ni sk t0 <;>
          simp [hg, hw]

theorem mem_entries_set {tw : List (Node V)} {h : Bool} {c i bm : Nat} {idx : Nat}
    {t0 t0' : Node V} (h0 : tw[idx]? = some t0) (e : Key × V) :
    e ∈ (Node.branch (tw.set idx t0') h c i bm).entries ↔
      e ∈ t0'.entries ∨ ∃ t j, j ≠ idx ∧ tw[j]? = some t ∧ e ∈ t.entries := by
  have hlt : idx < tw.length := (List.getElem?_eq_some.mp h0).1
  rw [mem_entries_branch]
  constructor
  · rintro ⟨t, ht, he⟩
    obtain ⟨j, hj⟩ := List.mem_iff_getElem?.mp ht
    rw [List.getElem?_set] at hj
    by_cases hij : idx = j
    · simp only [hij, if_true] at hj
      subst hij
      simp only [hlt, if_true, Option.some.injEq] at hj
      subst hj
      exact Or.inl he
    · simp only [hij, if_false] at hj
      exact Or.inr ⟨t, j, fun h => hij h.symm, hj, he⟩
  · rintro (he | ⟨t, j, hj, hjt, he⟩)
    · refine ⟨t0', ?_, he⟩
      apply List.mem_iff_getElem?.mpr
      exact ⟨idx, by rw [List.getElem?_set]; simp [hlt]⟩
    · refine ⟨t, ?_, he⟩
      apply List.mem_iff_getElem?.mpr
      refine ⟨j, ?_⟩
      have hne : ¬ idx = j := fun h => hj h.symm
      rw [List.getElem?_set, if_neg hne]
      exact hjt

theorem mem_entries_split {tw : List (Node V)} {h : Bool} {c i bm : Nat} {idx : Nat}
    {t0 : Node V} (h0 : tw[idx]? = some t0) (e : Key × V) :
    e ∈ (Node.branch tw h c i bm).entries ↔
      e ∈ t0.entries ∨ ∃ t j, j ≠ idx ∧ tw[j]? = some t ∧ e ∈ t.entries := by
  have := @mem_entries_set V tw h c i bm idx t0 t0 h0 e
  rw [← this]
  have hs : tw.set idx t0 = tw := by
    apply List.ext_getElem?
    intro j
    rw [List.getElem?_set]
    by_cases hij : idx = j
    · subst hij
      have hlt : idx < tw.length := (List.getElem?_eq_some.mp h0).1
      simp [hlt, h0]
    · simp [hij]
  rw [hs]

end jzt

/-!
## The second walk of `emplace`
-/

namespace jzt

variable {V : Type}

/-- No key below a branch has ended before the index of the branch. -/
theorem branch_not_ended {tw : List (Node V)} {h : Bool} {c i bm : Nat}
    (hwf : (Node.branch tw h c i bm).WF) {e : Key × V}
    (he : e ∈ (Node.branch tw h c i bm).entries) {j : Nat} (hj : j < i) :
    nybble_at e.1 j ≠ NybbleHead := by
  intro hend
  cases hwf with
  | branch _ _ _ _ _ hbm hlen hcap hc17 hf hagree hwfs =>
    have hall : ∀ t ∈ tw, ∀ e' ∈ t.entries, nybble_at e'.1 i = NybbleHead := by
      intro t ht e' he'
      obtain ⟨t0, ht0, he0⟩ := mem_entries_branch.mp he
      have h1 := hagree t ht t0 ht0 e' he' e he0 j hj
      rw [hend] at h1
      exact nybble_at_head_mono e'.1 j i (by omega) h1
    have hlab : ∀ (a : Nat) (t : Node V), tw[a]? = some t →
        (slots h bm)[a]? = some NybbleHead := by
      intro a t ha
      obtain ⟨n, hn, hl⟩ := forall₂_getElem?_right hf ha
      have htm : t ∈ tw := List.mem_iff_getElem?.mpr ⟨a, ha⟩
      obtain ⟨e', he'⟩ := (hwfs t htm).exists_entry
      rw [← hall t htm e' he', hl e' he']
      exact hn
    match tw, hlen, hlab with
    | t1 :: t2 :: _, _, hlab =>
      have h0 := hlab 0 t1 (by simp)
      have h1 := hlab 1 t2 (by simp)
      have := slots_index_inj h bm h0 h1
      omega

/-- The second walk of `emplace`: from a subtree that holds `sk`, a key that
agrees with the new key before the mismatch index `m` while no key of the subtree
agrees with it up to `m`, the walk is free of failures and leaves a subtree that
satisfies the invariant and holds the new entry besides the old ones. -/
theorem emplace_walk_spec (key : Key) (val : V) (m : Nat) (hm : m < 2 ^ index_bits) (sk : Key)
    (hska : ∀ j < m, nybble_at sk j = nybble_at key j) {t : Node V} (hwf : t.WF) :
    (∃ sv, (sk, sv) ∈ t.entries) →
    (∀ e ∈ t.entries, ¬ ∀ j ≤ m, nybble_at e.1 j = nybble_at key j) →
    ∃ t', Node.emplace_walk key val m sk t = some t' ∧ t'.WF ∧
      (∀ e, e ∈ t'.entries ↔ e = (key, val) ∨ e ∈ t.entries) := by
  induction hwf with
  | leaf k0 v0 =>
    rintro ⟨sv, hsk⟩ hbest
    simp only [entries_leaf, List.mem_singleton, Prod.mk.injEq] at hsk
    obtain ⟨hsk1, _⟩ := hsk
    subst hsk1
    have hdiff : nybble_at sk m ≠ nybble_at key m := by
      intro heq
      apply hbest (sk, v0) (by simp [entries_leaf])
      intro j hj
      rcases Nat.lt_or_eq_of_le hj with h1 | h1
      · exact hska j h1
      · rw [h1]
        exact heq
    obtain ⟨t', h1, h2, h3⟩ := leaf_burst_spec sk v0 key val m hm hska hdiff
    refine ⟨t', ?_, h2, ?_⟩
    · simp only [Node.emplace_walk]
      exact h1
    · intro e
      rw [h3 e]
      simp [entries_leaf]
  | branch tw h c i bm hbm hlen hcap hc17 hf hagree hwfs ih =>
    rintro ⟨sv, hsk⟩ hbest
    have hwfb : (Node.branch tw h c i bm).WF :=
      Node.WF.branch tw h c i bm hbm hlen hcap hc17 hf hagree hwfs
    have hdiff : nybble_at sk m ≠ nybble_at key m := by
      intro heq
      apply hbest (sk, sv) hsk
      intro j hj
      rcases Nat.lt_or_eq_of_le hj with h1 | h1
      · exact hska j h1
      · rw [h1]
        exact heq
    have hsk_all : ∀ e ∈ (Node.branch tw h c i bm).entries, ∀ j < i,
        nybble_at e.1 j = nybble_at sk j :=
      fun e he j hj => agree_le_of_lt hagree he hsk hj
    simp only [Node.emplace_walk, Branch.nybble_index, Branch.twig_nybble]
    by_cases h1 : i < m
    · rw [if_pos h1]
      have hki : nybble_at sk i = nybble_at key i := hska i h1
      have hne : nybble_at sk i ≠ NybbleHead := by
        intro hend
        apply hdiff
        rw [nybble_at_head_mono sk i m (by omega) hend]
        rw [hki] at hend
        rw [nybble_at_head_mono key i m (by omega) hend]
      obtain ⟨hn16, hb, t0, ht0, hsk0⟩ := child_of_entry_bit hf hsk hne
      simp only at hn16 hb ht0
      rw [hki] at hn16 hb ht0
      obtain ⟨t0l, ht0l, hl0⟩ := twig_of_bit hf hn16 hb
      rw [ht0] at ht0l
      cases ht0l
      have ht0m : t0 ∈ tw := List.mem_iff_getElem?.mpr ⟨_, ht0⟩
      have hsub : ∀ e ∈ t0.entries, e ∈ (Node.branch tw h c i bm).entries :=
        fun e he => mem_entries_branch.mpr ⟨t0, ht0m, he⟩
      obtain ⟨t0', hw1, hw2, hw3⟩ := ih t0 ht0m ⟨sv, hsk0⟩ (fun e he => hbest e (hsub e he))
      rw [twig_index_eq _ _ hn16]
      simp only [emplace_walk_at_eq, ht0, hw1]
      have hent : ∀ e ∈ t0'.entries, (∀ j < i, nybble_at e.1 j = nybble_at sk j) ∧
          nybble_at e.1 i = nybble_at key i := by
        intro e he
        rcases (hw3 e).mp he with h2 | h2
        · subst h2
          exact ⟨fun j hj => (hska j (by omega)).symm, rfl⟩
        · exact ⟨hsk_all e (hsub e h2), hl0 e h2⟩
      have hmemset : ∀ t ∈ tw.set (bits_below bm (nybble_at key i)).length t0',
          ∀ e ∈ t.entries, ∀ j < i, nybble_at e.1 j = nybble_at sk j := by
        intro t ht e he
        rcases List.mem_or_eq_of_mem_set ht with h2 | h2
        · exact hsk_all e (mem_entries_branch.mpr ⟨t, h2, he⟩)
        · subst h2
          exact (hent e he).1
      refine ⟨_, rfl, ?_, ?_⟩
      · refine Node.WF.branch _ _ _ _ _ hbm (by rw [List.length_set]; exact hlen)
          (by rw [List.length_set]; exact hcap) hc17 ?_ ?_ ?_
        · apply forall₂_set hf
          intro n hn
          rw [slots_bit_index h bm _ hn16 hb] at hn
          cases hn
          exact fun e he => (hent e he).2
        · intro t1 ht1 t2 ht2 e1 he1 e2 he2 j hj
          rw [hmemset t1 ht1 e1 he1 j hj, hmemset t2 ht2 e2 he2 j hj]
        · intro t ht
          rcases List.mem_or_eq_of_mem_set ht with h2 | h2
          · exact hwfs t h2
          · subst h2
            exact hw2
      · intro e
        rw [mem_entries_set ht0, mem_entries_split ht0, hw3 e]
        tauto
    · rw [if_neg h1]
      have hp : Branch.Pre ⟨tw, h, c, i, bm⟩ sk := Branch.Pre.of_wf hwfb hsk
      by_cases h2 : i = m
      · rw [if_pos h2]
        subst h2
        obtain ⟨b', hb1, hb2, _, _, hb5⟩ := twig_insert_spec hp key val
          (by
            intro e he heq
            apply hbest e he
            intro j hj
            rcases Nat.lt_or_eq_of_le hj with h3 | h3
            · rw [hsk_all e he j h3]
              exact hska j h3
            · rw [h3]
              exact heq)
          (fun j hj => (hska j hj).symm)
        simp only [hb1]
        exact ⟨_, rfl, hb2, hb5⟩
      · rw [if_neg h2]
        have hmi : m < i := by omega
        have hnp := new_pre m key val hm
        have hidx := new_index m key val hm
        have hn16 : nybble_at sk m < 16 := by
          rcases nybble_at_cases sk m with h3 | h3
          · exact h3
          · exact absurd h3 (branch_not_ended hwfb hsk hmi)
        obtain ⟨b', hb1, hb2, _, hb5⟩ := twig_insert_branch_spec hnp ⟨tw, h, c, i, bm⟩
          (nybble_at sk m) hn16 (new_testBit m key val _ hdiff) hwfb
          (by
            rw [hidx]
            intro e he
            exact hsk_all e he m hmi)
          (by
            rw [hidx]
            intro e he j hj
            rw [hsk_all e he j (by omega)]
            exact hska j hj)
        simp only [hb1]
        refine ⟨_, rfl, hb2, ?_⟩
        intro e
        rw [hb5 e, new_entries]
        have : Node.ofBranch (⟨tw, h, c, i, bm⟩ : Branch V) = Node.branch tw h c i bm := rfl
        rw [this]
        tauto

end jzt

/-!
## `Node::emplace`, `Node::contains`, `Node::find`
-/

namespace jzt

variable {V : Type}

theorem mismatch_lt {sk key : Key} {m : Nat} (h : find_mismatch sk key = some m)
    (ha : addressable key) : m < 2 ^ index_bits := by
  have := (find_mismatch_eq_some sk key m h).2.2
  unfold addressable at ha
  have h2 : min sk.length key.length ≤ key.length := Nat.min_le_right _ _
  omega

theorem mem_keys_iff {t : Node V} {k : Key} :
    k ∈ t.entries.map Prod.fst ↔ ∃ v, (k, v) ∈ t.entries := by
  simp [List.mem_map]

/-- The method `Node::emplace` for a key that the subtree holds: no change, and
the result is `false`. -/
theorem node_emplace_present {t : Node V} (hwf : t.WF) (key : Key) (val : V)
    (hk : key ∈ t.entries.map Prod.fst) : t.emplace key val = some (false, t) := by
  obtain ⟨v, hv⟩ := mem_keys_iff.mp hk
  cases t with
  | leaf k0 v0 =>
    simp [entries_leaf] at hv
    obtain ⟨h1, _⟩ := hv
    subst h1
    simp [Node.emplace, (find_mismatch_eq_none key key).mpr rfl]
  | branch tw h c i bm =>
    have h1 := find_similar_of_mem hwf hv
    simp [Node.emplace, h1, Node.get_leaf, (find_mismatch_eq_none key key).mpr rfl]

/-- The method `Node::emplace` for an addressable key that the subtree does not
hold: the result is `true`, and the subtree then satisfies the invariant and
holds the new entry besides the old ones. -/
theorem node_emplace_absent {t : Node V} (hwf : t.WF) (key : Key) (val : V)
    (ha : addressable key) (hk : key ∉ t.entries.map Prod.fst) :
    ∃ t', t.emplace key val = some (true, t') ∧ t'.WF ∧
      (∀ e, e ∈ t'.entries ↔ e = (key, val) ∨ e ∈ t.entries) := by
  obtain ⟨sk, sv, h1, h2, h3⟩ := find_similar_spec hwf key
  have hne : sk ≠ key := by
    intro h
    subst h
    exact hk (mem_keys_iff.mpr ⟨sv, h2⟩)
  cases hm : find_mismatch sk key with
  | none => exact absurd ((find_mismatch_eq_none sk key).mp hm) hne
  | some m =>
    obtain ⟨hm1, hm2, _⟩ := find_mismatch_eq_some sk key m hm
    have hbest : ∀ e ∈ t.entries, ¬ ∀ j ≤ m, nybble_at e.1 j = nybble_at key j := by
      intro e he hall
      exact hm2 (h3 e he m hall m (le_refl m))
    obtain ⟨t', hw1, hw2, hw3⟩ :=
      emplace_walk_spec key val m (mismatch_lt hm ha) sk hm1 hwf ⟨sv, h2⟩ hbest
    refine ⟨t', ?_, hw2, hw3⟩
    cases t with
    | leaf k0 v0 =>
      simp [entries_leaf] at h2
      obtain ⟨h4, _⟩ := h2
      subst h4
      simp only [Node.emplace_walk] at hw1
      simp [Node.emplace, hm, hw1]
    | branch tw h c i bm =>
      simp [Node.emplace, h1, Node.get_leaf, hm, hw1]

/-- The method `Node::contains` tells whether the subtree holds the key. -/
theorem node_contains_spec {t : Node V} (hwf : t.WF) (key : Key) :
    t.contains key = some (decide (key ∈ t.entries.map Prod.fst)) := by
  cases t with
  | leaf k0 v0 =>
    simp only [Node.contains, entries_leaf, List.map_cons, List.map_nil, List.mem_singleton]
    congr 1
    exact decide_eq_decide.mpr eq_comm
  | branch tw h c i bm =>
    by_cases hk : key ∈ (Node.branch tw h c i bm).entries.map Prod.fst
    · obtain ⟨v, hv⟩ := mem_keys_iff.mp hk
      simp [Node.contains, find_similar_of_mem hwf hv, Node.get_leaf, hk]
    · obtain ⟨sk, sv, h1, _, h3⟩ := find_similar_of_not_mem hwf hk
      simp [Node.contains, h1, Node.get_leaf, hk, h3]

/-- The method `Node::find` returns the leaf of a key that the subtree holds. -/
theorem node_find_present {t : Node V} (hwf : t.WF) {key : Key} {v : V}
    (hv : (key, v) ∈ t.entries) : t.find key = some (some (.leaf key v)) := by
  cases t with
  | leaf k0 v0 =>
    simp [entries_leaf] at hv
    obtain ⟨h1, h2⟩ := hv
    subst h1 h2
    simp [Node.find]
  | branch tw h c i bm =>
    simp [Node.find, find_similar_of_mem hwf hv, Node.get_leaf]

/-- The method `Node::find` returns `nullptr` for a key that the subtree does not
hold. -/
theorem node_find_absent {t : Node V} (hwf : t.WF) {key : Key}
    (hk : key ∉ t.entries.map Prod.fst) : t.find key = some none := by
  cases t with
  | leaf k0 v0 =>
    simp [entries_leaf] at hk
    have hk2 : ¬ k0 = key := fun h => hk h.symm
    simp [Node.find, hk2]
  | branch tw h c i bm =>
    obtain ⟨sk, sv, h1, _, h3⟩ := find_similar_of_not_mem hwf hk
    simp [Node.find, h1, Node.get_leaf, h3]

end jzt

/-!
## The end of `remove`
-/

namespace jzt

variable {V : Type}

theorem twig_count_eq {tw : List (Node V)} {h : Bool} {c i bm : Nat} (hbm : bm < 2 ^ 16)
    (hf : List.Forall₂ (labelled i) (slots h bm) tw) :
    Branch.twig_count ⟨tw, h, c, i, bm⟩ = some tw.length := by
  unfold Branch.twig_count Branch.size
  simp only
  have := hf.length_eq
  rw [slots_length, ← popcount_eq_length_bits bm hbm] at this
  rw [if_pos this]

theorem others_two_fst (a b : Node V) (e : Key × V) :
    (∃ t j, j ≠ 1 ∧ [a, b][j]? = some t ∧ e ∈ t.entries) ↔ e ∈ a.entries := by
  constructor
  · rintro ⟨t, j, hj, hjt, he⟩
    match j, hj, hjt with
    | 0, _, hjt =>
      simp at hjt
      subst hjt
      exact he
    | j + 2, _, hjt => simp at hjt
  · intro he
    exact ⟨a, 0, by omega, by simp, he⟩

theorem others_two_snd (a b : Node V) (e : Key × V) :
    (∃ t j, j ≠ 0 ∧ [a, b][j]? = some t ∧ e ∈ t.entries) ↔ e ∈ b.entries := by
  constructor
  · rintro ⟨t, j, hj, hjt, he⟩
    match j, hj, hjt with
    | 1, _, hjt =>
      simp at hjt
      subst hjt
      exact he
    | j + 2, _, hjt => simp at hjt
  · intro he
    exact ⟨b, 1, by omega, by simp, he⟩

theorem wf_erase {tw : List (Node V)} {h : Bool} {c i bm : Nat}
    (hwf : (Node.branch tw h c i bm).WF) (slot : Nat) (hslot : slot < tw.length)
    (hgt : 2 < tw.length) (h' : Bool) (bm' : Nat) (hbm' : bm' < 2 ^ 16)
    (hf' : List.Forall₂ (labelled i) (slots h' bm') (tw.eraseIdx slot)) :
    (Node.branch (tw.eraseIdx slot) h' c i bm').WF ∧
      ∀ e, e ∈ (Node.branch (tw.eraseIdx slot) h' c i bm').entries ↔
        ∃ t j, j ≠ slot ∧ tw[j]? = some t ∧ e ∈ t.entries := by
  cases hwf with
  | branch _ _ _ _ _ hbm hlen hcap hc17 hf hagree hwfs =>
    have hl : (tw.eraseIdx slot).length = tw.length - 1 := List.length_eraseIdx_of_lt hslot
    constructor
    · refine Node.WF.branch _ _ _ _ _ hbm' (by omega) (by omega) hc17 hf' ?_ ?_
      · intro t1 ht1 t2 ht2
        exact hagree t1 (List.mem_of_mem_eraseIdx ht1) t2 (List.mem_of_mem_eraseIdx ht2)
      · intro t ht
        exact hwfs t (List.mem_of_mem_eraseIdx ht)
    · intro e
      rw [mem_entries_branch]
      constructor
      · rintro ⟨t, ht, he⟩
        obtain ⟨j, hj1, hj2⟩ := List.mem_eraseIdx_iff_getElem?.mp ht
        exact ⟨t, j, hj1, hj2, he⟩
      · rintro ⟨t, j, hj1, hj2, he⟩
        exact ⟨t, List.mem_eraseIdx_iff_getElem?.mpr ⟨j, hj1, hj2⟩, he⟩

/-- The end of `remove`: the twig at `slot` leaves the branch, which is fused
away when only one other twig is left. -/
theorem remove_fixup_spec {tw : List (Node V)} {h : Bool} {c i bm : Nat}
    (hwf : (Node.branch tw h c i bm).WF) (phead : Bool) (pn slot : Nat)
    (hcase : (phead = true ∧ h = true ∧ slot = tw.length - 1) ∨
      (phead = false ∧ pn < 16 ∧ bm.testBit pn = true ∧ slot = (bits_below bm pn).length)) :
    ∃ r, Node.remove_fixup ⟨tw, h, c, i, bm⟩ phead pn = some r ∧ r.WF ∧
      ∀ e, e ∈ r.entries ↔ ∃ t j, j ≠ slot ∧ tw[j]? = some t ∧ e ∈ t.entries := by
  have hwf0 := hwf
  cases hwf with
  | branch _ _ _ _ _ hbm hlen hcap hc17 hf hagree hwfs =>
    unfold Node.remove_fixup
    rw [twig_count_eq hbm hf]
    simp only [Option.bind_eq_bind, Option.some_bind]
    by_cases hgt : tw.length > 2
    · rw [if_pos hgt]
      rcases hcase with ⟨h1, h2, h3⟩ | ⟨h1, h2, h3, h4⟩
      · subst h1 h2
        have hd : tw.dropLast = tw.eraseIdx slot :=
          List.dropLast_eq_eraseIdx (by omega)
        have hf' : List.Forall₂ (labelled i) (slots false bm) (tw.eraseIdx slot) := by
          rw [← hd]
          apply forall₂_dropLast (a := NybbleHead)
          simpa [slots] using hf
        obtain ⟨w1, w2⟩ := wf_erase hwf0 slot (by omega) hgt false bm hbm hf'
        refine ⟨Node.branch (tw.eraseIdx slot) false c i bm, ?_, w1, w2⟩
        have hpos : 0 < tw.length := by omega
        simp [Branch.remove_head, Branch.size, hpos, Node.ofBranch, hd]
      · subst h1
        obtain ⟨t0, ht0, _⟩ := twig_of_bit hf h2 h3
        have hslot : slot < tw.length := by
          rw [h4]
          exact (List.getElem?_eq_some.mp ht0).1
        have hne : pn ≠ NybbleHead := by
          unfold NybbleHead
          omega
        have hf' : List.Forall₂ (labelled i)
            (slots h (bm &&& ((2 ^ bitmap_bits - 1) ^^^ (1 <<< pn)))) (tw.eraseIdx slot) := by
          unfold slots
          rw [bits_clear_bit bm pn h2, List.append_assoc, h4]
          apply forall₂_erase (a := pn)
          have := hf
          unfold slots at this
          rw [bits_split_mem bm pn h2 h3, List.append_assoc] at this
          exact this
        obtain ⟨w1, w2⟩ := wf_erase hwf0 slot hslot hgt h _ (clear_bit_lt bm pn hbm) hf'
        refine ⟨_, ?_, w1, w2⟩
        have h1lt : 1 < tw.length := by omega
        simp only [Bool.false_eq_true, if_false, Branch.twig_remove]
        rw [has_twig_eq _ _ hne, twig_index_eq _ _ h2]
        simp only [h3, Option.bind_eq_bind, Option.some_bind, if_true]
        rw [← h4]
        rw [twig_erase_at_eq ⟨tw, h, c, i, bm⟩ slot h1lt hslot]
        simp [Node.ofBranch]
    · rw [if_neg hgt]
      match tw, hlen, hgt, hwfs with
      | _ :: _ :: _ :: _, _, hgt, _ =>
        simp only [List.length_cons] at hgt
        omega
      | [a, b], _, _, hwfs =>
        rcases hcase with ⟨h1, h2, h3⟩ | ⟨h1, h2, h3, h4⟩
        · subst h1
          simp only [List.length_cons, List.length_nil] at h3
          subst h3
          refine ⟨a, by simp [Branch.twig], hwfs a (by simp), ?_⟩
          intro e
          exact (others_two_fst a b e).symm
        · subst h1
          obtain ⟨t0, ht0, _⟩ := twig_of_bit hf h2 h3
          have hslot : slot < 2 := by
            rw [h4]
            exact (List.getElem?_eq_some.mp ht0).1
          simp only [Bool.false_eq_true, if_false]
          rw [twig_index_eq _ _ h2, ← h4]
          simp only [Option.bind_eq_bind, Option.some_bind]
          by_cases hs0 : slot = 0
          · subst hs0
            refine ⟨b, by simp [Branch.twig], hwfs b (by simp), ?_⟩
            intro e
            exact (others_two_snd a b e).symm
          · have hs1 : slot = 1 := by omega
            subst hs1
            refine ⟨a, by simp [Branch.twig], hwfs a (by simp), ?_⟩
            intro e
            exact (others_two_fst a b e).symm

end jzt

/-!
## The walk of `remove`
-/

namespace jzt

variable {V : Type}

theorem remove_walk_at_eq (key : Key) (parent : Branch V) (phead : Bool) (pn slot : Nat)
    (tw : List (Node V)) (idx : Nat) :
    Node.remove_walk_at key parent phead pn slot tw idx =
      match tw[idx]? with
      | none => none
      | some t => Node.remove_walk_at key parent phead pn slot [t] 0 := by
  induction tw generalizing idx with
  | nil => simp [Node.remove_walk_at]
  | cons t ts ih =>
    cases idx with
    | zero => simp only [Node.remove_walk_at, List.getElem?_cons_zero]
    | succ idx => simp only [Node.remove_walk_at, List.getElem?_cons_succ, ih]

/-- The walk of `remove` from a branch: it fails for no key, it reports a key that
the subtree does not hold as absent, and for a key that the subtree holds it
leaves a subtree that satisfies the invariant and holds the other entries. -/
theorem remove_walk_spec {t : Node V} (hwf : t.WF) (key : Key) : t.is_branch = true →
    (key ∉ t.entries.map Prod.fst → Node.remove_walk key t = some none) ∧
    (key ∈ t.entries.map Prod.fst → ∃ t', Node.remove_walk key t = some (some t') ∧ t'.WF ∧
      ∀ e, e ∈ t'.entries ↔ e ∈ t.entries ∧ e.1 ≠ key) := by
  induction hwf with
  | leaf k v => intro h; simp [Node.is_branch] at h
  | branch tw h c i bm hbm hlen hcap hc17 hf hagree hwfs ih =>
    intro _
    have hwfb : (Node.branch tw h c i bm).WF :=
      Node.WF.branch tw h c i bm hbm hlen hcap hc17 hf hagree hwfs
    have step : ∀ (slot : Nat) (t0 : Node V) (phead : Bool) (pn : Nat),
        tw[slot]? = some t0 → (slots h bm)[slot]? = some (nybble_at key i) →
        ((phead = true ∧ h = true ∧ slot = tw.length - 1) ∨
          (phead = false ∧ pn < 16 ∧ bm.testBit pn = true ∧
            slot = (bits_below bm pn).length)) →
        (key ∉ (Node.branch tw h c i bm).entries.map Prod.fst →
          Node.remove_walk_at key ⟨tw, h, c, i, bm⟩ phead pn slot tw slot = some none) ∧
        (key ∈ (Node.branch tw h c i bm).entries.map Prod.fst →
          ∃ t', Node.remove_walk_at key ⟨tw, h, c, i, bm⟩ phead pn slot tw slot
              = some (some t') ∧ t'.WF ∧
            ∀ e, e ∈ t'.entries ↔ e ∈ (Node.branch tw h c i bm).entries ∧ e.1 ≠ key) := by
      intro slot t0 phead pn ht0 hslot hcase
      have ht0m : t0 ∈ tw := List.mem_iff_getElem?.mpr ⟨slot, ht0⟩
      have hsub : ∀ e ∈ t0.entries, e ∈ (Node.branch tw h c i bm).entries :=
        fun e he => mem_entries_branch.mpr ⟨t0, ht0m, he⟩
      have hothers : ∀ (t : Node V) (j : Nat), j ≠ slot → tw[j]? = some t →
          ∀ e ∈ t.entries, e.1 ≠ key := by
        intro t j hj hjt e he hek
        obtain ⟨n, hn, hl⟩ := forall₂_getElem?_right hf hjt
        rw [← hl e he, hek] at hn
        exact hj (slots_index_inj h bm hn hslot)
      have hkey_in : ∀ e ∈ (Node.branch tw h c i bm).entries, e.1 = key → e ∈ t0.entries := by
        intro e he hek
        rcases (mem_entries_split ht0 e).mp he with h1 | ⟨t, j, hj, hjt, h1⟩
        · exact h1
        · exact absurd hek (hothers t j hj hjt e h1)
      rw [remove_walk_at_eq, ht0]
      simp only [Node.remove_walk_at]
      cases t0 with
      | leaf k0 v0 =>
        simp only [Node.is_branch, Bool.false_eq_true, if_false, Node.get_leaf]
        by_cases hk : k0 = key
        · subst hk
          simp only [ne_eq, not_true_eq_false, if_false]
          obtain ⟨r, hr1, hr2, hr3⟩ := remove_fixup_spec hwfb phead pn slot hcase
          rw [hr1]
          constructor
          · intro hnot
            exact absurd (mem_keys_iff.mpr ⟨v0, hsub _ (by simp [entries_leaf])⟩) hnot
          · intro _
            refine ⟨r, rfl, hr2, ?_⟩
            intro e
            rw [hr3 e, mem_entries_split ht0 e]
            constructor
            · rintro ⟨t, j, hj, hjt, he⟩
              exact ⟨Or.inr ⟨t, j, hj, hjt, he⟩, hothers t j hj hjt e he⟩
            · rintro ⟨h1 | h1, h2⟩
              · simp [entries_leaf] at h1
                subst h1
                exact absurd rfl h2
              · exact h1
        · simp only [ne_eq, hk, not_false_eq_true, if_true]
          refine ⟨fun _ => trivial, ?_⟩
          intro hin
          obtain ⟨v, hv⟩ := mem_keys_iff.mp hin
          have := hkey_in (key, v) hv rfl
          simp [entries_leaf] at this
          exact absurd this.1.symm hk
      | branch tw0 h0 c0 i0 bm0 =>
        simp only [Node.is_branch, if_true]
        obtain ⟨ih1, ih2⟩ := ih _ ht0m rfl
        by_cases hk : key ∈ (Node.branch tw0 h0 c0 i0 bm0).entries.map Prod.fst
        · obtain ⟨t0', hw1, hw2, hw3⟩ := ih2 hk
          rw [hw1]
          simp only
          constructor
          · intro hnot
            obtain ⟨v, hv⟩ := mem_keys_iff.mp hk
            exact absurd (mem_keys_iff.mpr ⟨v, hsub _ hv⟩) hnot
          · intro _
            have hent : ∀ e ∈ t0'.entries, e ∈ (Node.branch tw h c i bm).entries :=
              fun e he => hsub e ((hw3 e).mp he).1
            have hmemset : ∀ t ∈ tw.set slot t0', ∀ e ∈ t.entries,
                e ∈ (Node.branch tw h c i bm).entries := by
              intro t ht e he
              rcases List.mem_or_eq_of_mem_set ht with h2 | h2
              · exact mem_entries_branch.mpr ⟨t, h2, he⟩
              · subst h2
                exact hent e he
            refine ⟨_, rfl, ?_, ?_⟩
            · refine Node.WF.branch _ _ _ _ _ hbm (by rw [List.length_set]; exact hlen)
                (by rw [List.length_set]; exact hcap) hc17 ?_ ?_ ?_
              · apply forall₂_set hf
                intro n hn e he
                obtain ⟨t1, ht1, hl1⟩ := forall₂_getElem?_left hf hn
                rw [ht0] at ht1
                cases ht1
                exact hl1 e ((hw3 e).mp he).1
              · intro t1 ht1 t2 ht2 e1 he1 e2 he2 j hj
                exact agree_le_of_lt hagree (hmemset t1 ht1 e1 he1) (hmemset t2 ht2 e2 he2) hj
              · intro t ht
                rcases List.mem_or_eq_of_mem_set ht with h2 | h2
                · exact hwfs t h2
                · subst h2
                  exact hw2
            · intro e
              rw [mem_entries_set ht0, mem_entries_split ht0, hw3 e]
              constructor
              · rintro (⟨h1, h2⟩ | ⟨t, j, hj, hjt, he⟩)
                · exact ⟨Or.inl h1, h2⟩
                · exact ⟨Or.inr ⟨t, j, hj, hjt, he⟩, hothers t j hj hjt e he⟩
              · rintro ⟨h1 | h1, h2⟩
                · exact Or.inl ⟨h1, h2⟩
                · exact Or.inr h1
        · rw [ih1 hk]
          simp only
          refine ⟨fun _ => trivial, ?_⟩
          intro hin
          obtain ⟨v, hv⟩ := mem_keys_iff.mp hin
          exact absurd (mem_keys_iff.mpr ⟨v, hkey_in (key, v) hv rfl⟩) hk
    have absent : (∀ e ∈ (Node.branch tw h c i bm).entries, e.1 ≠ key) →
        (key ∉ (Node.branch tw h c i bm).entries.map Prod.fst → True) ∧
        (key ∈ (Node.branch tw h c i bm).entries.map Prod.fst →
          ∃ t', (some none : Option (Option (Node V))) = some (some t') ∧ t'.WF ∧
            ∀ e, e ∈ t'.entries ↔ e ∈ (Node.branch tw h c i bm).entries ∧ e.1 ≠ key) := by
      intro hno
      refine ⟨fun _ => trivial, ?_⟩
      intro hin
      obtain ⟨v, hv⟩ := mem_keys_iff.mp hin
      exact absurd rfl (hno (key, v) hv)
    simp only [Node.remove_walk, Branch.twig_nybble, Branch.has_head, Branch.size]
    by_cases hn : nybble_at key i = NybbleHead
    · simp only [hn, if_true]
      cases h with
      | true =>
        simp only [if_true]
        obtain ⟨t0, ht0, _⟩ := twig_of_head hf
        have hlen2 := hf.length_eq
        rw [slots_length] at hlen2
        simp only [Bool.toNat_true] at hlen2
        have hslot : (slots true bm)[tw.length - 1]? = some (nybble_at key i) := by
          rw [hn]
          have e : tw.length - 1 = (bits bm).length := by omega
          rw [e]
          exact slots_head_index bm
        have := step (tw.length - 1) t0 true NybbleHead ht0 hslot (Or.inl ⟨rfl, rfl, rfl⟩)
        exact this
      | false =>
        simp only [Bool.false_eq_true, if_false]
        apply absent
        intro e he hek
        have := (child_of_entry_head hf he (by rw [hek]; exact hn)).1
        simp at this
    · simp only [hn, if_false]
      rw [has_twig_eq _ _ hn]
      have hn16 : nybble_at key i < 16 := by
        rcases nybble_at_cases key i with h1 | h1
        · exact h1
        · exact absurd h1 hn
      cases hb : bm.testBit (nybble_at key i) with
      | true =>
        simp only [hb]
        rw [twig_index_eq _ _ hn16]
        simp only
        obtain ⟨t0, ht0, _⟩ := twig_of_bit hf hn16 hb
        exact step _ t0 false (nybble_at key i) ht0 (slots_bit_index h bm _ hn16 hb)
          (Or.inr ⟨rfl, hn16, hb, rfl⟩)
      | false =>
        simp only [hb]
        apply absent
        intro e he hek
        have := (child_of_entry_bit hf he (by rw [hek]; exact hn)).2.1
        rw [hek, hb] at this
        cases this

end jzt

/-!
## `Node::remove`, `Node::contains_prefix`, `Node::get_prefix`
-/

namespace jzt

variable {V : Type}

/-- The method `Node::remove` for a key that the subtree does not hold: no change,
and the result is `{false, false}`. -/
theorem node_remove_absent {t : Node V} (hwf : t.WF) (key : Key)
    (hk : key ∉ t.entries.map Prod.fst) : t.remove key = some ((false, false), t) := by
  cases t with
  | leaf k0 v0 =>
    simp [entries_leaf] at hk
    have hk2 : ¬ k0 = key := fun h => hk h.symm
    simp [Node.remove, hk2]
  | branch tw h c i bm =>
    have := (remove_walk_spec hwf key rfl).1 hk
    simp [Node.remove, this]

/-- The method `Node::remove` for the key of a root that is a leaf: the result is
`{true, true}`. -/
theorem node_remove_leaf (k0 : Key) (v0 : V) :
    (Node.leaf k0 v0).remove k0 = some ((true, true), Node.leaf k0 v0) := by
  simp [Node.remove]

/-- The method `Node::remove` for a key that a branch holds: the result is
`{true, false}`, and the node then satisfies the invariant and holds the
other entries. -/
theorem node_remove_branch {tw : List (Node V)} {h : Bool} {c i bm : Nat}
    (hwf : (Node.branch tw h c i bm).WF) (key : Key)
    (hk : key ∈ (Node.branch tw h c i bm).entries.map Prod.fst) :
    ∃ t', (Node.branch tw h c i bm).remove key = some ((true, false), t') ∧ t'.WF ∧
      ∀ e, e ∈ t'.entries ↔ e ∈ (Node.branch tw h c i bm).entries ∧ e.1 ≠ key := by
  obtain ⟨t', h1, h2, h3⟩ := (remove_walk_spec hwf key rfl).2 hk
  exact ⟨t', by simp [Node.remove, h1], h2, h3⟩

theorem starts_with_nil (k : Key) : starts_with k [] = true := by
  simp [starts_with]

/-- The approximate descent for `pfx` ends at a key that starts with `pfx`
whenever the subtree holds such a key. -/
theorem find_similar_starts_with {t : Node V} (hwf : t.WF) (pfx : Key) :
    ∃ sk sv, t.find_similar pfx = some (.leaf sk sv) ∧ (sk, sv) ∈ t.entries ∧
      (starts_with sk pfx = true ↔ ∃ e ∈ t.entries, starts_with e.1 pfx = true) := by
  obtain ⟨sk, sv, h1, h2, h3⟩ := find_similar_spec hwf pfx
  refine ⟨sk, sv, h1, h2, ⟨fun h => ⟨(sk, sv), h2, h⟩, ?_⟩⟩
  rintro ⟨e, he, hs⟩
  rw [starts_with_iff] at hs ⊢
  intro j hj
  exact h3 e he (2 * pfx.length - 1) (fun j hj => hs j (by omega)) j (by omega)

/-- The method `Node::contains_prefix` tells whether the subtree holds a key that
starts with `pfx`. -/
theorem node_contains_prefix_spec {t : Node V} (hwf : t.WF) (pfx : Key) :
    Node.contains_prefix t pfx = some (t.entries.any (fun e => starts_with e.1 pfx)) := by
  cases t with
  | leaf k0 v0 => simp [Node.contains_prefix, entries_leaf]
  | branch tw h c i bm =>
    obtain ⟨sk, sv, h1, h2, h3⟩ := find_similar_starts_with hwf pfx
    simp only [Node.contains_prefix, h1, Node.get_leaf, Option.bind_eq_bind, Option.some_bind]
    congr 1
    rw [Bool.eq_iff_iff, h3, List.any_eq_true]

theorem prefix_walk_at_eq (pfx : Key) (tw : List (Node V)) (idx : Nat) :
    Node.prefix_walk_at pfx tw idx = tw[idx]?.bind (fun t => Node.prefix_walk pfx t) := by
  induction tw generalizing idx with
  | nil => simp [Node.prefix_walk_at]
  | cons t ts ih =>
    cases idx with
    | zero => simp [Node.prefix_walk_at]
    | succ idx => simp [Node.prefix_walk_at, ih]

/-- The walk of `get_prefix` in a subtree that holds a key starting with `pfx`
ends at the subtree of exactly the entries whose keys start with `pfx`. -/
theorem prefix_walk_spec {t : Node V} (hwf : t.WF) (pfx : Key) :
    (∃ e ∈ t.entries, starts_with e.1 pfx = true) →
    ∃ s, Node.prefix_walk pfx t = some s ∧ s.WF ∧
      ∀ e, e ∈ s.entries ↔ e ∈ t.entries ∧ starts_with e.1 pfx = true := by
  induction hwf with
  | leaf k v =>
    rintro ⟨e0, he0, hs0⟩
    simp only [entries_leaf, List.mem_singleton] at he0
    subst he0
    refine ⟨Node.leaf k v, by simp [Node.prefix_walk], Node.WF.leaf _ _, ?_⟩
    intro e
    simp only [entries_leaf, List.mem_singleton]
    constructor
    · intro h
      subst h
      exact ⟨rfl, hs0⟩
    · exact fun h => h.1
  | branch tw h c i bm hbm hlen hcap hc17 hf hagree hwfs ih =>
    rintro ⟨e0, he0, hs0⟩
    have hwfb : (Node.branch tw h c i bm).WF :=
      Node.WF.branch tw h c i bm hbm hlen hcap hc17 hf hagree hwfs
    have hs0' := (starts_with_iff e0.1 pfx).mp hs0
    simp only [Node.prefix_walk, Branch.nybble_index, Branch.twig_nybble]
    by_cases hge : i ≥ pfx.length * 2
    · rw [if_pos hge]
      refine ⟨_, rfl, hwfb, ?_⟩
      intro e
      constructor
      · intro he
        refine ⟨he, ?_⟩
        rw [starts_with_iff]
        intro j hj
        rw [agree_le_of_lt hagree he he0 (by omega)]
        exact hs0' j hj
      · exact fun h => h.1
    · rw [if_neg hge]
      have hi : i < 2 * pfx.length := by omega
      have hn0 : nybble_at e0.1 i = nybble_at pfx i := hs0' i hi
      have hn16 : nybble_at pfx i < 16 := nybble_at_lt pfx i (by omega)
      have hne : nybble_at pfx i ≠ NybbleHead := by
        unfold NybbleHead
        omega
      obtain ⟨_, hb, t0, ht0, het0⟩ := child_of_entry_bit hf he0 (by rw [hn0]; exact hne)
      rw [hn0] at hb ht0
      have ht0m : t0 ∈ tw := List.mem_iff_getElem?.mpr ⟨_, ht0⟩
      obtain ⟨s, hs1, hs2, hs3⟩ := ih t0 ht0m ⟨e0, het0, hs0⟩
      rw [twig_index_eq _ _ hn16]
      simp only [prefix_walk_at_eq, ht0, Option.some_bind]
      refine ⟨s, hs1, hs2, ?_⟩
      intro e
      rw [hs3 e]
      constructor
      · rintro ⟨h1, h2⟩
        exact ⟨mem_entries_branch.mpr ⟨t0, ht0m, h1⟩, h2⟩
      · rintro ⟨h1, h2⟩
        refine ⟨?_, h2⟩
        have hne' : nybble_at e.1 i = nybble_at pfx i := (starts_with_iff e.1 pfx).mp h2 i hi
        obtain ⟨_, _, t1, ht1, het1⟩ := child_of_entry_bit hf h1 (by rw [hne']; exact hne)
        rw [hne', ht0] at ht1
        cases ht1
        exact het1

/-- The method `Node::get_prefix` returns `nullptr` when no key of the subtree
starts with `pfx`. -/
theorem node_get_prefix_absent {t : Node V} (hwf : t.WF) (pfx : Key)
    (hno : ¬ ∃ e ∈ t.entries, starts_with e.1 pfx = true) :
    Node.get_prefix t pfx = some none := by
  cases t with
  | leaf k0 v0 =>
    have : ¬ starts_with k0 pfx = true := fun h => hno ⟨(k0, v0), by simp [entries_leaf], h⟩
    simp [Node.get_prefix, this]
  | branch tw h c i bm =>
    obtain ⟨sk, sv, h1, h2, h3⟩ := find_similar_starts_with hwf pfx
    have : ¬ starts_with sk pfx = true := fun h => hno (h3.mp h)
    simp [Node.get_prefix, h1, Node.get_leaf, this]

/-- The method `Node::get_prefix` returns the subtree of exactly the entries whose
keys start with `pfx` when there is one. -/
theorem node_get_prefix_present {t : Node V} (hwf : t.WF) (pfx : Key)
    (hyes : ∃ e ∈ t.entries, starts_with e.1 pfx = true) :
    ∃ s, Node.get_prefix t pfx = some (some s) ∧ s.WF ∧
      ∀ e, e ∈ s.entries ↔ e ∈ t.entries ∧ starts_with e.1 pfx = true := by
  obtain ⟨s, hs1, hs2, hs3⟩ := prefix_walk_spec hwf pfx hyes
  refine ⟨s, ?_, hs2, hs3⟩
  cases t with
  | leaf k0 v0 =>
    obtain ⟨e0, he0, hs0⟩ := hyes
    simp only [entries_leaf, List.mem_singleton] at he0
    subst he0
    simp only [Node.prefix_walk, Option.some.injEq] at hs1
    subst hs1
    simp [Node.get_prefix, hs0]
  | branch tw h c i bm =>
    obtain ⟨sk, sv, h1, h2, h3⟩ := find_similar_starts_with hwf pfx
    have : starts_with sk pfx = true := h3.mpr hyes
    simp [Node.get_prefix, h1, Node.get_leaf, this, hs1]

end jzt

/-!
## The iterator
-/

namespace jzt

variable {V : Type}

theorem weight_list_append (l1 l2 : List (Node V)) :
    Node.weight_list (l1 ++ l2) = Node.weight_list l1 + Node.weight_list l2 := by
  induction l1 with
  | nil => simp [Node.weight_list]
  | cons t ts ih =>
    rw [List.cons_append, Node.weight_list, Node.weight_list, ih]
    omega

theorem push_twigs_eq (tw : List (Node V)) (h : Bool) (c i bm : Nat) :
    ∀ (sz : Nat) (stk : List (Node V)), sz < tw.length →
      Iterator.push_twigs ⟨tw, h, c, i, bm⟩ sz stk = some (tw.take (sz + 1) ++ stk) := by
  intro sz
  induction sz with
  | zero =>
    intro stk hlt
    match tw, hlt with
    | t :: ts, _ => simp [Iterator.push_twigs, Branch.twig]
  | succ n ih =>
    intro stk hlt
    simp only [Iterator.push_twigs, Branch.twig, List.get?_eq_getElem?]
    rw [List.getElem?_eq_getElem hlt]
    simp only [Option.bind_eq_bind, Option.some_bind]
    rw [ih _ (by omega)]
    congr 1
    have e := List.take_succ (l := tw) (n := n + 1)
    rw [List.getElem?_eq_getElem hlt] at e
    rw [e, List.append_assoc]
    rfl

theorem last_split {tw : List (Node V)} {last : Node V} (h : tw[tw.length - 1]? = some last) :
    tw.dropLast ++ [last] = tw := by
  apply List.dropLast_append_getLast?
  rw [List.getLast?_eq_getElem?, h]
  rfl

/-- The loop of `next_leaf`, with enough turns, is free of failures; it leaves on
top of the stack the leaf of the first entry yet to visit and it changes
nothing to the entries yet to visit. -/
theorem next_leaf_loop_spec : ∀ (fuel : Nat) (stk : List (Node V)), (∀ t ∈ stk, t.WF) →
    Node.weight_list stk < fuel →
    ∃ stk', Iterator.next_leaf_loop fuel stk = some stk' ∧ (∀ t ∈ stk', t.WF) ∧
      (stk'.map Node.entries).flatten = (stk.map Node.entries).flatten ∧
      ∀ top ∈ stk'.head?, top.is_leaf = true := by
  intro fuel
  induction fuel with
  | zero => intro stk _ h; omega
  | succ f ih =>
    intro stk hwf hfuel
    cases stk with
    | nil => exact ⟨[], by simp [Iterator.next_leaf_loop], by simp, rfl, by simp⟩
    | cons node rest =>
      cases node with
      | leaf k v =>
        refine ⟨_, by simp [Iterator.next_leaf_loop, Node.is_leaf], hwf, rfl, ?_⟩
        simp [Node.is_leaf]
      | branch tw h c i bm =>
        have hwfb := hwf _ (List.mem_cons_self _ _)
        have hrest : ∀ t ∈ rest, t.WF := fun t ht => hwf t (List.mem_cons_of_mem _ ht)
        have hw : Node.weight_list tw + Node.weight_list rest < f := by
          simp only [Node.weight_list, Node.weight] at hfuel
          omega
        cases hwfb with
        | branch _ _ _ _ _ hbm hlen hcap hc17 hf hagree hwfs =>
          simp only [Iterator.next_leaf_loop, Node.is_leaf, Bool.false_eq_true, if_false,
            Node.get_branch, Option.bind_eq_bind, Option.some_bind, twig_count_eq hbm hf,
            ge_iff_le, hlen, if_true, Branch.has_head]
          cases h with
          | true =>
            simp only [if_true]
            obtain ⟨last, hlast, _⟩ := twig_of_head hf
            have hsplit := last_split hlast
            rw [push_twigs_eq tw true c i bm (tw.length - 2) rest (by omega)]
            have e1 : tw.length - 2 + 1 = tw.length - 1 := by omega
            simp only [Option.some_bind, Branch.get_head, if_true, Branch.size,
              List.get?_eq_getElem?, hlast, e1, ← List.dropLast_eq_take]
            have hmem : ∀ t ∈ last :: (tw.dropLast ++ rest), t.WF := by
              intro t ht
              simp only [List.mem_cons, List.mem_append] at ht
              rcases ht with h1 | h1 | h1
              · subst h1
                exact hwfs _ (List.mem_iff_getElem?.mpr ⟨_, hlast⟩)
              · exact hwfs t (List.dropLast_subset tw h1)
              · exact hrest t h1
            have hwt : Node.weight_list (last :: (tw.dropLast ++ rest)) < f := by
              have h1 : Node.weight_list tw
                  = Node.weight_list tw.dropLast + Node.weight_list [last] := by
                conv_lhs => rw [← hsplit]
                exact weight_list_append _ _
              simp only [Node.weight_list, weight_list_append] at h1 ⊢
              omega
            obtain ⟨stk', h1, h2, h3, h4⟩ := ih _ hmem hwt
            refine ⟨stk', h1, h2, ?_, h4⟩
            rw [h3]
            simp only [List.map_cons, List.map_append, List.flatten_cons, List.flatten_append,
              entries_branch, visit_order, if_true]
            have e2 : (tw.map Node.entries).getLast?.getD [] = last.entries := by
              conv_lhs => rw [← hsplit]
              simp
            have e3 : (tw.map Node.entries).dropLast = tw.dropLast.map Node.entries := by
              conv_lhs => rw [← hsplit]
              rw [List.map_append, List.map_singleton, List.dropLast_concat]
            rw [e2, e3, List.append_assoc]
          | false =>
            simp only [Bool.false_eq_true, if_false]
            rw [push_twigs_eq tw false c i bm (tw.length - 1) rest (by omega)]
            have e1 : tw.length - 1 + 1 = tw.length := by omega
            simp only [Option.some_bind, e1, List.take_length]
            have hmem : ∀ t ∈ tw ++ rest, t.WF := by
              intro t ht
              rcases List.mem_append.mp ht with h1 | h1
              · exact hwfs t h1
              · exact hrest t h1
            have hwt : Node.weight_list (tw ++ rest) < f := by
              rw [weight_list_append]
              exact hw
            obtain ⟨stk', h1, h2, h3, h4⟩ := ih _ hmem hwt
            refine ⟨stk', h1, h2, ?_, h4⟩
            rw [h3]
            simp [entries_branch, visit_order]

theorem Iterator.Valid.nil : (⟨[]⟩ : Iterator V).Valid := by
  constructor <;> simp

/-- The constructor `Iterator(root)` gives an iterator that has all the entries
of the subtree yet to visit. -/
theorem iterator_new_spec {root : Node V} (hwf : root.WF) :
    ∃ it, Iterator.new root = some it ∧ it.Valid ∧ it.remaining = root.entries := by
  cases root with
  | leaf k v =>
    refine ⟨⟨[Node.leaf k v]⟩, by simp [Iterator.new, Node.is_branch], ?_, ?_⟩
    · constructor
      · intro t ht
        simp at ht
        subst ht
        exact hwf
      · simp [Node.is_leaf]
    · simp [Iterator.remaining]
  | branch tw h c i bm =>
    obtain ⟨stk', h1, h2, h3, h4⟩ := next_leaf_loop_spec
      (Node.weight_list [Node.branch tw h c i bm] + 1) [Node.branch tw h c i bm]
      (by
        intro t ht
        simp at ht
        subst ht
        exact hwf)
      (by omega)
    refine ⟨⟨stk'⟩, ?_, ⟨h2, h4⟩, ?_⟩
    · simp [Iterator.new, Node.is_branch, Iterator.next_leaf, Node.is_leaf, h1]
    · simp only [Iterator.remaining, h3]
      simp

/-- An iterator with nothing left to visit equals `end()`. -/
theorem iterator_at_end_of_nil {it : Iterator V} (hv : it.Valid) (hr : it.remaining = []) :
    it.at_end = true := by
  cases hs : it.stk with
  | nil => simp [Iterator.at_end, hs]
  | cons t rest =>
    have hwf := hv.1 t (by rw [hs]; simp)
    obtain ⟨e, he⟩ := hwf.exists_entry
    have : e ∈ it.remaining := by
      simp only [Iterator.remaining, hs, List.map_cons, List.flatten_cons, List.mem_append]
      exact Or.inl he
    rw [hr] at this
    simp at this

/-- An iterator with an entry left to visit differs from `end()`, `*it` is the
first such entry, and `++it` is free of failures and leaves the other entries to
visit. -/
theorem iterator_step {it : Iterator V} (hv : it.Valid) {e : Key × V} {es : List (Key × V)}
    (hr : it.remaining = e :: es) :
    it.at_end = false ∧ it.deref = some e ∧
      ∃ it', it.next_leaf = some it' ∧ it'.Valid ∧ it'.remaining = es := by
  cases hs : it.stk with
  | nil => simp [Iterator.remaining, hs] at hr
  | cons top rest =>
    have htop := hv.2 top (by rw [hs]; simp)
    cases top with
    | branch _ _ _ _ _ => simp [Node.is_leaf] at htop
    | leaf k v =>
      simp only [Iterator.remaining, hs, List.map_cons, entries_leaf, List.flatten_cons,
        List.singleton_append, List.cons.injEq] at hr
      obtain ⟨hr1, hr2⟩ := hr
      subst hr1
      refine ⟨by simp [Iterator.at_end, hs], by simp [Iterator.deref, hs, Node.get_leaf], ?_⟩
      have hrest : ∀ t ∈ rest, t.WF := fun t ht => hv.1 t (by rw [hs]; simp [ht])
      obtain ⟨stk', h1, h2, h3, h4⟩ :=
        next_leaf_loop_spec (Node.weight_list rest + 1) rest hrest (by omega)
      refine ⟨⟨stk'⟩, ?_, ⟨h2, h4⟩, ?_⟩
      · simp [Iterator.next_leaf, hs, Node.is_leaf, h1]
      · simp only [Iterator.remaining, h3]
        exact hr2

/-- Repeated `++it`: after `j` steps, for `j` at most the number of entries left to
visit, the iterator has the entries after the first `j` left to visit. -/
theorem iterator_advance {it : Iterator V} (hv : it.Valid) :
    ∀ (j : Nat), j ≤ it.remaining.length →
      ∃ it', Iterator.advance j it = some it' ∧ it'.Valid ∧
        it'.remaining = it.remaining.drop j := by
  intro j
  induction j generalizing it with
  | zero => intro _; exact ⟨it, rfl, hv, rfl⟩
  | succ n ih =>
    intro hj
    cases hr : it.remaining with
    | nil => rw [hr] at hj; simp at hj
    | cons e es =>
      obtain ⟨_, _, it1, h1, h2, h3⟩ := iterator_step hv hr
      rw [hr] at hj
      simp only [List.length_cons] at hj
      obtain ⟨it', h4, h5, h6⟩ := ih h2 (by rw [h3]; omega)
      refine ⟨it', ?_, h5, ?_⟩
      · simp only [Iterator.advance, h1]
        exact h4
      · rw [h6, h3]
        rfl

end jzt

/-!
## The container
-/

namespace jzt

variable {V : Type}

theorem trie_entries_none : (⟨none⟩ : Trie V).entries = [] := rfl

theorem trie_entries_some (r : Node V) : (⟨some r⟩ : Trie V).entries = r.entries := rfl

theorem trie_wf_none : (⟨none⟩ : Trie V).WF := trivial

theorem trie_root_none_iff {t : Trie V} (hwf : t.WF) : t.root = none ↔ t.entries = [] := by
  cases t with
  | mk root =>
    cases root with
    | none => simp [Trie.entries]
    | some r =>
      simp only [Trie.entries]
      constructor
      · intro h
        cases h
      · intro h
        exact absurd h (Node.WF.entries_ne_nil hwf)

theorem trie_keys_nodup {t : Trie V} (hwf : t.WF) : t.keys.Nodup := by
  cases t with
  | mk root =>
    cases root with
    | none => simp [Trie.keys, Trie.entries]
    | some r => exact keys_nodup hwf

theorem trie_value_unique {t : Trie V} (hwf : t.WF) {k : Key} {v1 v2 : V}
    (h1 : (k, v1) ∈ t.entries) (h2 : (k, v2) ∈ t.entries) : v1 = v2 := by
  cases t with
  | mk root =>
    cases root with
    | none => simp [Trie.entries] at h1
    | some r => exact value_unique hwf h1 h2

theorem trie_mem_keys {t : Trie V} {k : Key} : k ∈ t.keys ↔ ∃ v, (k, v) ∈ t.entries := by
  simp [Trie.keys, List.mem_map]

/-- The method `Trie::emplace` for a key that the container holds changes
nothing. -/
theorem trie_emplace_present {t : Trie V} (hwf : t.WF) (k : Key) (v : V) (hk : k ∈ t.keys) :
    t.emplace k v = some ((), t) := by
  cases t with
  | mk root =>
    cases root with
    | none => simp [Trie.keys, Trie.entries] at hk
    | some r =>
      have := node_emplace_present hwf k v hk
      simp [Trie.emplace, this]

/-- The method `Trie::emplace` for an addressable key that the container does
not hold adds the entry. -/
theorem trie_emplace_absent {t : Trie V} (hwf : t.WF) (k : Key) (v : V) (ha : addressable k)
    (hk : k ∉ t.keys) :
    ∃ t', t.emplace k v = some ((), t') ∧ t'.WF ∧
      ∀ e, e ∈ t'.entries ↔ e = (k, v) ∨ e ∈ t.entries := by
  cases t with
  | mk root =>
    cases root with
    | none =>
      refine ⟨⟨some (.leaf k v)⟩, by simp [Trie.emplace], Node.WF.leaf k v, ?_⟩
      intro e
      simp [Trie.entries, entries_leaf]
    | some r =>
      obtain ⟨r', h1, h2, h3⟩ := node_emplace_absent hwf k v ha hk
      exact ⟨⟨some r'⟩, by simp [Trie.emplace, h1], h2, h3⟩

/-- The method `Trie::remove` for a key that the container does not hold changes
nothing and returns `false`. -/
theorem trie_remove_absent {t : Trie V} (hwf : t.WF) (k : Key) (hk : k ∉ t.keys) :
    t.remove k = some (false, t) := by
  cases t with
  | mk root =>
    cases root with
    | none => simp [Trie.remove]
    | some r =>
      have := node_remove_absent hwf k hk
      simp [Trie.remove, this]

/-- The method `Trie::remove` for a key that the container holds returns `true`
and leaves the other entries. -/
theorem trie_remove_present {t : Trie V} (hwf : t.WF) (k : Key) (hk : k ∈ t.keys) :
    ∃ t', t.remove k = some (true, t') ∧ t'.WF ∧
      ∀ e, e ∈ t'.entries ↔ e ∈ t.entries ∧ e.1 ≠ k := by
  cases t with
  | mk root =>
    cases root with
    | none => simp [Trie.keys, Trie.entries] at hk
    | some r =>
      cases r with
      | leaf k0 v0 =>
        simp [Trie.keys, Trie.entries, entries_leaf] at hk
        subst hk
        refine ⟨⟨none⟩, by simp [Trie.remove, node_remove_leaf], trivial, ?_⟩
        intro e
        simp only [Trie.entries, entries_leaf, List.mem_singleton, List.not_mem_nil, false_iff,
          not_and, not_not]
        intro h
        rw [h]
      | branch tw h c i bm =>
        obtain ⟨r', h1, h2, h3⟩ := node_remove_branch hwf k hk
        exact ⟨⟨some r'⟩, by simp [Trie.remove, h1], h2, h3⟩

/-- Every container that `emplace` and `remove` build satisfies the invariant. -/
theorem reachable_wf {t : Trie V} (h : Reachable t) : t.WF := by
  induction h with
  | empty => exact trivial
  | emplace t t' k v _ ha he ih =>
    by_cases hk : k ∈ t.keys
    · rw [trie_emplace_present ih k v hk] at he
      cases he
      exact ih
    · obtain ⟨t2, h1, h2, _⟩ := trie_emplace_absent ih k v ha hk
      rw [h1] at he
      cases he
      exact h2
  | remove t t' k b _ he ih =>
    by_cases hk : k ∈ t.keys
    · obtain ⟨t2, h1, h2, _⟩ := trie_remove_present ih k hk
      rw [h1] at he
      cases he
      exact h2
    · rw [trie_remove_absent ih k hk] at he
      cases he
      exact ih

/-- The method `Trie::contains` tells whether the container holds the key. -/
theorem trie_contains_spec {t : Trie V} (hwf : t.WF) (k : Key) :
    t.contains k = some (decide (k ∈ t.keys)) := by
  cases t with
  | mk root =>
    cases root with
    | none => simp [Trie.contains, Trie.keys, Trie.entries]
    | some r => exact node_contains_spec hwf k

/-- The method `Trie::find` for a key that the container holds returns an
iterator that differs from `end()` and points to the entry of the key. -/
theorem trie_find_present {t : Trie V} (hwf : t.WF) {k : Key} {v : V}
    (hv : (k, v) ∈ t.entries) :
    t.find k = some ⟨[Node.leaf k v]⟩ ∧ (⟨[Node.leaf k v]⟩ : Iterator V).at_end = false ∧
      (⟨[Node.leaf k v]⟩ : Iterator V).deref = some (k, v) := by
  refine ⟨?_, rfl, rfl⟩
  cases t with
  | mk root =>
    cases root with
    | none => simp [Trie.entries] at hv
    | some r =>
      have := node_find_present hwf hv
      simp [Trie.find, this, Iterator.new, Node.is_branch]

/-- The method `Trie::find` for a key that the container does not hold returns
`end()`. -/
theorem trie_find_absent {t : Trie V} (hwf : t.WF) {k : Key} (hk : k ∉ t.keys) :
    t.find k = some Iterator.iterator_end := by
  cases t with
  | mk root =>
    cases root with
    | none => simp [Trie.find]
    | some r =>
      have := node_find_absent hwf hk
      simp [Trie.find, this]

/-- An iterator in a valid state yields the entries it has yet to visit. -/
theorem iterator_yields {it : Iterator V} (hv : it.Valid) : it.yields it.remaining := by
  constructor
  · intro j hj
    obtain ⟨it', h1, h2, h3⟩ := iterator_advance hv j (by omega)
    refine ⟨it', h1, ?_⟩
    have hd : it'.remaining = it.remaining[j] :: it.remaining.drop (j + 1) := by
      rw [h3]
      exact List.drop_eq_getElem_cons hj
    obtain ⟨h4, h5, _⟩ := iterator_step h2 hd
    refine ⟨h4, ?_⟩
    rw [h5, List.get?_eq_getElem?, List.getElem?_eq_getElem hj]
  · obtain ⟨it', h1, h2, h3⟩ := iterator_advance hv it.remaining.length (le_refl _)
    refine ⟨it', h1, iterator_at_end_of_nil h2 ?_⟩
    rw [h3]
    simp

theorem yields_nil_at_end {it : Iterator V} (h : it.yields []) : it.at_end = true := by
  obtain ⟨it', h1, h2⟩ := h.2
  simp only [List.length_nil, Iterator.advance, Option.some.injEq] at h1
  subst h1
  exact h2

theorem yields_cons_not_at_end {it : Iterator V} {e : Key × V} {l : List (Key × V)}
    (h : it.yields (e :: l)) : it.at_end = false := by
  obtain ⟨it', h1, h2, _⟩ := h.1 0 (by simp)
  simp only [Iterator.advance, Option.some.injEq] at h1
  subst h1
  exact h2

/-- The method `Trie::begin` gives an iterator that yields the entries of the
container. -/
theorem trie_begin_spec {t : Trie V} (hwf : t.WF) :
    ∃ it, t.begin = some it ∧ it.yields t.entries := by
  cases t with
  | mk root =>
    cases root with
    | none =>
      refine ⟨Iterator.iterator_end, rfl, ?_⟩
      have := iterator_yields (Iterator.Valid.nil (V := V))
      exact this
    | some r =>
      obtain ⟨it, h1, h2, h3⟩ := @iterator_new_spec V r hwf
      refine ⟨it, h1, ?_⟩
      have := iterator_yields h2
      rw [h3] at this
      exact this

end jzt

/-!
## The container: order, prefixes, client loops
-/

namespace jzt

variable {V : Type}

theorem nybble_lt_asymm {a b : Key} (h1 : nybble_lt a b) (h2 : nybble_lt b a) : False := by
  obtain ⟨i1, ha1, hl1⟩ := h1
  obtain ⟨i2, ha2, hl2⟩ := h2
  rcases Nat.lt_trichotomy i1 i2 with h | h | h
  · rw [ha2 i1 h] at hl1
    exact lt_irrefl _ hl1
  · subst h
    exact lt_asymm hl1 hl2
  · rw [ha1 i2 h] at hl2
    exact lt_irrefl _ hl2

/-- A key comes before every key it is a strict prefix of. -/
theorem prefix_nybble_lt {a b : Key} (hp : a <+: b) (hne : a ≠ b) : nybble_lt a b := by
  obtain ⟨r, hr⟩ := hp
  subst hr
  have hlen : a.length < (a ++ r).length := by
    cases r with
    | nil => simp at hne
    | cons x xs => simp
  refine ⟨2 * a.length, ?_, ?_⟩
  · intro j hj
    exact (nybble_at_append_left a r j (by omega)).symm
  · have h1 : nybble_at a (2 * a.length) = NybbleHead :=
      (nybble_at_eq_head_iff a _).mpr (by omega)
    have h2 : nybble_at (a ++ r) (2 * a.length) < 16 := nybble_at_lt _ _ (by omega)
    rw [h1]
    unfold nybble_rank NybbleHead
    rw [if_pos rfl, if_neg (by unfold NybbleHead at h1; omega)]
    omega

theorem trie_entries_sorted {t : Trie V} (hwf : t.WF) :
    (t.entries.map Prod.fst).Pairwise nybble_lt := by
  cases t with
  | mk root =>
    cases root with
    | none => simp [Trie.entries]
    | some r =>
      rw [List.pairwise_map]
      exact entries_sorted hwf

/-- In a list in strictly increasing order a key comes before the keys it is a
strict prefix of. -/
theorem prefix_comes_first {l : List (Key × V)} (hs : (l.map Prod.fst).Pairwise nybble_lt)
    {i j : Nat} {a b : Key × V} (hi : l[i]? = some a) (hj : l[j]? = some b)
    (hp : a.1 <+: b.1) (hne : a.1 ≠ b.1) : i < j := by
  rw [List.pairwise_map, List.pairwise_iff_getElem] at hs
  obtain ⟨hi1, hi2⟩ := List.getElem?_eq_some.mp hi
  obtain ⟨hj1, hj2⟩ := List.getElem?_eq_some.mp hj
  have hab := prefix_nybble_lt hp hne
  by_contra hcon
  rcases Nat.lt_or_eq_of_le (Nat.le_of_not_lt hcon) with h | h
  · have := hs j i hj1 hi1 h
    rw [hi2, hj2] at this
    exact nybble_lt_asymm hab this
  · subst h
    rw [hi] at hj
    cases hj
    exact hne rfl

theorem sorted_filter_eq {l1 l2 : List (Key × V)}
    (h1 : l1.Pairwise (fun e1 e2 => nybble_lt e1.1 e2.1))
    (h2 : l2.Pairwise (fun e1 e2 => nybble_lt e1.1 e2.1))
    (hm : ∀ e, e ∈ l1 ↔ e ∈ l2) : l1 = l2 := by
  haveI : IsAntisymm (Key × V) (fun e1 e2 => nybble_lt e1.1 e2.1) :=
    ⟨fun a b hab hba => (nybble_lt_asymm hab hba).elim⟩
  have hnd : ∀ l : List (Key × V), l.Pairwise (fun e1 e2 => nybble_lt e1.1 e2.1) → l.Nodup := by
    intro l hl
    apply hl.imp
    intro a b hab heq
    rw [heq] at hab
    exact nybble_lt_irrefl _ hab
  exact List.eq_of_perm_of_sorted ((List.perm_ext_iff_of_nodup (hnd l1 h1) (hnd l2 h2)).mpr hm)
    h1 h2

/-- The method `Trie::contains_prefix` tells whether a key of the container starts
with `pfx`. -/
theorem trie_contains_prefix_spec {t : Trie V} (hwf : t.WF) (pfx : Key) :
    ∃ b, Trie.contains_prefix t pfx = some b ∧ (b = true ↔ ∃ k ∈ t.keys, pfx <+: k) := by
  cases t with
  | mk root =>
    cases root with
    | none =>
      refine ⟨false, rfl, ?_⟩
      simp [Trie.keys, Trie.entries]
    | some r =>
      refine ⟨_, node_contains_prefix_spec hwf pfx, ?_⟩
      rw [List.any_eq_true]
      simp only [Trie.keys, Trie.entries, List.mem_map]
      constructor
      · rintro ⟨e, he, hs⟩
        exact ⟨e.1, ⟨e, he, rfl⟩, (starts_with_iff_isPrefix _ _).mp hs⟩
      · rintro ⟨k, ⟨e, he, rfl⟩, hs⟩
        exact ⟨e, he, (starts_with_iff_isPrefix _ _).mpr hs⟩

/-- The method `Trie::prefix` gives an iterator that yields the entries of the
container whose keys start with `pfx`, in the order of the full traversal. -/
theorem trie_prefix_spec {t : Trie V} (hwf : t.WF) (pfx : Key) :
    ∃ it, Trie.prefix t pfx = some it ∧
      it.yields (t.entries.filter (fun e => starts_with e.1 pfx)) := by
  cases t with
  | mk root =>
    cases root with
    | none =>
      refine ⟨Iterator.iterator_end, rfl, ?_⟩
      exact iterator_yields (Iterator.Valid.nil (V := V))
    | some r =>
      by_cases hyes : ∃ e ∈ r.entries, starts_with e.1 pfx = true
      · obtain ⟨s, hs1, hs2, hs3⟩ := node_get_prefix_present hwf pfx hyes
        obtain ⟨it, h1, h2, h3⟩ := iterator_new_spec hs2
        refine ⟨it, by simp [ Trie.prefix, hs1, h1], ?_⟩
        have hy := iterator_yields h2
        rw [h3] at hy
        have : s.entries = r.entries.filter (fun e => starts_with e.1 pfx) := by
          apply sorted_filter_eq (entries_sorted hs2) ((entries_sorted hwf).filter _)
          intro e
          rw [hs3 e, List.mem_filter]
        rw [this] at hy
        exact hy
      · have hnone := node_get_prefix_absent hwf pfx hyes
        refine ⟨Iterator.iterator_end, by simp [ Trie.prefix, hnone], ?_⟩
        have : r.entries.filter (fun e => starts_with e.1 pfx) = [] := by
          rw [List.filter_eq_nil_iff]
          intro e he hs
          exact hyes ⟨e, he, hs⟩
        simp only [Trie.entries, this]
        exact iterator_yields (Iterator.Valid.nil (V := V))

/-- The loop `emplace_all` for entries with distinct addressable keys that the
container does not hold adds these entries. -/
theorem emplace_all_spec (kvs : List (Key × V)) : ∀ (t : Trie V), t.WF →
    (kvs.map Prod.fst).Nodup → (∀ e ∈ kvs, addressable e.1) →
    (∀ e ∈ kvs, e.1 ∉ t.keys) →
    ∃ t', Trie.emplace_all t kvs = some t' ∧ t'.WF ∧
      ∀ e, e ∈ t'.entries ↔ e ∈ kvs ∨ e ∈ t.entries := by
  induction kvs with
  | nil =>
    intro t hwf _ _ _
    exact ⟨t, rfl, hwf, by simp⟩
  | cons kv rest ih =>
    intro t hwf hnd ha hnew
    obtain ⟨k, v⟩ := kv
    simp only [List.map_cons, List.nodup_cons] at hnd
    obtain ⟨t1, h1, h2, h3⟩ :=
      trie_emplace_absent hwf k v (ha (k, v) (by simp)) (hnew (k, v) (by simp))
    have hnew' : ∀ e ∈ rest, e.1 ∉ t1.keys := by
      intro e he hin
      obtain ⟨v', hv'⟩ := trie_mem_keys.mp hin
      rcases (h3 _).mp hv' with h4 | h4
      · have : e.1 = k := (Prod.mk.inj h4).1
        apply hnd.1
        rw [← this]
        exact List.mem_map.mpr ⟨e, he, rfl⟩
      · exact hnew e (by simp [he]) (trie_mem_keys.mpr ⟨v', h4⟩)
    obtain ⟨t', h5, h6, h7⟩ := ih t1 h2 hnd.2 (fun e he => ha e (by simp [he])) hnew'
    refine ⟨t', by simp [Trie.emplace_all, h1, h5], h6, ?_⟩
    intro e
    rw [h7 e, h3 e]
    simp only [List.mem_cons]
    tauto

/-- Every container that `emplace_all` builds from a reachable one is reachable. -/
theorem emplace_all_reachable (kvs : List (Key × V)) : ∀ (t t' : Trie V), Reachable t →
    (∀ e ∈ kvs, addressable e.1) → Trie.emplace_all t kvs = some t' → Reachable t' := by
  induction kvs with
  | nil =>
    intro t t' hr _ h
    simp only [Trie.emplace_all, Option.some.injEq] at h
    subst h
    exact hr
  | cons kv rest ih =>
    intro t t' hr ha h
    obtain ⟨k, v⟩ := kv
    simp only [Trie.emplace_all] at h
    cases he : t.emplace k v with
    | none => simp [he] at h
    | some p =>
      obtain ⟨u, t1⟩ := p
      simp only [he] at h
      exact ih t1 t' (Reachable.emplace t t1 k v hr (ha (k, v) (by simp)) he)
        (fun e he => ha e (by simp [he])) h

/-- The loop `remove_all` over the keys of the container, each once, returns
`true` every time and leaves the container without a root. -/
theorem remove_all_spec (order : List Key) : ∀ (t : Trie V), t.WF → order.Nodup →
    (∀ k, k ∈ t.keys ↔ k ∈ order) →
    ∃ t', Trie.remove_all t order = some (List.replicate order.length true, t') ∧
      t'.root = none := by
  induction order with
  | nil =>
    intro t hwf _ hk
    refine ⟨t, rfl, ?_⟩
    rw [trie_root_none_iff hwf]
    cases he : t.entries with
    | nil => rfl
    | cons e es =>
      have : e.1 ∈ t.keys := trie_mem_keys.mpr ⟨e.2, by rw [he]; simp⟩
      rw [hk] at this
      simp at this
  | cons k rest ih =>
    intro t hwf hnd hk
    simp only [List.nodup_cons] at hnd
    obtain ⟨t1, h1, h2, h3⟩ := trie_remove_present hwf k ((hk k).mpr (by simp))
    have hk1 : ∀ k', k' ∈ t1.keys ↔ k' ∈ rest := by
      intro k'
      rw [trie_mem_keys]
      constructor
      · rintro ⟨v, hv⟩
        obtain ⟨h4, h5⟩ := (h3 _).mp hv
        have := (hk k').mp (trie_mem_keys.mpr ⟨v, h4⟩)
        simp only [List.mem_cons] at this
        rcases this with h6 | h6
        · exact absurd h6 h5
        · exact h6
      · intro hin
        have hne : k' ≠ k := fun h => hnd.1 (h ▸ hin)
        obtain ⟨v, hv⟩ := trie_mem_keys.mp ((hk k').mpr (by simp [hin]))
        exact ⟨v, (h3 _).mpr ⟨hv, hne⟩⟩
    obtain ⟨t', h4, h5⟩ := ih t1 h2 hnd.2 hk1
    refine ⟨t', ?_, h5⟩
    simp [Trie.remove_all, h1, h4, List.replicate_succ]

end jzt

/-!
## The claims C1 to C4
-/

namespace jzt

variable {V : Type}

theorem sample_reachable : Reachable sample_trie :=
  emplace_all_reachable sample_entries Trie.empty sample_trie Reachable.empty (by decide) rfl

/-- Scenario 1 of the specification: after `"123"` and `"abc"` are emplaced,
`contains("123")` is true and `find("234")` is `end()`. -/
theorem scenario_lookup :
    (Trie.emplace_all (Trie.empty : Trie Unit) [([49, 50, 51], ()), ([97, 98, 99], ())]).bind
        (fun t => t.contains [49, 50, 51]) = some true ∧
    (Trie.emplace_all (Trie.empty : Trie Unit) [([49, 50, 51], ()), ([97, 98, 99], ())]).bind
        (fun t => t.find [50, 51, 52]) = some Iterator.iterator_end :=
  ⟨rfl, rfl⟩

/-- Scenario 2 of the specification: after `"a"`, `"ab"`, `"abcxy"`, `"ad"` are
emplaced, the traversal from `prefix("a")` visits `"a"` first, then `"ab"`,
`"abcxy"`, `"ad"`, and then equals `end()`. -/
theorem scenario_prefix_traversal :
    (Trie.emplace_all (Trie.empty : Trie Unit)
        [([97], ()), ([97, 98], ()), ([97, 98, 99, 120, 121], ()), ([97, 100], ())]).bind
      (fun t => ( Trie.prefix t [97]).bind (fun it =>
        (List.range 5).mapM (fun j => (Iterator.advance j it).map
          (fun it' => (it'.at_end, it'.deref.map Prod.fst)))))
      = some [(false, some [97]), (false, some [97, 98]),
          (false, some [97, 98, 99, 120, 121]), (false, some [97, 100]), (true, none)] :=
  rfl

/-- Scenario 4 of the specification: after `"12345"` is emplaced,
`contains_prefix("12")` is true and `contains_prefix("99")` is false. -/
theorem scenario_contains_prefix :
    Trie.contains_prefix (⟨some (.leaf [49, 50, 51, 52, 53] ())⟩ : Trie Unit) [49, 50]
        = some true ∧
    Trie.contains_prefix (⟨some (.leaf [49, 50, 51, 52, 53] ())⟩ : Trie Unit) [57, 57]
        = some false :=
  ⟨rfl, rfl⟩

/-- Scenario 5 of the specification: after `"123"` and `"abc"` are emplaced,
`remove("123")` leaves a root that is the entry `"abc"`, and `remove("abc")` then
leaves no root. -/
theorem scenario_remove :
    (Trie.emplace_all (Trie.empty : Trie Unit) [([49, 50, 51], ()), ([97, 98, 99], ())]).bind
        (fun t => t.remove [49, 50, 51]) = some (true, ⟨some (.leaf [97, 98, 99] ())⟩) ∧
    Trie.remove (⟨some (.leaf [97, 98, 99] ())⟩ : Trie Unit) [97, 98, 99]
        = some (true, ⟨none⟩) :=
  ⟨rfl, rfl⟩

/-- C1 (membership). After the entries of a list with distinct addressable keys
are emplaced, in the order of the list, into an empty container, `contains(k)` is
true exactly for the keys of the list, `find(k)` for a key of the list is an
iterator that differs from `end()` and points to the entry emplaced with `k`, and
`find(k)` for any other key is `end()`. -/
theorem membership_of_emplaced (kvs : List (Key × V)) (hnd : (kvs.map Prod.fst).Nodup)
    (ha : ∀ e ∈ kvs, addressable e.1) :
    ∃ t, Trie.emplace_all Trie.empty kvs = some t ∧
      ∀ k, t.contains k = some (decide (k ∈ kvs.map Prod.fst)) ∧
        (∀ v, (k, v) ∈ kvs →
          ∃ it, t.find k = some it ∧ it.at_end = false ∧ it.deref = some (k, v)) ∧
        (k ∉ kvs.map Prod.fst → t.find k = some Iterator.iterator_end) := by
  obtain ⟨t, h1, h2, h3⟩ := emplace_all_spec kvs Trie.empty trie_wf_none hnd ha
    (by intro e _ h; simp [Trie.keys, Trie.empty, Trie.entries] at h)
  have hent : ∀ e, e ∈ t.entries ↔ e ∈ kvs := by
    intro e
    rw [h3 e]
    simp [Trie.empty, Trie.entries]
  have hkeys : ∀ k, k ∈ t.keys ↔ k ∈ kvs.map Prod.fst := by
    intro k
    simp only [Trie.keys, List.mem_map, hent]
  refine ⟨t, h1, ?_⟩
  intro k
  refine ⟨?_, ?_, ?_⟩
  · rw [trie_contains_spec h2 k]
    congr 1
    exact decide_eq_decide.mpr (hkeys k)
  · intro v hv
    obtain ⟨f1, f2, f3⟩ := trie_find_present h2 ((hent (k, v)).mpr hv)
    exact ⟨_, f1, f2, f3⟩
  · intro hk
    exact trie_find_absent h2 (fun h => hk ((hkeys k).mp h))

theorem membership_of_emplaced_witness :
    ((sample_entries.map Prod.fst).Nodup ∧ ∀ e ∈ sample_entries, addressable e.1) ∧
    ∃ t, Trie.emplace_all Trie.empty sample_entries = some t ∧
      ∀ k, t.contains k = some (decide (k ∈ sample_entries.map Prod.fst)) ∧
        (∀ v, (k, v) ∈ sample_entries →
          ∃ it, t.find k = some it ∧ it.at_end = false ∧ it.deref = some (k, v)) ∧
        (k ∉ sample_entries.map Prod.fst → t.find k = some Iterator.iterator_end) :=
  ⟨⟨by decide, by decide⟩, membership_of_emplaced sample_entries (by decide) (by decide)⟩

/-- C2 (round trip to empty). After the entries of a list with distinct
addressable keys are emplaced into an empty container and `remove` is called on
each of the keys, in any order, every `remove` returns `true` and the container
has no root: `begin()` is `end()` and `contains` is false for every key. -/
theorem round_trip_to_empty (kvs : List (Key × V)) (hnd : (kvs.map Prod.fst).Nodup)
    (ha : ∀ e ∈ kvs, addressable e.1) (order : List Key)
    (hperm : order.Perm (kvs.map Prod.fst)) :
    ∃ t t', Trie.emplace_all Trie.empty kvs = some t ∧
      Trie.remove_all t order = some (List.replicate order.length true, t') ∧
      t'.root = none ∧ t'.begin = some Iterator.iterator_end ∧
      ∀ k, t'.contains k = some false := by
  obtain ⟨t, h1, h2, h3⟩ := emplace_all_spec kvs Trie.empty trie_wf_none hnd ha
    (by intro e _ h; simp [Trie.keys, Trie.empty, Trie.entries] at h)
  have hkeys : ∀ k, k ∈ t.keys ↔ k ∈ order := by
    intro k
    rw [hperm.mem_iff]
    simp only [Trie.keys, List.mem_map, h3]
    simp [Trie.empty, Trie.entries]
  obtain ⟨t', h4, h5⟩ := remove_all_spec order t h2 (hperm.nodup_iff.mpr hnd) hkeys
  refine ⟨t, t', h1, h4, h5, ?_, ?_⟩
  · simp [Trie.begin, h5]
  · intro k
    simp [Trie.contains, h5]

theorem round_trip_to_empty_witness :
    ((sample_entries.map Prod.fst).Nodup ∧ (∀ e ∈ sample_entries, addressable e.1) ∧
      List.Perm [[97], [97, 98], [97, 100]] (sample_entries.map Prod.fst)) ∧
    ∃ t t', Trie.emplace_all Trie.empty sample_entries = some t ∧
      Trie.remove_all t [[97], [97, 98], [97, 100]]
        = some (List.replicate [[97], [97, 98], [97, 100]].length true, t') ∧
      t'.root = none ∧ t'.begin = some Iterator.iterator_end ∧
      ∀ k, t'.contains k = some false :=
  ⟨⟨by decide, by decide, by decide⟩,
    round_trip_to_empty sample_entries (by decide) (by decide) [[97], [97, 98], [97, 100]]
      (by decide)⟩

/-- C3 (insert-if-absent causes no mutation). In every container that `emplace`
and `remove` build, `emplace` of a key that is stored, with any value, leaves the
whole structure as it is, so that the value stored with the key stays the one of
the first insertion, and the `emplace` of the root node reports `false`. -/
theorem emplace_stored_key_unchanged (t : Trie V) (hr : Reachable t) (k : Key) (v : V)
    (hk : k ∈ t.keys) :
    t.emplace k v = some ((), t) ∧
      (∀ r, t.root = some r → r.emplace k v = some (false, r)) ∧
      (∀ v0, (k, v0) ∈ t.entries → ∃ it, t.find k = some it ∧ it.deref = some (k, v0)) := by
  have hwf := reachable_wf hr
  refine ⟨trie_emplace_present hwf k v hk, ?_, ?_⟩
  · intro r hroot
    cases t with
    | mk root =>
      simp only at hroot
      subst hroot
      exact node_emplace_present hwf k v hk
  · intro v0 hv0
    obtain ⟨f1, _, f3⟩ := trie_find_present hwf hv0
    exact ⟨_, f1, f3⟩

theorem emplace_stored_key_unchanged_witness :
    (Reachable sample_trie ∧ [97] ∈ sample_trie.keys) ∧
    (sample_trie.emplace [97] 0 = some ((), sample_trie) ∧
      (∀ r, sample_trie.root = some r → r.emplace [97] 0 = some (false, r)) ∧
      (∀ v0, ([97], v0) ∈ sample_trie.entries →
        ∃ it, sample_trie.find [97] = some it ∧ it.deref = some ([97], v0))) :=
  ⟨⟨sample_reachable, by decide⟩,
    emplace_stored_key_unchanged sample_trie sample_reachable [97] 0 (by decide)⟩

/-- C4, as stated, fails: the value that the `emplace` of the container returns
does not tell whether the key was absent. No reading `f` of that value as a
boolean is true exactly when the key was absent: `emplace` returns the same value
for the key `[1]` on the empty container and on the container that holds `[1]`. -/
theorem emplace_result_tells_nothing :
    ¬ ∃ f : Unit → Bool, ∀ (t : Trie Unit) (k : Key), Reachable t → addressable k →
      ∀ r t', t.emplace k () = some (r, t') → (f r = true ↔ k ∉ t.keys) := by
  rintro ⟨f, hf⟩
  have r1 : Reachable (⟨some (.leaf [1] ())⟩ : Trie Unit) :=
    Reachable.emplace Trie.empty _ [1] () Reachable.empty (by decide) rfl
  have h1 := hf Trie.empty [1] Reachable.empty (by decide) () _ rfl
  have h2 := hf ⟨some (.leaf [1] ())⟩ [1] r1 (by decide) () ⟨some (.leaf [1] ())⟩ rfl
  have a1 : ([1] : Key) ∉ (Trie.empty : Trie Unit).keys := by decide
  have a2 : ([1] : Key) ∈ (⟨some (.leaf [1] ())⟩ : Trie Unit).keys := by decide
  exact (h2.mp (h1.mpr a1)) a2

/-- C4, amended. The `emplace` of the container returns nothing. In every
container that `emplace` and `remove` build, for every addressable key, it is
free of failures; when there is a root, the `emplace` of the root node returns
`true` exactly when the key was absent and `false` exactly when it was stored;
when there is none, the container gets a root that is the entry. -/
theorem node_emplace_tells_insertion (t : Trie V) (hr : Reachable t) (k : Key) (v : V)
    (ha : addressable k) :
    (∃ t', t.emplace k v = some ((), t')) ∧
      (∀ r, t.root = some r → ∃ r', r.emplace k v = some (decide (k ∉ t.keys), r')) ∧
      (t.root = none → t.emplace k v = some ((), ⟨some (.leaf k v)⟩)) := by
  have hwf := reachable_wf hr
  refine ⟨?_, ?_, ?_⟩
  · by_cases hk : k ∈ t.keys
    · exact ⟨t, trie_emplace_present hwf k v hk⟩
    · obtain ⟨t', h1, _⟩ := trie_emplace_absent hwf k v ha hk
      exact ⟨t', h1⟩
  · intro r hroot
    cases t with
    | mk root =>
      simp only at hroot
      subst hroot
      by_cases hk : k ∈ (⟨some r⟩ : Trie V).keys
      · exact ⟨r, by rw [node_emplace_present hwf k v hk]; simp [hk]⟩
      · obtain ⟨r', h1, _⟩ := node_emplace_absent hwf k v ha hk
        exact ⟨r', by rw [h1]; simp [hk]⟩
  · intro hroot
    cases t with
    | mk root =>
      simp only at hroot
      subst hroot
      rfl

theorem node_emplace_tells_insertion_witness :
    (Reachable sample_trie ∧ addressable [98]) ∧
    ((∃ t', sample_trie.emplace [98] 9 = some ((), t')) ∧
      (∀ r, sample_trie.root = some r →
        ∃ r', r.emplace [98] 9 = some (decide ([98] ∉ sample_trie.keys), r')) ∧
      (sample_trie.root = none →
        sample_trie.emplace [98] 9 = some ((), ⟨some (.leaf [98] 9)⟩))) :=
  ⟨⟨sample_reachable, by decide⟩,
    node_emplace_tells_insertion sample_trie sample_reachable [98] 9 (by decide)⟩

end jzt

/-!
## The claims C5 to C10
-/

namespace jzt

variable {V : Type}

/-- C5 (insertion adds exactly one entry). In every container that `emplace` and
`remove` build, `emplace` of an addressable key that is not stored, is free of
failures and afterwards the container holds the new entry and the entries it held,
one entry more than before: `contains` is true exactly for the new key and the
keys stored before, `find` of a key stored before points to its entry with the
value unchanged, and `find` of the new key points to the new entry. -/
theorem emplace_adds_one_entry (t : Trie V) (hr : Reachable t) (k : Key) (v : V)
    (ha : addressable k) (hk : k ∉ t.keys) :
    ∃ t', t.emplace k v = some ((), t') ∧
      (∀ e, e ∈ t'.entries ↔ e = (k, v) ∨ e ∈ t.entries) ∧
      t'.entries.length = t.entries.length + 1 ∧
      (∀ k', t'.contains k' = some (decide (k' = k ∨ k' ∈ t.keys))) ∧
      (∀ k0 v0, (k0, v0) ∈ t.entries →
        ∃ it, t'.find k0 = some it ∧ it.at_end = false ∧ it.deref = some (k0, v0)) ∧
      (∃ it, t'.find k = some it ∧ it.at_end = false ∧ it.deref = some (k, v)) := by
  have hwf := reachable_wf hr
  obtain ⟨t', h1, h2, h3⟩ := trie_emplace_absent hwf k v ha hk
  have hkeys : ∀ k', k' ∈ t'.keys ↔ k' = k ∨ k' ∈ t.keys := by
    intro k'
    rw [trie_mem_keys, trie_mem_keys]
    constructor
    · rintro ⟨v', hv'⟩
      rcases (h3 _).mp hv' with h4 | h4
      · exact Or.inl (Prod.mk.inj h4).1
      · exact Or.inr ⟨v', h4⟩
    · rintro (h4 | ⟨v', h4⟩)
      · exact ⟨v, (h3 _).mpr (Or.inl (by rw [h4]))⟩
      · exact ⟨v', (h3 _).mpr (Or.inr h4)⟩
  refine ⟨t', h1, h3, ?_, ?_, ?_, ?_⟩
  · have hnd' : t'.entries.Nodup := (trie_keys_nodup h2).of_map _
    have hnd : ((k, v) :: t.entries).Nodup := by
      rw [List.nodup_cons]
      refine ⟨fun h => hk (trie_mem_keys.mpr ⟨v, h⟩), (trie_keys_nodup hwf).of_map _⟩
    have hp : t'.entries.Perm ((k, v) :: t.entries) := by
      rw [List.perm_ext_iff_of_nodup hnd' hnd]
      intro e
      rw [h3 e, List.mem_cons]
    rw [hp.length_eq, List.length_cons]
  · intro k'
    rw [trie_contains_spec h2 k']
    congr 1
    exact decide_eq_decide.mpr (hkeys k')
  · intro k0 v0 hv0
    obtain ⟨f1, f2, f3⟩ := trie_find_present h2 ((h3 (k0, v0)).mpr (Or.inr hv0))
    exact ⟨_, f1, f2, f3⟩
  · obtain ⟨f1, f2, f3⟩ := trie_find_present h2 ((h3 (k, v)).mpr (Or.inl rfl))
    exact ⟨_, f1, f2, f3⟩

theorem emplace_adds_one_entry_witness :
    (Reachable sample_trie ∧ addressable [98] ∧ [98] ∉ sample_trie.keys) ∧
    ∃ t', sample_trie.emplace [98] 9 = some ((), t') ∧
      (∀ e, e ∈ t'.entries ↔ e = ([98], 9) ∨ e ∈ sample_trie.entries) ∧
      t'.entries.length = sample_trie.entries.length + 1 ∧
      (∀ k', t'.contains k' = some (decide (k' = [98] ∨ k' ∈ sample_trie.keys))) ∧
      (∀ k0 v0, (k0, v0) ∈ sample_trie.entries →
        ∃ it, t'.find k0 = some it ∧ it.at_end = false ∧ it.deref = some (k0, v0)) ∧
      (∃ it, t'.find [98] = some it ∧ it.at_end = false ∧ it.deref = some ([98], 9)) :=
  ⟨⟨sample_reachable, by decide, by decide⟩,
    emplace_adds_one_entry sample_trie sample_reachable [98] 9 (by decide) (by decide)⟩

/-- C6 (removal contract). In every container that `emplace` and `remove` build,
`remove(k)` is free of failures and returns `true` exactly when `k` is stored;
afterwards the container holds the entries it held but the one of `k`: `contains`
is true exactly for the other keys stored before, `find` of such a key points to
its entry with the value unchanged, and the root is absent exactly when no other
key was stored. -/
theorem remove_contract (t : Trie V) (hr : Reachable t) (k : Key) :
    ∃ b t', t.remove k = some (b, t') ∧ (b = true ↔ k ∈ t.keys) ∧
      (∀ e, e ∈ t'.entries ↔ e ∈ t.entries ∧ e.1 ≠ k) ∧
      (∀ k', t'.contains k' = some (decide (k' ∈ t.keys ∧ k' ≠ k))) ∧
      (∀ k0 v0, (k0, v0) ∈ t.entries → k0 ≠ k →
        ∃ it, t'.find k0 = some it ∧ it.at_end = false ∧ it.deref = some (k0, v0)) ∧
      (t'.root = none ↔ ∀ k' ∈ t.keys, k' = k) := by
  have hwf := reachable_wf hr
  have main : ∃ b t', t.remove k = some (b, t') ∧ (b = true ↔ k ∈ t.keys) ∧ t'.WF ∧
      (∀ e, e ∈ t'.entries ↔ e ∈ t.entries ∧ e.1 ≠ k) := by
    by_cases hk : k ∈ t.keys
    · obtain ⟨t', h1, h2, h3⟩ := trie_remove_present hwf k hk
      exact ⟨true, t', h1, by simp [hk], h2, h3⟩
    · refine ⟨false, t, trie_remove_absent hwf k hk, by simp [hk], hwf, ?_⟩
      intro e
      constructor
      · intro he
        exact ⟨he, fun h => hk (trie_mem_keys.mpr ⟨e.2, by rw [← h]; exact he⟩)⟩
      · exact fun h => h.1
  obtain ⟨b, t', h1, h2, h3, h4⟩ := main
  have hkeys : ∀ k', k' ∈ t'.keys ↔ k' ∈ t.keys ∧ k' ≠ k := by
    intro k'
    rw [trie_mem_keys, trie_mem_keys]
    constructor
    · rintro ⟨v', hv'⟩
      obtain ⟨h5, h6⟩ := (h4 _).mp hv'
      exact ⟨⟨v', h5⟩, h6⟩
    · rintro ⟨⟨v', h5⟩, h6⟩
      exact ⟨v', (h4 _).mpr ⟨h5, h6⟩⟩
  refine ⟨b, t', h1, h2, h4, ?_, ?_, ?_⟩
  · intro k'
    rw [trie_contains_spec h3 k']
    congr 1
    exact decide_eq_decide.mpr (hkeys k')
  · intro k0 v0 hv0 hne
    obtain ⟨f1, f2, f3⟩ := trie_find_present h3 ((h4 (k0, v0)).mpr ⟨hv0, hne⟩)
    exact ⟨_, f1, f2, f3⟩
  · rw [trie_root_none_iff h3]
    constructor
    · intro hnil k' hk'
      by_contra hne
      have := (hkeys k').mpr ⟨hk', hne⟩
      simp [Trie.keys, hnil] at this
    · intro hall
      cases he : t'.entries with
      | nil => rfl
      | cons e es =>
        have hin : e ∈ t'.entries := by rw [he]; simp
        obtain ⟨h5, h6⟩ := (h4 e).mp hin
        exact absurd (hall e.1 (trie_mem_keys.mpr ⟨e.2, h5⟩)) h6

theorem remove_contract_witness :
    Reachable sample_trie ∧
    ∃ b t', sample_trie.remove [97] = some (b, t') ∧ (b = true ↔ [97] ∈ sample_trie.keys) ∧
      (∀ e, e ∈ t'.entries ↔ e ∈ sample_trie.entries ∧ e.1 ≠ [97]) ∧
      (∀ k', t'.contains k' = some (decide (k' ∈ sample_trie.keys ∧ k' ≠ [97]))) ∧
      (∀ k0 v0, (k0, v0) ∈ sample_trie.entries → k0 ≠ [97] →
        ∃ it, t'.find k0 = some it ∧ it.at_end = false ∧ it.deref = some (k0, v0)) ∧
      (t'.root = none ↔ ∀ k' ∈ sample_trie.keys, k' = [97]) :=
  ⟨sample_reachable, remove_contract sample_trie sample_reachable [97]⟩

/-- C7 (prefix membership). In every container that `emplace` and `remove` build,
for every byte string `pfx`, the empty one included, `contains_prefix(pfx)` is
free of failures and true exactly when some stored key starts with `pfx`. -/
theorem contains_prefix_iff (t : Trie V) (hr : Reachable t) (pfx : Key) :
    ∃ b, Trie.contains_prefix t pfx = some b ∧ (b = true ↔ ∃ k ∈ t.keys, pfx <+: k) :=
  trie_contains_prefix_spec (reachable_wf hr) pfx

theorem contains_prefix_iff_witness :
    Reachable sample_trie ∧
    ∃ b, Trie.contains_prefix sample_trie [97] = some b ∧
      (b = true ↔ ∃ k ∈ sample_trie.keys, [97] <+: k) :=
  ⟨sample_reachable, contains_prefix_iff sample_trie sample_reachable [97]⟩

/-- C8 (prefix enumeration). In every container that `emplace` and `remove` build,
for every byte string `pfx`, iterating from `prefix(pfx)` until `end()` visits
exactly the stored entries whose keys start with `pfx`, each once and no other,
and `prefix(pfx)` is `end()` exactly when no stored key starts with `pfx`. -/
theorem prefix_enumeration (t : Trie V) (hr : Reachable t) (pfx : Key) :
    ∃ it l, Trie.prefix t pfx = some it ∧ it.yields l ∧ l.Nodup ∧
      (l.map Prod.fst).Nodup ∧ (∀ e, e ∈ l ↔ e ∈ t.entries ∧ pfx <+: e.1) ∧
      (it.at_end = true ↔ ¬ ∃ k ∈ t.keys, pfx <+: k) := by
  have hwf := reachable_wf hr
  obtain ⟨it, h1, h2⟩ := trie_prefix_spec hwf pfx
  have hknd : ((t.entries.filter (fun e => starts_with e.1 pfx)).map Prod.fst).Nodup :=
    ((trie_keys_nodup hwf).sublist ((List.filter_sublist _).map Prod.fst))
  have hmem : ∀ e, e ∈ t.entries.filter (fun e => starts_with e.1 pfx) ↔
      e ∈ t.entries ∧ pfx <+: e.1 := by
    intro e
    rw [List.mem_filter, starts_with_iff_isPrefix]
  refine ⟨it, _, h1, h2, hknd.of_map _, hknd, hmem, ?_⟩
  cases hl : t.entries.filter (fun e => starts_with e.1 pfx) with
  | nil =>
    rw [hl] at h2
    constructor
    · rintro _ ⟨k, hk, hp⟩
      obtain ⟨v, hv⟩ := trie_mem_keys.mp hk
      have := (hmem (k, v)).mpr ⟨hv, hp⟩
      rw [hl] at this
      simp at this
    · exact fun _ => yields_nil_at_end h2
  | cons e es =>
    rw [hl] at h2
    have hne := yields_cons_not_at_end h2
    have hin := (hmem e).mp (by rw [hl]; simp)
    constructor
    · intro h
      rw [hne] at h
      cases h
    · intro hno
      exact absurd ⟨e.1, trie_mem_keys.mpr ⟨e.2, hin.1⟩, hin.2⟩ hno

theorem prefix_enumeration_witness :
    Reachable sample_trie ∧
    ∃ it l, Trie.prefix sample_trie [97] = some it ∧ it.yields l ∧ l.Nodup ∧
      (l.map Prod.fst).Nodup ∧ (∀ e, e ∈ l ↔ e ∈ sample_trie.entries ∧ [97] <+: e.1) ∧
      (it.at_end = true ↔ ¬ ∃ k ∈ sample_trie.keys, [97] <+: k) :=
  ⟨sample_reachable, prefix_enumeration sample_trie sample_reachable [97]⟩

/-- C9 (full traversal). In every container that `emplace` and `remove` build and
that holds `n` entries, iterating from `begin()` reaches `end()` after exactly
`n` increments, not before, and visits the stored entries, each once: the keys
visited are distinct and are exactly those for which `contains` is true; for a
container without a root `begin()` is `end()`. -/
theorem full_traversal (t : Trie V) (hr : Reachable t) :
    ∃ it l, t.begin = some it ∧ it.yields l ∧ l = t.entries ∧ l.Nodup ∧
      (l.map Prod.fst).Nodup ∧
      (∀ k, t.contains k = some (decide (k ∈ l.map Prod.fst))) ∧
      (t.root = none → it = Iterator.iterator_end) := by
  have hwf := reachable_wf hr
  obtain ⟨it, h1, h2⟩ := trie_begin_spec hwf
  refine ⟨it, t.entries, h1, h2, rfl, (trie_keys_nodup hwf).of_map _, trie_keys_nodup hwf,
    fun k => trie_contains_spec hwf k, ?_⟩
  intro hroot
  simp only [Trie.begin, hroot, Option.some.injEq] at h1
  exact h1.symm

theorem full_traversal_witness :
    Reachable sample_trie ∧
    ∃ it l, sample_trie.begin = some it ∧ it.yields l ∧ l = sample_trie.entries ∧ l.Nodup ∧
      (l.map Prod.fst).Nodup ∧
      (∀ k, sample_trie.contains k = some (decide (k ∈ l.map Prod.fst))) ∧
      (sample_trie.root = none → it = Iterator.iterator_end) :=
  ⟨sample_reachable, full_traversal sample_trie sample_reachable⟩

/-- C10 (traversal order). In every container that `emplace` and `remove` build,
a full traversal visits the stored entries, all of them, and a traversal from
`prefix(pfx)` visits the stored entries whose key starts with `pfx`, all of them;
the keys that either visits are in strictly increasing order of their nybble
sequences, the past-end sentinel before every real nybble; the order is strict,
and a key that is a strict prefix of another comes before it, so that a stored
key is visited, and visited before all the stored keys it is a strict prefix
of. -/
theorem traversal_order (t : Trie V) (hr : Reachable t) (pfx : Key) :
    ∃ it l itp lp, t.begin = some it ∧ it.yields l ∧
      Trie.prefix t pfx = some itp ∧ itp.yields lp ∧
      l = t.entries ∧ lp = t.entries.filter (fun e => starts_with e.1 pfx) ∧
      (∀ e, e ∈ lp ↔ e ∈ t.entries ∧ pfx <+: e.1) ∧
      (l.map Prod.fst).Pairwise nybble_lt ∧ (lp.map Prod.fst).Pairwise nybble_lt ∧
      (∀ a b : Key, nybble_lt a b → ¬ nybble_lt b a) ∧
      (∀ a b : Key, a <+: b → a ≠ b → nybble_lt a b) ∧
      (∀ (i j : Nat) (a b : Key × V), l[i]? = some a → l[j]? = some b → a.1 <+: b.1 → a.1 ≠ b.1 → i < j) ∧
      (∀ (i j : Nat) (a b : Key × V), lp[i]? = some a → lp[j]? = some b → a.1 <+: b.1 → a.1 ≠ b.1 → i < j) ∧
      (∀ a b : Key × V, a ∈ t.entries → b ∈ t.entries → a.1 <+: b.1 → a.1 ≠ b.1 →
        ∃ i j : Nat, i < j ∧ l[i]? = some a ∧ l[j]? = some b) ∧
      (∀ a b : Key × V, a ∈ t.entries → b ∈ t.entries → pfx <+: a.1 → a.1 <+: b.1 →
        a.1 ≠ b.1 → ∃ i j : Nat, i < j ∧ lp[i]? = some a ∧ lp[j]? = some b) := by
  have hwf := reachable_wf hr
  obtain ⟨it, h1, h2⟩ := trie_begin_spec hwf
  obtain ⟨itp, h3, h4⟩ := trie_prefix_spec hwf pfx
  have hs := trie_entries_sorted hwf
  have hsp : ((t.entries.filter (fun e => starts_with e.1 pfx)).map Prod.fst).Pairwise
      nybble_lt := hs.sublist ((List.filter_sublist _).map Prod.fst)
  have hmem : ∀ e, e ∈ t.entries.filter (fun e => starts_with e.1 pfx) ↔
      e ∈ t.entries ∧ pfx <+: e.1 := by
    intro e
    rw [List.mem_filter, starts_with_iff_isPrefix]
  refine ⟨it, _, itp, _, h1, h2, h3, h4, rfl, rfl, hmem, hs, hsp,
    fun a b hab hba => nybble_lt_asymm hab hba,
    fun a b hp hne => prefix_nybble_lt hp hne,
    fun i j a b hi hj hp hne => prefix_comes_first hs hi hj hp hne,
    fun i j a b hi hj hp hne => prefix_comes_first hsp hi hj hp hne, ?_, ?_⟩
  · intro a b ha hb hp hne
    obtain ⟨i, hi⟩ := List.mem_iff_getElem?.mp ha
    obtain ⟨j, hj⟩ := List.mem_iff_getElem?.mp hb
    exact ⟨i, j, prefix_comes_first hs hi hj hp hne, hi, hj⟩
  · intro a b ha hb hpa hp hne
    obtain ⟨i, hi⟩ := List.mem_iff_getElem?.mp ((hmem a).mpr ⟨ha, hpa⟩)
    obtain ⟨j, hj⟩ := List.mem_iff_getElem?.mp ((hmem b).mpr ⟨hb, hpa.trans hp⟩)
    exact ⟨i, j, prefix_comes_first hsp hi hj hp hne, hi, hj⟩

theorem traversal_order_witness :
    (Reachable sample_trie ∧ (([97], 8) : Key × Nat) ∈ sample_trie.entries ∧
      (([97, 98], 6) : Key × Nat) ∈ sample_trie.entries) ∧
    ∃ it l itp lp, sample_trie.begin = some it ∧ it.yields l ∧
      Trie.prefix sample_trie [97] = some itp ∧ itp.yields lp ∧
      l = sample_trie.entries ∧
      lp = sample_trie.entries.filter (fun e => starts_with e.1 [97]) ∧
      (∀ e, e ∈ lp ↔ e ∈ sample_trie.entries ∧ [97] <+: e.1) ∧
      (l.map Prod.fst).Pairwise nybble_lt ∧ (lp.map Prod.fst).Pairwise nybble_lt ∧
      (∀ a b : Key, nybble_lt a b → ¬ nybble_lt b a) ∧
      (∀ a b : Key, a <+: b → a ≠ b → nybble_lt a b) ∧
      (∀ (i j : Nat) (a b : Key × Nat), l[i]? = some a → l[j]? = some b → a.1 <+: b.1 → a.1 ≠ b.1 → i < j) ∧
      (∀ (i j : Nat) (a b : Key × Nat), lp[i]? = some a → lp[j]? = some b → a.1 <+: b.1 → a.1 ≠ b.1 → i < j) ∧
      (∀ a b : Key × Nat, a ∈ sample_trie.entries → b ∈ sample_trie.entries → a.1 <+: b.1 →
        a.1 ≠ b.1 → ∃ i j : Nat, i < j ∧ l[i]? = some a ∧ l[j]? = some b) ∧
      (∀ a b : Key × Nat, a ∈ sample_trie.entries → b ∈ sample_trie.entries → [97] <+: a.1 →
        a.1 <+: b.1 → a.1 ≠ b.1 → ∃ i j : Nat, i < j ∧ lp[i]? = some a ∧ lp[j]? = some b) :=
  ⟨⟨sample_reachable, by decide, by decide⟩,
    traversal_order sample_trie sample_reachable [97]⟩

end jzt

/-!
## The mismatch index
-/

namespace jzt

variable {V : Type}

/-- The method `find_mismatch` returns `m` exactly when `m` is the least nybble
index at which the two keys differ. -/
theorem find_mismatch_iff_least (a b : Key) (m : Nat) :
    find_mismatch a b = some m ↔
      nybble_at a m ≠ nybble_at b m ∧ ∀ j < m, nybble_at a j = nybble_at b j := by
  constructor
  · intro h
    obtain ⟨h1, h2, _⟩ := find_mismatch_eq_some a b m h
    exact ⟨h2, h1⟩
  · rintro ⟨h1, h2⟩
    cases hm : find_mismatch a b with
    | none =>
      have := (find_mismatch_eq_none a b).mp hm
      subst this
      exact absurd rfl h1
    | some m' =>
      obtain ⟨h3, h4, _⟩ := find_mismatch_eq_some a b m' hm
      rcases Nat.lt_trichotomy m m' with hlt | heq | hgt
      · exact absurd (h3 m hlt) h1
      · rw [heq]
      · exact absurd (h2 m' hgt) h4

theorem find_mismatch_comm (a b : Key) : find_mismatch a b = find_mismatch b a := by
  cases hm : find_mismatch a b with
  | none =>
    have := (find_mismatch_eq_none a b).mp hm
    subst this
    exact hm.symm
  | some m =>
    obtain ⟨h1, h2⟩ := (find_mismatch_iff_least a b m).mp hm
    exact ((find_mismatch_iff_least b a m).mpr ⟨fun h => h1 h.symm, fun j hj => (h2 j hj).symm⟩).symm

theorem nybble_at_even (k : Key) (j : Nat) (x : Fin 256) (h : k.get? j = some x) :
    nybble_at k (2 * j) = x.val &&& 0x0F := by
  unfold nybble_at
  have h1 : 2 * j / 2 = j := by omega
  have h2 : (2 * j) &&& 1 = 0 := by
    rw [Nat.and_one_is_mod]
    omega
  simp only [h1, h, h2, if_true]

theorem nybble_at_odd (k : Key) (j : Nat) (x : Fin 256) (h : k.get? j = some x) :
    nybble_at k (2 * j + 1) = x.val >>> 4 := by
  unfold nybble_at
  have h1 : (2 * j + 1) / 2 = j := by omega
  have h2 : (2 * j + 1) &&& 1 = 1 := by
    rw [Nat.and_one_is_mod]
    omega
  simp only [h1, h, h2, one_ne_zero, if_false]

theorem nybble_at_of_take_eq (a b : Key) (j i : Nat) (h : a.take j = b.take j) (hi : i / 2 < j) :
    nybble_at a i = nybble_at b i := by
  have h1 := nybble_at_take a j i
  have h2 := nybble_at_take b j i
  rw [if_pos hi] at h1 h2
  rw [← h1, ← h2, h]

/-- The keys agree before byte `j` and differ in it: the mismatch index is `2 * j`
when the low four bits of the two bytes differ, and `2 * j + 1` when only the
high four bits do. -/
theorem find_mismatch_at_byte (a b : Key) (j : Nat) (x y : Fin 256) (hx : a.get? j = some x)
    (hy : b.get? j = some y) (hpre : a.take j = b.take j) (hne : x ≠ y) :
    find_mismatch a b
      = some (if x.val &&& 0x0F ≠ y.val &&& 0x0F then 2 * j else 2 * j + 1) := by
  rw [find_mismatch_iff_least]
  by_cases hlow : x.val &&& 0x0F = y.val &&& 0x0F
  · rw [if_neg (not_not.mpr hlow)]
    constructor
    · rw [nybble_at_odd a j x hx, nybble_at_odd b j y hy]
      intro hhigh
      exact hne (byte_eq_of_nybbles x y hlow hhigh)
    · intro i hi
      by_cases h2 : i = 2 * j
      · subst h2
        rw [nybble_at_even a j x hx, nybble_at_even b j y hy, hlow]
      · exact nybble_at_of_take_eq a b j i hpre (by omega)
  · rw [if_pos hlow]
    constructor
    · rw [nybble_at_even a j x hx, nybble_at_even b j y hy]
      exact hlow
    · intro i hi
      exact nybble_at_of_take_eq a b j i hpre (by omega)

/-- A key against a longer key that starts with it: the mismatch index is twice
the size of the shorter key. -/
theorem find_mismatch_strict_start (a r : Key) (hr : r ≠ []) :
    find_mismatch a (a ++ r) = some (2 * a.length) := by
  rw [find_mismatch_iff_least]
  constructor
  · have h1 : nybble_at a (2 * a.length) = NybbleHead := by
      rw [nybble_at_eq_head_iff]
      omega
    have h2 : nybble_at (a ++ r) (2 * a.length) ≠ NybbleHead := by
      rw [Ne, nybble_at_eq_head_iff, List.length_append]
      have : 0 < r.length := List.length_pos.mpr hr
      omega
    rw [h1]
    exact fun h => h2 h.symm
  · intro j hj
    exact (nybble_at_append_left a r j (by omega)).symm

end jzt

/-!
## The branches of a trie and the layout of their child arrays
-/

namespace jzt

variable {V : Type}

theorem branches_leaf (k : Key) (v : V) : (Node.leaf k v).branches = [] := by
  simp [Node.branches]

theorem branches_each_eq (tw : List (Node V)) :
    Node.branches_each tw = (tw.map Node.branches).flatten := by
  induction tw with
  | nil => rfl
  | cons t ts ih => simp [Node.branches_each, ih]

theorem branches_branch (tw : List (Node V)) (h : Bool) (c i bm : Nat) :
    (Node.branch tw h c i bm).branches = ⟨tw, h, c, i, bm⟩ :: (tw.map Node.branches).flatten := by
  rw [Node.branches, branches_each_eq]

theorem mem_branches_branch {tw : List (Node V)} {h : Bool} {c i bm : Nat} {b : Branch V} :
    b ∈ (Node.branch tw h c i bm).branches ↔
      b = ⟨tw, h, c, i, bm⟩ ∨ ∃ t ∈ tw, b ∈ t.branches := by
  rw [branches_branch, List.mem_cons, List.mem_flatten]
  simp

/-- Every branch of a subtree that satisfies the invariant satisfies it. -/
theorem wf_of_mem_branches {r : Node V} (hwf : r.WF) :
    ∀ b ∈ r.branches, (Node.ofBranch b).WF := by
  induction hwf with
  | leaf k v =>
    intro b hb
    simp [branches_leaf] at hb
  | branch tw h c i bm hbm hlen hcap hc17 hf hagree hwfs ih =>
    intro b hb
    rcases mem_branches_branch.mp hb with h1 | ⟨t, ht, h1⟩
    · subst h1
      exact Node.WF.branch tw h c i bm hbm hlen hcap hc17 hf hagree hwfs
    · exact ih t ht b h1

theorem trie_wf_of_mem_branches {t : Trie V} (hwf : t.WF) :
    ∀ b ∈ t.branches, (Node.ofBranch b).WF := by
  cases t with
  | mk root =>
    cases root with
    | none =>
      intro b hb
      simp [Trie.branches] at hb
    | some r => exact wf_of_mem_branches hwf

theorem bits_below_length_lt (bm n1 n2 : Nat) (h : n1 < n2) (hb : bm.testBit n1 = true) :
    (bits_below bm n1).length < (bits_below bm n2).length := by
  have h1 : (bits_below bm (n1 + 1)).length = (bits_below bm n1).length + 1 := by
    unfold bits_below
    rw [List.range_succ, List.filter_append]
    simp [hb]
  have h2 : (bits_below bm (n1 + 1)).length ≤ (bits_below bm n2).length := by
    unfold bits_below
    apply List.Sublist.length_le
    apply List.Sublist.filter
    exact List.range_sublist.mpr (by omega)
  omega

theorem bits_below_length_lt_bits (bm n : Nat) (hn : n < 16) (hb : bm.testBit n = true) :
    (bits_below bm n).length < (bits bm).length :=
  bits_below_length_lt bm n 16 hn hb

/-- The slots of a child array that hold the twigs of the set bits in ascending
order and then the head are laid out as `layout_ok` says. -/
theorem layout_of_slots {tw : List (Node V)} {h : Bool} {c i bm : Nat} (hbm : bm < 2 ^ 16)
    (hf : List.Forall₂ (labelled i) (slots h bm) tw) :
    Branch.layout_ok ⟨tw, h, c, i, bm⟩ := by
  have hlen := hf.length_eq
  rw [slots_length] at hlen
  refine ⟨?_, ?_, ?_, ?_⟩
  · show tw.length = popcount bm + h.toNat
    rw [popcount_eq_length_bits bm hbm]
    exact hlen.symm
  · intro n hn hb
    obtain ⟨x, hx, hl⟩ := twig_of_bit hf hn hb
    refine ⟨_, x, twig_index_eq _ n hn, ?_, hl⟩
    simp only [Branch.twig, List.get?_eq_getElem?]
    exact hx
  · intro n1 n2 h12 hn2 hb1 hb2
    exact ⟨_, _, twig_index_eq _ n1 (by omega), twig_index_eq _ n2 hn2,
      bits_below_length_lt bm n1 n2 h12 hb1⟩
  · intro hh
    simp only at hh
    subst hh
    constructor
    · obtain ⟨x, hx, hl⟩ := twig_of_head hf
      refine ⟨x, ?_, ?_, hl⟩
      · simp only [Branch.get_head, Branch.size, if_true, List.get?_eq_getElem?]
        exact hx
      · simp only [Branch.twig, Branch.size, List.get?_eq_getElem?]
        exact hx
    · intro n hn hb
      refine ⟨_, twig_index_eq _ n hn, ?_⟩
      have := bits_below_length_lt_bits bm n hn hb
      simp only [Bool.toNat_true] at hlen
      show (bits_below bm n).length < tw.length - 1
      omega

/-- A child array laid out as `layout_ok` says holds, in its slots, the twigs of
the set bits in ascending order and then the head. -/
theorem slots_of_layout {tw : List (Node V)} {h : Bool} {c i bm : Nat} (hbm : bm < 2 ^ 16)
    (hl : Branch.layout_ok ⟨tw, h, c, i, bm⟩) :
    List.Forall₂ (labelled i) (slots h bm) tw := by
  obtain ⟨h1, h2, _, h4⟩ := hl
  have hlen : (slots h bm).length = tw.length := by
    rw [slots_length, ← popcount_eq_length_bits bm hbm]
    exact h1.symm
  rw [List.forall₂_iff_get]
  refine ⟨hlen, ?_⟩
  intro j hj1 hj2
  have hs : (slots h bm)[j]? = some ((slots h bm).get ⟨j, hj1⟩) := by
    rw [List.getElem?_eq_getElem hj1]
    rfl
  have ht : tw[j]? = some (tw.get ⟨j, hj2⟩) := by
    rw [List.getElem?_eq_getElem hj2]
    rfl
  generalize (slots h bm).get ⟨j, hj1⟩ = n at hs
  generalize tw.get ⟨j, hj2⟩ = t at ht
  have hm : n ∈ slots h bm := List.mem_iff_getElem?.mpr ⟨j, hs⟩
  rcases mem_slots.mp hm with ⟨hn, hb⟩ | ⟨hh, hn⟩
  · obtain ⟨idx, x, e1, e2, e3⟩ := h2 n hn hb
    rw [twig_index_eq _ n hn] at e1
    simp only [Option.some.injEq] at e1
    have hj : j = idx := by
      rw [← e1]
      exact slots_index_inj h bm hs (slots_bit_index h bm n hn hb)
    subst hj
    simp only [Branch.twig, List.get?_eq_getElem?] at e2
    rw [ht] at e2
    cases e2
    exact e3
  · subst hh hn
    obtain ⟨⟨x, _, e2, e3⟩, _⟩ := h4 rfl
    have hj : j = tw.length - 1 := by
      have := slots_index_inj true bm hs (slots_head_index bm)
      rw [slots_length] at hlen
      simp only [Bool.toNat_true] at hlen
      omega
    subst hj
    simp only [Branch.twig, Branch.size, List.get?_eq_getElem?] at e2
    rw [ht] at e2
    cases e2
    exact e3

end jzt

/-!
## The layout of a child array under insertion and removal of a twig
-/

namespace jzt

variable {V : Type}

theorem labelled_leaf (i : Nat) (k : Key) (v : V) : labelled i (nybble_at k i) (Node.leaf k v) := by
  intro e he
  simp [entries_leaf] at he
  subst he
  rfl

/-- A twig for a real nybble that has none yet: `twig_emplace_at` at the offset
`twig_index` computes, then the bit of the nybble set, keeps the layout, and the
other twigs stay as they are and in their order. -/
theorem emplace_at_layout (b : Branch V) (x : Node V) (n : Nat) (hbm : b.bitmap < 2 ^ 16)
    (hsz : b.size ≤ b.capacity) (hc2 : 2 ≤ b.capacity) (hc17 : b.capacity ≤ 17)
    (hl : b.layout_ok) (hn : n < 16) (hb : b.bitmap.testBit n = false)
    (hx : labelled b.index n x) :
    ∃ idx b', b.twig_index n = some idx ∧ b.twig_emplace_at idx x = some b' ∧
      Branch.layout_ok { b' with bitmap := (b'.bitmap ||| (1 <<< n)) % 2 ^ bitmap_bits } ∧
      (b'.bitmap ||| (1 <<< n)) % 2 ^ bitmap_bits < 2 ^ 16 ∧ b'.index = b.index ∧
      b'.head = b.head ∧ b'.size ≤ b'.capacity ∧ b.capacity ≤ b'.capacity ∧ b'.capacity ≤ 17 ∧
      idx ≤ b.size ∧ b'.twigs = b.twigs.take idx ++ x :: b.twigs.drop idx := by
  cases b with
  | mk tw h c i bm =>
    simp only at hbm hc2 hc17 hb hx
    have hf := slots_of_layout hbm hl
    have hlen := hf.length_eq
    rw [slots_length] at hlen
    have hbits := bits_length_lt_of_not_mem bm n hn hb
    have hidx : (bits_below bm n).length ≤ tw.length := by
      have := bits_below_length_le bm n (by omega)
      omega
    have h17 : tw.length < 17 := by
      have : h.toNat ≤ 1 := by cases h <;> simp
      omega
    obtain ⟨c', hc, hc1, hc2', hc3⟩ :=
      twig_emplace_at_eq ⟨tw, h, c, i, bm⟩ _ x h17 hidx hsz hc2 hc17
    refine ⟨_, _, twig_index_eq _ n hn, hc, ?_, ?_, rfl, rfl, ?_, hc3, hc2', hidx, rfl⟩
    · simp only
      rw [set_bit_eq _ _ hbm hn]
      apply layout_of_slots (set_bit_lt _ _ hbm hn)
      unfold slots
      rw [bits_set_bit _ _ hn, List.append_assoc, List.cons_append]
      apply forall₂_insert _ n x hx
      have := hf
      unfold slots at this
      rw [bits_split_not_mem _ _ hn hb, List.append_assoc] at this
      exact this
    · simp only
      rw [set_bit_eq _ _ hbm hn]
      exact set_bit_lt _ _ hbm hn
    · simp only [Branch.size, List.length_append, List.length_take, List.length_cons,
        List.length_drop] at hc1 ⊢
      omega

/-- A head for a branch that has none: `twig_emplace_back` after the flag is set
keeps the layout, and the other twigs stay as they are and in their order. -/
theorem emplace_back_layout (b : Branch V) (x : Node V) (hbm : b.bitmap < 2 ^ 16)
    (hsz : b.size ≤ b.capacity) (hc2 : 2 ≤ b.capacity) (hc17 : b.capacity ≤ 17)
    (hl : b.layout_ok) (hh : b.head = false) (hx : labelled b.index NybbleHead x) :
    ∃ b', Branch.twig_emplace_back { b with head := true } x = some b' ∧ b'.layout_ok ∧
      b'.bitmap = b.bitmap ∧ b'.index = b.index ∧ b'.size ≤ b'.capacity ∧
      b.capacity ≤ b'.capacity ∧ b'.capacity ≤ 17 ∧ b'.twigs = b.twigs ++ [x] := by
  cases b with
  | mk tw h c i bm =>
    simp only at hbm hc2 hc17 hh hx
    subst hh
    have hf := slots_of_layout hbm hl
    have hlen := hf.length_eq
    rw [slots_length] at hlen
    simp only [Bool.toNat_false, Nat.add_zero] at hlen
    have hbits := bits_length_le bm
    have h17 : tw.length < 17 := by omega
    unfold Branch.twig_emplace_back
    have hs : Branch.size (⟨tw, true, c, i, bm⟩ : Branch V) = tw.length := rfl
    simp only [hs, if_pos h17]
    obtain ⟨c', hc, hc1, hc2', hc3⟩ :=
      twig_emplace_at_eq (⟨tw, true, c, i, bm⟩ : Branch V) tw.length x h17 (le_refl _) hsz hc2 hc17
    simp only [List.take_length, List.drop_length] at hc
    refine ⟨_, hc, ?_, rfl, rfl, ?_, hc3, hc2', rfl⟩
    · apply layout_of_slots hbm
      unfold slots at hf ⊢
      simp only [Bool.false_eq_true, if_false, List.append_nil] at hf
      simp only [if_true]
      exact forall₂_concat hf _ _ hx
    · simp only [Branch.size, List.length_append, List.length_singleton] at hc1 ⊢
      exact hc1

/-- The method `twig_insert(leaf, n)` keeps the layout of the child array, and
the other twigs stay as they are and in their order. -/
theorem twig_insert_layout (b : Branch V) (key : Key) (val : V) (hbm : b.bitmap < 2 ^ 16)
    (hsz : b.size ≤ b.capacity) (hc2 : 2 ≤ b.capacity) (hc17 : b.capacity ≤ 17)
    (hl : b.layout_ok)
    (hfree : (nybble_at key b.index = NybbleHead ∧ b.head = false) ∨
      (nybble_at key b.index ≠ NybbleHead ∧
        b.bitmap.testBit (nybble_at key b.index) = false)) :
    ∃ b' idx, b.twig_insert key val (nybble_at key b.index) = some b' ∧ b'.layout_ok ∧
      b'.bitmap < 2 ^ 16 ∧ b'.index = b.index ∧ b'.size ≤ b'.capacity ∧
      b.capacity ≤ b'.capacity ∧ b'.capacity ≤ 17 ∧ idx ≤ b.size ∧
      b'.twigs = b.twigs.take idx ++ Node.leaf key val :: b.twigs.drop idx := by
  have hx := labelled_leaf b.index key val
  rcases hfree with ⟨hn, hh⟩ | ⟨hn, hb⟩
  · rw [hn] at hx
    obtain ⟨b', e1, e2, e3, e4, e5, e6, e7, e8⟩ :=
      emplace_back_layout b _ hbm hsz hc2 hc17 hl hh hx
    refine ⟨b', b.size, ?_, e2, by rw [e3]; exact hbm, e4, e5, e6, e7, le_refl _, ?_⟩
    · unfold Branch.twig_insert
      rw [if_pos hn, hh]
      simp only [Bool.false_eq_true, if_false]
      exact e1
    · rw [e8]
      simp [Branch.size]
  · have hn16 : nybble_at key b.index < 16 := by
      rcases nybble_at_cases key b.index with h1 | h1
      · exact h1
      · exact absurd h1 hn
    obtain ⟨idx, b', e1, e2, e3, e4, e5, _, e6, e7, e8, e9, e10⟩ :=
      emplace_at_layout b _ _ hbm hsz hc2 hc17 hl hn16 hb hx
    refine ⟨_, idx, ?_, e3, e4, e5, e6, e7, e8, e9, e10⟩
    unfold Branch.twig_insert
    rw [if_neg hn, has_twig_eq _ _ hn, hb, e1]
    simp only [Option.bind_eq_bind, Option.some_bind, Bool.false_eq_true, if_false, e2]

/-- The method `twig_insert(new_branch, n)` for a nybble that has no twig yet
keeps the layout of the child array, and the other twigs stay as they are and
in their order. -/
theorem twig_insert_branch_layout (b nb : Branch V) (n : Nat) (hbm : b.bitmap < 2 ^ 16)
    (hsz : b.size ≤ b.capacity) (hc2 : 2 ≤ b.capacity) (hc17 : b.capacity ≤ 17)
    (hl : b.layout_ok) (hn : n < 16) (hb : b.bitmap.testBit n = false)
    (hx : labelled b.index n (Node.ofBranch nb)) :
    ∃ b' idx, b.twig_insert_branch nb n = some b' ∧ b'.layout_ok ∧
      b'.bitmap < 2 ^ 16 ∧ b'.index = b.index ∧ b'.size ≤ b'.capacity ∧
      b.capacity ≤ b'.capacity ∧ b'.capacity ≤ 17 ∧ idx ≤ b.size ∧
      b'.twigs = b.twigs.take idx ++ Node.ofBranch nb :: b.twigs.drop idx := by
  obtain ⟨idx, b', e1, e2, e3, e4, e5, _, e6, e7, e8, e9, e10⟩ :=
    emplace_at_layout b _ _ hbm hsz hc2 hc17 hl hn hb hx
  refine ⟨_, idx, ?_, e3, e4, e5, e6, e7, e8, e9, e10⟩
  unfold Branch.twig_insert_branch
  rw [e1]
  simp only [Option.bind_eq_bind, Option.some_bind, e2]

/-- The method `twig_remove(n)` keeps the layout of the child array, and the
other twigs stay as they are and in their order. -/
theorem twig_remove_layout (b : Branch V) (n : Nat) (hbm : b.bitmap < 2 ^ 16)
    (hl : b.layout_ok) (hn : n < 16) (hb : b.bitmap.testBit n = true) (h1 : 1 < b.size) :
    ∃ b' idx, b.twig_remove n = some b' ∧ b'.layout_ok ∧ b'.bitmap < 2 ^ 16 ∧
      b'.index = b.index ∧ b'.capacity = b.capacity ∧ b'.head = b.head ∧
      b.twig_index n = some idx ∧ idx < b.size ∧ b'.twigs = b.twigs.eraseIdx idx := by
  cases b with
  | mk tw h c i bm =>
    simp only at hbm hb
    have hf := slots_of_layout hbm hl
    have hne : n ≠ NybbleHead := by
      unfold NybbleHead
      omega
    obtain ⟨t0, ht0, _⟩ := twig_of_bit hf hn hb
    have hslot : (bits_below bm n).length < tw.length := (List.getElem?_eq_some.mp ht0).1
    refine ⟨⟨tw.eraseIdx (bits_below bm n).length, h, c, i,
      bm &&& ((2 ^ bitmap_bits - 1) ^^^ (1 <<< n))⟩, _, ?_, ?_, clear_bit_lt bm n hbm, rfl, rfl,
      rfl, twig_index_eq _ n hn, hslot, rfl⟩
    · unfold Branch.twig_remove
      rw [has_twig_eq _ _ hne, twig_index_eq _ _ hn]
      simp only [hb, Option.bind_eq_bind, Option.some_bind, if_true]
      rw [twig_erase_at_eq ⟨tw, h, c, i, bm⟩ _ h1 hslot]
      simp
    · apply layout_of_slots (clear_bit_lt bm n hbm)
      unfold slots
      rw [bits_clear_bit bm n hn, List.append_assoc]
      apply forall₂_erase (a := n)
      have := hf
      unfold slots at this
      rw [bits_split_mem bm n hn hb, List.append_assoc] at this
      exact this

/-- The method `remove_head` keeps the layout of the child array, and the other
twigs stay as they are and in their order. -/
theorem remove_head_layout (b : Branch V) (hbm : b.bitmap < 2 ^ 16) (hl : b.layout_ok)
    (hh : b.head = true) :
    ∃ b', b.remove_head = some b' ∧ b'.layout_ok ∧ b'.bitmap = b.bitmap ∧
      b'.index = b.index ∧ b'.capacity = b.capacity ∧ b'.head = false ∧
      b'.twigs = b.twigs.dropLast ∧ b'.twigs = b.twigs.eraseIdx (b.size - 1) := by
  cases b with
  | mk tw h c i bm =>
    simp only at hbm hh
    subst hh
    have hf := slots_of_layout hbm hl
    have hlen := hf.length_eq
    rw [slots_length] at hlen
    simp only [Bool.toNat_true] at hlen
    have hpos : 0 < tw.length := by omega
    refine ⟨⟨tw.dropLast, false, c, i, bm⟩, ?_, ?_, rfl, rfl, rfl, rfl, rfl, ?_⟩
    · simp [Branch.remove_head, Branch.size, hpos]
    · apply layout_of_slots hbm
      unfold slots at hf ⊢
      simp only [if_true] at hf
      simp only [Bool.false_eq_true, if_false, List.append_nil]
      exact forall₂_dropLast hf
    · simp only [Branch.size]
      exact List.dropLast_eq_eraseIdx (by omega)

end jzt

/-!
## The steps of `remove`, one by one
-/

namespace jzt

variable {V : Type}

/-- The step of `remove` into a twig: either the twig is a branch, the walk goes
on below it and the twig is put back, or the twig is the leaf of the key and the
end of `remove` decides what the parent holds afterwards. -/
theorem remove_walk_at_single_inv (key : Key) (parent : Branch V) (phead : Bool) (pn slot : Nat)
    (x r' : Node V)
    (hw : Node.remove_walk_at key parent phead pn slot [x] 0 = some (some r')) :
    (x.is_branch = true ∧ ∃ x', Node.remove_walk key x = some (some x') ∧
      r' = .branch (parent.twigs.set slot x') parent.head parent.capacity parent.index
        parent.bitmap) ∨
    (∃ v, x = .leaf key v ∧ Node.remove_fixup parent phead pn = some r') := by
  cases x with
  | leaf k0 v0 =>
    right
    simp only [Node.remove_walk_at, Node.is_branch, Bool.false_eq_true, if_false,
      Node.get_leaf] at hw
    by_cases hk : k0 = key
    · subst hk
      simp only [ne_eq, not_true_eq_false, if_false] at hw
      refine ⟨v0, rfl, ?_⟩
      cases hfx : Node.remove_fixup parent phead pn with
      | none => simp [hfx] at hw
      | some p' =>
        simp only [hfx, Option.some.injEq] at hw
        rw [hw]
    · simp [hk] at hw
  | branch tw0 h0 c0 i0 bm0 =>
    left
    simp only [Node.remove_walk_at, Node.is_branch, if_true] at hw
    refine ⟨rfl, ?_⟩
    cases hr : Node.remove_walk key (Node.branch tw0 h0 c0 i0 bm0) with
    | none => simp [hr] at hw
    | some o =>
      cases o with
      | none => simp [hr] at hw
      | some x' =>
        simp only [hr, Option.some.injEq] at hw
        exact ⟨x', rfl, hw.symm⟩

/-- A step of the walk of `remove` that ends in a removal: the walk steps to the
twig of the nybble of the key, the head when the key has ended; below a branch
it goes on, at the leaf of the key the end of `remove` follows. -/
theorem remove_walk_inv {tw : List (Node V)} {h : Bool} {c i bm : Nat} (key : Key)
    (r' : Node V) (hw : Node.remove_walk key (.branch tw h c i bm) = some (some r')) :
    ∃ s x, tw[s]? = some x ∧
      ((nybble_at key i = NybbleHead ∧ h = true ∧ s = tw.length - 1) ∨
        (nybble_at key i ≠ NybbleHead ∧ bm.testBit (nybble_at key i) = true ∧
          Branch.twig_index ⟨tw, h, c, i, bm⟩ (nybble_at key i) = some s)) ∧
      ((x.is_branch = true ∧ ∃ x', Node.remove_walk key x = some (some x') ∧
          r' = .branch (tw.set s x') h c i bm) ∨
        (∃ v, x = .leaf key v ∧
          Node.remove_fixup ⟨tw, h, c, i, bm⟩ (decide (nybble_at key i = NybbleHead))
            (nybble_at key i) = some r')) := by
  simp only [Node.remove_walk, Branch.twig_nybble, Branch.has_head, Branch.size] at hw
  by_cases hn : nybble_at key i = NybbleHead
  · simp only [hn, if_true] at hw
    cases h with
    | false => simp at hw
    | true =>
      simp only [if_true] at hw
      rw [remove_walk_at_eq] at hw
      cases ht : tw[tw.length - 1]? with
      | none => simp [ht] at hw
      | some x =>
        simp only [ht] at hw
        refine ⟨tw.length - 1, x, ht, Or.inl ⟨hn, rfl, rfl⟩, ?_⟩
        have := remove_walk_at_single_inv key _ _ _ _ x r' hw
        simpa [hn] using this
  · simp only [hn, if_false] at hw
    rw [has_twig_eq _ _ hn] at hw
    cases hb : bm.testBit (nybble_at key i) with
    | false => simp [hb] at hw
    | true =>
      simp only [hb] at hw
      cases hti : Branch.twig_index ⟨tw, h, c, i, bm⟩ (nybble_at key i) with
      | none => simp [hti] at hw
      | some s =>
        simp only [hti] at hw
        rw [remove_walk_at_eq] at hw
        cases ht : tw[s]? with
        | none => simp [ht] at hw
        | some x =>
          simp only [ht] at hw
          refine ⟨s, x, ht, Or.inr ⟨hn, rfl, rfl⟩, ?_⟩
          have := remove_walk_at_single_inv key _ _ _ _ x r' hw
          simpa [hn] using this

/-- The end of `remove` at a branch with more than two twigs: the twig at `slot`
is taken out, the others stay as they are and in their order, and the capacity
and the index stay as they are. -/
theorem remove_fixup_many {tw : List (Node V)} {h : Bool} {c i bm : Nat} (hbm : bm < 2 ^ 16)
    (hf : List.Forall₂ (labelled i) (slots h bm) tw) (phead : Bool) (pn slot : Nat)
    (hcase : (phead = true ∧ h = true ∧ slot = tw.length - 1) ∨
      (phead = false ∧ pn < 16 ∧ bm.testBit pn = true ∧ slot = (bits_below bm pn).length))
    (hgt : 2 < tw.length) :
    ∃ h' bm', Node.remove_fixup ⟨tw, h, c, i, bm⟩ phead pn
      = some (.branch (tw.eraseIdx slot) h' c i bm') := by
  have hl : Branch.layout_ok ⟨tw, h, c, i, bm⟩ := layout_of_slots hbm hf
  unfold Node.remove_fixup
  rw [twig_count_eq hbm hf]
  simp only [Option.bind_eq_bind, Option.some_bind, gt_iff_lt, if_pos hgt]
  rcases hcase with ⟨h1, h2, h3⟩ | ⟨h1, h2, h3, h4⟩
  · subst h1 h2 h3
    obtain ⟨b', e1, _, e3, e4, e5, e6, _, e8⟩ := remove_head_layout _ hbm hl rfl
    refine ⟨false, bm, ?_⟩
    simp only [if_true, e1, Option.some_bind, Node.ofBranch, Option.some.injEq]
    rw [e3, e4, e5, e6, e8]
    rfl
  · subst h1
    obtain ⟨b', idx, e1, _, _, e4, e5, e6, e7, _, e9⟩ :=
      twig_remove_layout ⟨tw, h, c, i, bm⟩ pn hbm hl h2 h3 (by simp only [Branch.size]; omega)
    rw [twig_index_eq _ _ h2] at e7
    simp only [Option.some.injEq] at e7
    refine ⟨h, b'.bitmap, ?_⟩
    simp only [Bool.false_eq_true, if_false, e1, Option.some_bind, Node.ofBranch,
      Option.some.injEq]
    rw [e4, e5, e6, e9, h4, e7]

/-- The end of `remove` at a branch with two twigs: what is left is the other
twig. -/
theorem remove_fixup_two {a b : Node V} {h : Bool} {c i bm : Nat} (hbm : bm < 2 ^ 16)
    (hf : List.Forall₂ (labelled i) (slots h bm) [a, b]) (phead : Bool) (pn slot : Nat)
    (hcase : (phead = true ∧ h = true ∧ slot = 1) ∨
      (phead = false ∧ pn < 16 ∧ bm.testBit pn = true ∧ slot = (bits_below bm pn).length)) :
    slot < 2 ∧
    Node.remove_fixup ⟨[a, b], h, c, i, bm⟩ phead pn = [a, b][1 - slot]? := by
  unfold Node.remove_fixup
  rw [twig_count_eq hbm hf]
  simp only [Option.bind_eq_bind, Option.some_bind, List.length_cons, List.length_nil]
  rcases hcase with ⟨h1, h2, h3⟩ | ⟨h1, h2, h3, h4⟩
  · subst h1 h2 h3
    refine ⟨by omega, ?_⟩
    simp [Branch.twig]
  · subst h1
    obtain ⟨t0, ht0, _⟩ := twig_of_bit hf h2 h3
    have hslot : slot < 2 := by
      rw [h4]
      exact (List.getElem?_eq_some.mp ht0).1
    refine ⟨hslot, ?_⟩
    simp only [Bool.false_eq_true, if_false]
    rw [twig_index_eq _ _ h2, ← h4]
    simp only [Option.bind_eq_bind, Option.some_bind]
    by_cases hs0 : slot = 0
    · subst hs0
      simp [Branch.twig]
    · have hs1 : slot = 1 := by omega
      subst hs1
      simp [Branch.twig]

end jzt

/-!
## Fusion: what `remove` leaves of the tree
-/

namespace jzt

variable {V : Type}

theorem visit_order_length {α : Type} (h : Bool) (ls : List (List α)) :
    (visit_order h ls).length = ls.flatten.length := by
  unfold visit_order
  cases h with
  | false => simp
  | true =>
    simp only [if_true]
    rcases List.eq_nil_or_concat ls with h0 | ⟨init, last, h0⟩
    · subst h0
      simp
    · subst h0
      rw [List.concat_eq_append, List.getLast?_concat, List.dropLast_concat]
      simp only [Option.getD_some, List.length_append, List.flatten_append, List.flatten_cons,
        List.flatten_nil, List.append_nil]
      omega

theorem Node.WF.entries_length_pos {t : Node V} (h : t.WF) : 1 ≤ t.entries.length := by
  have := h.entries_ne_nil
  exact List.length_pos.mpr this

/-- A branch holds at least two entries. -/
theorem wf_branch_entries_length {tw : List (Node V)} {h : Bool} {c i bm : Nat}
    (hwf : (Node.branch tw h c i bm).WF) : 2 ≤ (Node.branch tw h c i bm).entries.length := by
  cases hwf with
  | branch _ _ _ _ _ hbm hlen hcap hc17 hf hagree hwfs =>
    rw [entries_branch, visit_order_length]
    match tw, hlen, hwfs with
    | a :: b :: rest, _, hwfs =>
      have ha := (hwfs a (by simp)).entries_length_pos
      have hb := (hwfs b (by simp)).entries_length_pos
      simp only [List.map_cons, List.flatten_cons, List.length_append]
      omega

/-- A subtree that holds one entry is the leaf of that entry. -/
theorem wf_singleton_leaf {t : Node V} (hwf : t.WF) {e : Key × V} (he : t.entries = [e]) :
    t = .leaf e.1 e.2 := by
  cases t with
  | leaf k v =>
    rw [entries_leaf] at he
    simp only [List.cons.injEq, and_true] at he
    subst he
    rfl
  | branch tw h c i bm =>
    have := wf_branch_entries_length hwf
    rw [he] at this
    simp at this

theorem subtree_at_nil (r : Node V) : Node.subtree_at [] r = some r := by
  cases r <;> rfl

theorem subtree_at_cons_none {s : Nat} (p : List Nat) {tw : List (Node V)} (h : Bool)
    (c i bm : Nat) (ht : tw[s]? = none) :
    Node.subtree_at (s :: p) (.branch tw h c i bm) = none := by
  simp [Node.subtree_at, ht]

theorem subtree_at_cons_some {s : Nat} (p : List Nat) {tw : List (Node V)} (h : Bool)
    (c i bm : Nat) {x : Node V} (ht : tw[s]? = some x) :
    Node.subtree_at (s :: p) (.branch tw h c i bm) = Node.subtree_at p x := by
  simp [Node.subtree_at, ht]

theorem replace_at_nil (x r : Node V) : Node.replace_at x [] r = some x := by
  cases r <;> rfl

theorem replace_at_cons_some (x : Node V) {s : Nat} (p : List Nat) {tw : List (Node V)}
    (h : Bool) (c i bm : Nat) {y y' : Node V} (ht : tw[s]? = some y)
    (hy : Node.replace_at x p y = some y') :
    Node.replace_at x (s :: p) (.branch tw h c i bm)
      = some (.branch (tw.set s y') h c i bm) := by
  simp [Node.replace_at, ht, hy]

/-- The entries below a node of a tree are entries of the tree. -/
theorem mem_entries_of_subtree : ∀ (p : List Nat) (r y : Node V), Node.subtree_at p r = some y →
    ∀ e ∈ y.entries, e ∈ r.entries := by
  intro p
  induction p with
  | nil =>
    intro r y h e he
    rw [subtree_at_nil] at h
    cases h
    exact he
  | cons s p ih =>
    intro r y h e he
    cases r with
    | leaf k v => simp [Node.subtree_at] at h
    | branch tw hd c i bm =>
      cases ht : tw[s]? with
      | none => simp [subtree_at_cons_none p hd c i bm ht] at h
      | some x =>
        rw [subtree_at_cons_some p hd c i bm ht] at h
        exact mem_entries_branch.mpr ⟨x, List.mem_iff_getElem?.mpr ⟨s, ht⟩, ih x y h e he⟩

/-- The slot the walks step to is the slot of the twig that holds the key. -/
theorem walk_slot_eq {tw : List (Node V)} {h : Bool} {i bm : Nat} (c : Nat)
    (hf : List.Forall₂ (labelled i) (slots h bm) tw) (key : Key) {s0 s : Nat} {x : Node V}
    {v : V} (hx : tw[s]? = some x) (hk : (key, v) ∈ x.entries)
    (hcase : (nybble_at key i = NybbleHead ∧ h = true ∧ s0 = tw.length - 1) ∨
      (nybble_at key i ≠ NybbleHead ∧ bm.testBit (nybble_at key i) = true ∧
        Branch.twig_index ⟨tw, h, c, i, bm⟩ (nybble_at key i) = some s0)) :
    s0 = s := by
  obtain ⟨n, hn, hl⟩ := forall₂_getElem?_right hf hx
  have hnk : nybble_at key i = n := hl (key, v) hk
  rw [← hnk] at hn
  have hlen := hf.length_eq
  rw [slots_length] at hlen
  rcases hcase with ⟨h1, h2, h3⟩ | ⟨h1, h2, h3⟩
  · subst h2
    simp only [Bool.toNat_true] at hlen
    have := slots_head_index bm
    rw [← h1] at this
    have e := slots_index_inj true bm this hn
    omega
  · have hn16 : nybble_at key i < 16 := by
      rcases nybble_at_cases key i with h4 | h4
      · exact h4
      · exact absurd h4 h1
    rw [twig_index_eq _ _ hn16] at h3
    simp only [Option.some.injEq] at h3
    rw [← h3]
    exact slots_index_inj h bm (slots_bit_index h bm _ hn16 h2) hn

/-- The case of the end of `remove` that the walk has reached. -/
theorem fixup_case_of_walk {tw : List (Node V)} {h : Bool} {i bm : Nat} (c : Nat) (key : Key)
    {s : Nat}
    (hcase : (nybble_at key i = NybbleHead ∧ h = true ∧ s = tw.length - 1) ∨
      (nybble_at key i ≠ NybbleHead ∧ bm.testBit (nybble_at key i) = true ∧
        Branch.twig_index ⟨tw, h, c, i, bm⟩ (nybble_at key i) = some s)) :
    (decide (nybble_at key i = NybbleHead) = true ∧ h = true ∧ s = tw.length - 1) ∨
      (decide (nybble_at key i = NybbleHead) = false ∧ nybble_at key i < 16 ∧
        bm.testBit (nybble_at key i) = true ∧ s = (bits_below bm (nybble_at key i)).length) := by
  rcases hcase with ⟨h1, h2, h3⟩ | ⟨h1, h2, h3⟩
  · exact Or.inl ⟨by simp [h1], h2, h3⟩
  · have hn16 : nybble_at key i < 16 := by
      rcases nybble_at_cases key i with h4 | h4
      · exact h4
      · exact absurd h4 h1
    rw [twig_index_eq _ _ hn16] at h3
    simp only [Option.some.injEq] at h3
    exact Or.inr ⟨by simp [h1], hn16, h2, h3.symm⟩

/-- Fusion. The leaf of `key` is one of the two twigs of the branch at the end of
the path `p`: `remove` leaves the tree with that branch replaced by the other
twig, all else as it was. -/
theorem remove_walk_fuse (key : Key) (v : V) (sib : Node V) : ∀ (p : List Nat) (r : Node V),
    r.WF → ∀ (tw : List (Node V)) (h : Bool) (c i bm s : Nat),
    Node.subtree_at p r = some (.branch tw h c i bm) → tw.length = 2 →
    tw[s]? = some (.leaf key v) → tw[1 - s]? = some sib →
    ∃ r', Node.replace_at sib p r = some r' ∧ Node.remove_walk key r = some (some r') := by
  intro p
  induction p with
  | nil =>
    intro r hwf tw h c i bm s hsub hlen hs hsib
    rw [subtree_at_nil] at hsub
    cases hsub
    have hk : key ∈ (Node.branch tw h c i bm).entries.map Prod.fst :=
      mem_keys_iff.mpr ⟨v, mem_entries_branch.mpr
        ⟨_, List.mem_iff_getElem?.mpr ⟨s, hs⟩, by simp [entries_leaf]⟩⟩
    obtain ⟨t', ht', _, _⟩ := (remove_walk_spec hwf key rfl).2 hk
    obtain ⟨s0, x, hx, hcase, hres⟩ := remove_walk_inv key t' ht'
    cases hwf with
    | branch _ _ _ _ _ hbm _ _ _ hf _ _ =>
      have hs0 : s0 = s := walk_slot_eq c hf key hs
        (show (key, v) ∈ (Node.leaf key v).entries by simp [entries_leaf]) hcase
      subst hs0
      rw [hs] at hx
      cases hx
      rcases hres with ⟨hb, _⟩ | ⟨v', hv', hfx⟩
      · simp [Node.is_branch] at hb
      · refine ⟨sib, replace_at_nil _ _, ?_⟩
        rw [ht']
        match tw, hlen, hf, hs, hsib, hfx, hcase with
        | [a, b], _, hf, hs, hsib, hfx, hcase =>
          have hc := fixup_case_of_walk c key hcase
          simp only [List.length_cons, List.length_nil] at hc
          obtain ⟨_, h2⟩ := remove_fixup_two (c := c) hbm hf _ _ s0 hc
          rw [h2, hsib] at hfx
          rw [hfx]
  | cons s' p ih =>
    intro r hwf tw h c i bm s hsub hlen hs hsib
    cases r with
    | leaf k0 v0 => simp [Node.subtree_at] at hsub
    | branch tw0 h0 c0 i0 bm0 =>
      cases hy : tw0[s']? with
      | none => simp [subtree_at_cons_none p h0 c0 i0 bm0 hy] at hsub
      | some y =>
        rw [subtree_at_cons_some p h0 c0 i0 bm0 hy] at hsub
        have hym : y ∈ tw0 := List.mem_iff_getElem?.mpr ⟨s', hy⟩
        have hkv : (key, v) ∈ (Node.branch tw h c i bm).entries :=
          mem_entries_branch.mpr
            ⟨_, List.mem_iff_getElem?.mpr ⟨s, hs⟩, by simp [entries_leaf]⟩
        have hky : (key, v) ∈ y.entries := mem_entries_of_subtree p y _ hsub _ hkv
        have hk : key ∈ (Node.branch tw0 h0 c0 i0 bm0).entries.map Prod.fst :=
          mem_keys_iff.mpr ⟨v, mem_entries_branch.mpr ⟨y, hym, hky⟩⟩
        obtain ⟨t', ht', _, _⟩ := (remove_walk_spec hwf key rfl).2 hk
        obtain ⟨s0, x, hx, hcase, hres⟩ := remove_walk_inv key t' ht'
        cases hwf with
        | branch _ _ _ _ _ hbm _ _ _ hf _ hwfs =>
          have hs0 : s0 = s' := walk_slot_eq c0 hf key hy hky hcase
          subst hs0
          rw [hy] at hx
          cases hx
          obtain ⟨y', hy1, hy2⟩ := ih y (hwfs y hym) tw h c i bm s hsub hlen hs hsib
          rcases hres with ⟨_, x', hx1, hx2⟩ | ⟨v', hv', _⟩
          · rw [hy2] at hx1
            cases hx1
            refine ⟨t', ?_, ht'⟩
            rw [replace_at_cons_some sib p h0 c0 i0 bm0 hy hy1, hx2]
          · subst hv'
            simp [Node.remove_walk] at hy2

theorem sublist_flatten {α : Type} {l1 l2 : List (List α)} (h : l1.Sublist l2) :
    l1.flatten.Sublist l2.flatten := by
  induction h with
  | slnil => simp
  | cons a _ ih =>
    rw [List.flatten_cons]
    exact ih.trans (List.sublist_append_right _ _)
  | cons₂ a _ ih =>
    rw [List.flatten_cons, List.flatten_cons]
    exact List.Sublist.append (List.Sublist.refl _) ih

/-- The branches after a removal are branches that were there before, each with
the index and the capacity it had, in the order they were in. -/
theorem remove_walk_survivors {r : Node V} (hwf : r.WF) (key : Key) :
    ∀ r', Node.remove_walk key r = some (some r') →
      (r'.branches.map (fun b => (b.index, b.capacity))).Sublist
        (r.branches.map (fun b => (b.index, b.capacity))) := by
  induction hwf with
  | leaf k v =>
    intro r' h
    simp [Node.remove_walk] at h
  | branch tw h c i bm hbm hlen hcap hc17 hf hagree hwfs ih =>
    intro r' hw
    obtain ⟨s, x, hx, hcase, hres⟩ := remove_walk_inv key r' hw
    have hxm : x ∈ tw := List.mem_iff_getElem?.mpr ⟨s, hx⟩
    have hslt : s < tw.length := (List.getElem?_eq_some.mp hx).1
    rcases hres with ⟨_, x', hx1, hx2⟩ | ⟨v', hv', hfx⟩
    · subst hx2
      have hsub := ih x hxm x' hx1
      rw [branches_branch, branches_branch, List.map_cons, List.map_cons]
      apply List.Sublist.cons₂
      have e1 : tw = tw.take s ++ x :: tw.drop (s + 1) := by
        conv_lhs => rw [← List.take_append_drop s tw, List.drop_eq_getElem_cons hslt]
        rw [List.getElem?_eq_getElem hslt] at hx
        cases hx
        rfl
      have e2 : tw.set s x' = tw.take s ++ x' :: tw.drop (s + 1) :=
        List.set_eq_take_append_cons_drop.trans (by rw [if_pos hslt])
      rw [e2]
      conv_rhs => rw [e1]
      simp only [List.map_append, List.map_cons, List.flatten_append, List.flatten_cons]
      exact List.Sublist.append (List.Sublist.refl _)
        (List.Sublist.append hsub (List.Sublist.refl _))
    · have hc := fixup_case_of_walk c key hcase
      rw [branches_branch, List.map_cons]
      by_cases hgt : 2 < tw.length
      · obtain ⟨h', bm', e⟩ := remove_fixup_many (c := c) hbm hf _ _ s hc hgt
        rw [e] at hfx
        cases hfx
        rw [branches_branch, List.map_cons]
        apply List.Sublist.cons₂
        apply List.Sublist.map
        apply sublist_flatten
        apply List.Sublist.map
        exact List.eraseIdx_sublist tw s
      · match tw, hlen, hgt, hf, hc, hfx with
        | [a, b], _, _, hf, hc, hfx =>
          simp only [List.length_cons, List.length_nil] at hc
          obtain ⟨hs2, e⟩ := remove_fixup_two (c := c) hbm hf _ _ s hc
          rw [e] at hfx
          have hm : r' ∈ [a, b] := List.mem_iff_getElem?.mpr ⟨_, hfx⟩
          apply List.Sublist.cons
          apply List.Sublist.map
          apply List.sublist_flatten_of_mem
          exact List.mem_map.mpr ⟨r', hm, rfl⟩
        | _ :: _ :: _ :: _, _, hgt, _, _, _ =>
          simp only [List.length_cons] at hgt
          omega

end jzt

/-!
## The branches the second walk of `emplace` stands at
-/

namespace jzt

variable {V : Type}

theorem emplace_visited_at_eq (key : Key) (m : Nat) (tw : List (Node V)) (idx : Nat) :
    Node.emplace_visited_at key m tw idx =
      match tw[idx]? with
      | none => []
      | some t => Node.emplace_visited key m t := by
  induction tw generalizing idx with
  | nil => simp [Node.emplace_visited_at]
  | cons t ts ih =>
    cases idx with
    | zero => simp only [Node.emplace_visited_at, List.getElem?_cons_zero]
    | succ idx => simp only [Node.emplace_visited_at, List.getElem?_cons_succ, ih]

/-- The second walk of `emplace` from a subtree that holds `sk`, a key that agrees
with the new key before the mismatch index `m` and differs from it at `m`, while
no key of the subtree agrees with the new key up to `m`: at a branch whose index
is below `m` the nybble of the new key is a real one and has a twig, and a
branch whose index is `m` has no twig for the nybble of the new key at `m`. -/
theorem emplace_visited_spec (key : Key) (m : Nat) (sk : Key)
    (hska : ∀ j < m, nybble_at sk j = nybble_at key j)
    (hdiff : nybble_at sk m ≠ nybble_at key m) {t : Node V} (hwf : t.WF) :
    (∃ sv, (sk, sv) ∈ t.entries) →
    (∀ e ∈ t.entries, ¬ ∀ j ≤ m, nybble_at e.1 j = nybble_at key j) →
    ∀ b ∈ t.emplace_visited key m,
      (b.nybble_index < m →
        b.twig_nybble key ≠ NybbleHead ∧ b.has_twig (b.twig_nybble key) = some true ∧
          ∃ idx x, b.twig_index (b.twig_nybble key) = some idx ∧ b.twig idx = some x) ∧
      (b.nybble_index = m →
        (b.twig_nybble key = NybbleHead → b.has_head = false) ∧
        (b.twig_nybble key ≠ NybbleHead → b.has_twig (b.twig_nybble key) = some false)) := by
  induction hwf with
  | leaf k0 v0 =>
    intro _ _ b hb
    simp [Node.emplace_visited] at hb
  | branch tw h c i bm hbm hlen hcap hc17 hf hagree hwfs ih =>
    rintro ⟨sv, hsk⟩ hbest b hb
    have hwfb : (Node.branch tw h c i bm).WF :=
      Node.WF.branch tw h c i bm hbm hlen hcap hc17 hf hagree hwfs
    -- below `m`: the nybble of the key is the nybble of `sk`, a real one with a twig
    have hbelow : i < m → nybble_at key i ≠ NybbleHead ∧ nybble_at key i < 16 ∧
        bm.testBit (nybble_at key i) = true ∧
        ∃ x, tw[(bits_below bm (nybble_at key i)).length]? = some x ∧ (sk, sv) ∈ x.entries := by
      intro him
      have hn : nybble_at sk i = nybble_at key i := hska i him
      have hne : nybble_at key i ≠ NybbleHead := by
        intro hend
        apply hdiff
        rw [nybble_at_head_mono key i m (by omega) hend,
          nybble_at_head_mono sk i m (by omega) (hn.trans hend)]
      have hne' : nybble_at (sk, sv).1 i ≠ NybbleHead := by
        simp only
        rw [hn]
        exact hne
      obtain ⟨h1, h2, x, h3, h4⟩ := child_of_entry_bit hf hsk hne'
      simp only at h1 h2 h3
      rw [hn] at h1 h2 h3
      exact ⟨hne, h1, h2, x, h3, h4⟩
    -- at `m`: a twig for the nybble of the key would hold a better match
    have hat : i = m → ∀ x, x ∈ tw → labelled i (nybble_at key i) x → False := by
      intro him x hx hl
      obtain ⟨e, he⟩ := (hwfs x hx).exists_entry
      have hem : e ∈ (Node.branch tw h c i bm).entries := mem_entries_branch.mpr ⟨x, hx, he⟩
      apply hbest e hem
      intro j hj
      by_cases hjm : j = m
      · rw [hjm, ← him]
        exact hl e he
      · have hji : j < i := by omega
        rw [agree_le_of_lt hagree hem hsk hji]
        exact hska j (by omega)
    have hthis : (i < m →
          nybble_at key i ≠ NybbleHead ∧
            Branch.has_twig ⟨tw, h, c, i, bm⟩ (nybble_at key i) = some true ∧
            ∃ idx x, Branch.twig_index ⟨tw, h, c, i, bm⟩ (nybble_at key i) = some idx ∧
              Branch.twig ⟨tw, h, c, i, bm⟩ idx = some x) ∧
        (i = m →
          (nybble_at key i = NybbleHead → h = false) ∧
          (nybble_at key i ≠ NybbleHead →
            Branch.has_twig ⟨tw, h, c, i, bm⟩ (nybble_at key i) = some false)) := by
      constructor
      · intro him
        obtain ⟨h1, h2, h3, x, h4, _⟩ := hbelow him
        refine ⟨h1, ?_, _, x, twig_index_eq _ _ h2, ?_⟩
        · rw [has_twig_eq _ _ h1]
          simp only [h3]
        · simp only [Branch.twig, List.get?_eq_getElem?]
          exact h4
      · intro him
        constructor
        · intro hn
          cases h with
          | false => rfl
          | true =>
            exfalso
            obtain ⟨x, hx, hl⟩ := twig_of_head hf
            rw [← hn] at hl
            exact hat him x (List.mem_iff_getElem?.mpr ⟨_, hx⟩) hl
        · intro hn
          rw [has_twig_eq _ _ hn]
          cases hb : bm.testBit (nybble_at key i) with
          | false => rfl
          | true =>
            exfalso
            have hn16 : nybble_at key i < 16 := by
              rcases nybble_at_cases key i with h1 | h1
              · exact h1
              · exact absurd h1 hn
            obtain ⟨x, hx, hl⟩ := twig_of_bit hf hn16 hb
            exact hat him x (List.mem_iff_getElem?.mpr ⟨_, hx⟩) hl
    simp only [Node.emplace_visited, Branch.nybble_index, Branch.twig_nybble] at hb
    by_cases him : i < m
    · rw [if_pos him] at hb
      obtain ⟨h1, h2, h3, x, h4, h5⟩ := hbelow him
      rw [twig_index_eq _ _ h2] at hb
      simp only [List.mem_cons] at hb
      rcases hb with hb | hb
      · subst hb
        exact hthis
      · rw [emplace_visited_at_eq, h4] at hb
        have hxm : x ∈ tw := List.mem_iff_getElem?.mpr ⟨_, h4⟩
        exact ih x hxm ⟨sv, h5⟩
          (fun e he => hbest e (mem_entries_branch.mpr ⟨x, hxm, he⟩)) b hb
    · rw [if_neg him] at hb
      simp only [List.mem_singleton] at hb
      subst hb
      exact hthis

/-- The second walk of `emplace` for a key that the subtree does not hold, with
the similar key and the mismatch index the first walk finds. -/
theorem emplace_rewalk {r : Node V} (hwf : r.WF) (k : Key)
    (hk : k ∉ r.entries.map Prod.fst) :
    ∃ sk sv m, r.find_similar k = some (.leaf sk sv) ∧ find_mismatch sk k = some m ∧
      ∀ b ∈ r.emplace_visited k m,
        (b.nybble_index < m →
          b.twig_nybble k ≠ NybbleHead ∧ b.has_twig (b.twig_nybble k) = some true ∧
            ∃ idx x, b.twig_index (b.twig_nybble k) = some idx ∧ b.twig idx = some x) ∧
        (b.nybble_index = m →
          (b.twig_nybble k = NybbleHead → b.has_head = false) ∧
          (b.twig_nybble k ≠ NybbleHead → b.has_twig (b.twig_nybble k) = some false)) := by
  obtain ⟨sk, sv, h1, h2, h3⟩ := find_similar_spec hwf k
  have hne : sk ≠ k := by
    intro e
    subst e
    exact hk (List.mem_map.mpr ⟨(sk, sv), h2, rfl⟩)
  cases hm : find_mismatch sk k with
  | none => exact absurd ((find_mismatch_eq_none sk k).mp hm) hne
  | some m =>
    obtain ⟨h4, h5, _⟩ := find_mismatch_eq_some sk k m hm
    refine ⟨sk, sv, m, h1, hm, ?_⟩
    apply emplace_visited_spec k m sk h4 h5 hwf ⟨sv, h2⟩
    intro e he hall
    exact h5 (h3 e he m hall m (le_refl m))

end jzt

/-!
## Sequences of calls, the demonstration container, and further lemmas
-/

namespace jzt

variable {V : Type}

theorem demo_reachable : Reachable demo_trie :=
  emplace_all_reachable demo_entries Trie.empty demo_trie Reachable.empty (by decide) rfl

/-- An entry stays in the container while calls are made with other keys. -/
theorem run_keeps_entry (k : Key) (v : V) : ∀ (ops : List (Op V)) (t : Trie V), t.WF →
    (k, v) ∈ t.entries → (∀ op ∈ ops, op.key ≠ k ∧ op.admissible) →
    ∃ t', t.run ops = some t' ∧ t'.WF ∧ (k, v) ∈ t'.entries := by
  intro ops
  induction ops with
  | nil =>
    intro t hwf hk _
    exact ⟨t, rfl, hwf, hk⟩
  | cons op ops ih =>
    intro t hwf hk hops
    obtain ⟨hne, hadm⟩ := hops op (by simp)
    have hstep : ∃ t1, t.apply op = some t1 ∧ t1.WF ∧ (k, v) ∈ t1.entries := by
      cases op with
      | emplace k' v' =>
        by_cases hin : k' ∈ t.keys
        · refine ⟨t, ?_, hwf, hk⟩
          simp [Trie.apply, trie_emplace_present hwf k' v' hin]
        · obtain ⟨t1, h1, h2, h3⟩ := trie_emplace_absent hwf k' v' hadm hin
          refine ⟨t1, ?_, h2, (h3 _).mpr (Or.inr hk)⟩
          simp [Trie.apply, h1]
      | remove k' =>
        by_cases hin : k' ∈ t.keys
        · obtain ⟨t1, h1, h2, h3⟩ := trie_remove_present hwf k' hin
          refine ⟨t1, ?_, h2, (h3 _).mpr ⟨hk, fun h => hne h.symm⟩⟩
          simp [Trie.apply, h1]
        · refine ⟨t, ?_, hwf, hk⟩
          simp [Trie.apply, trie_remove_absent hwf k' hin]
    obtain ⟨t1, e1, e2, e3⟩ := hstep
    obtain ⟨t', f1, f2, f3⟩ := ih t1 e2 e3 (fun op' h => hops op' (List.mem_cons_of_mem _ h))
    exact ⟨t', by simp [Trie.run, e1, f1], f2, f3⟩

/-- The capacity after `twig_emplace_at`: that of the new array when the old one
was full, else the old one. -/
theorem twig_emplace_at_capacity (b b' : Branch V) (idx : Nat) (x : Node V)
    (h : b.twig_emplace_at idx x = some b') :
    b'.capacity = if b.size + 1 > b.capacity then min (b.capacity * 3 / 2) 17
      else b.capacity := by
  unfold Branch.twig_emplace_at at h
  by_cases h0 : b.size < 17 ∧ idx ≤ b.size
  · rw [if_pos h0] at h
    by_cases hfull : b.size + 1 > b.capacity
    · rw [if_pos hfull] at h ⊢
      unfold Branch.twig_expand_emplace_at at h
      by_cases hc : b.capacity ≤ 17
      · rw [if_pos hc] at h
        cases h1 : Branch.relocate b.twigs 0 idx with
        | none => simp [h1] at h
        | some before =>
          cases h2 : Branch.relocate b.twigs idx (b.size - idx) with
          | none => simp [h1, h2] at h
          | some after =>
            simp only [h1, h2, Option.bind_eq_bind, Option.some_bind] at h
            by_cases hfit : (before ++ x :: after).length ≤ min (b.capacity * 3 / 2) 17
            · rw [if_pos hfit] at h
              cases h
              rfl
            · rw [if_neg hfit] at h
              cases h
      · rw [if_neg hc] at h
        cases h
    · rw [if_neg hfull] at h ⊢
      by_cases hlt : idx < b.size
      · rw [if_pos hlt] at h
        simp only [List.get?_eq_getElem?] at h
        cases h1 : b.twigs[b.size - 1]? with
        | none => simp [h1] at h
        | some last =>
          cases h2 : Branch.shift_up idx (b.size - 1 - idx) (b.twigs ++ [last]) with
          | none => simp [h1, h2] at h
          | some tw =>
            simp only [h1, h2, Option.bind_eq_bind, Option.some_bind, Option.some.injEq] at h
            rw [← h]
      · rw [if_neg hlt] at h
        cases h
        rfl
  · rw [if_neg h0] at h
    cases h

/-- The branches after `remove` are branches that were there before, each with
the index and the capacity it had, in the order they were in. -/
theorem trie_remove_survivors {t : Trie V} (hwf : t.WF) (k : Key) (ok : Bool) (t' : Trie V)
    (h : t.remove k = some (ok, t')) :
    (t'.branches.map (fun b => (b.index, b.capacity))).Sublist
      (t.branches.map (fun b => (b.index, b.capacity))) := by
  cases t with
  | mk root =>
    cases root with
    | none =>
      simp only [Trie.remove, Option.some.injEq, Prod.mk.injEq] at h
      rw [← h.2]
    | some r =>
      cases r with
      | leaf k0 v0 =>
        by_cases hk : k0 = k
        · simp [Trie.remove, Node.remove, hk] at h
          rw [← h.2]
          simp [Trie.branches]
        · simp [Trie.remove, Node.remove, hk] at h
          rw [← h.2]
      | branch tw hd c i bm =>
        simp only [Trie.remove, Node.remove] at h
        cases hw : Node.remove_walk k (Node.branch tw hd c i bm) with
        | none => simp [hw] at h
        | some o =>
          cases o with
          | none =>
            simp [hw] at h
            rw [← h.2]
          | some r' =>
            simp [hw] at h
            rw [← h.2]
            exact remove_walk_survivors hwf k r' hw

theorem subtree_at_replace_at (x : Node V) : ∀ (p : List Nat) (r r' : Node V),
    Node.replace_at x p r = some r' → Node.subtree_at p r' = some x := by
  intro p
  induction p with
  | nil =>
    intro r r' h
    rw [replace_at_nil] at h
    cases h
    exact subtree_at_nil _
  | cons s p ih =>
    intro r r' h
    cases r with
    | leaf k v => simp [Node.replace_at] at h
    | branch tw hd c i bm =>
      cases ht : tw[s]? with
      | none => simp [Node.replace_at, ht] at h
      | some y =>
        cases hy : Node.replace_at x p y with
        | none => simp [Node.replace_at, ht, hy] at h
        | some y' =>
          rw [replace_at_cons_some x p hd c i bm ht hy] at h
          cases h
          have hs : s < tw.length := (List.getElem?_eq_some.mp ht).1
          have : (tw.set s y')[s]? = some y' := by
            rw [List.getElem?_set_self hs]
          rw [subtree_at_cons_some p hd c i bm this]
          exact ih y y' hy

theorem eq_singleton_of_nodup {α : Type} {l : List α} {a : α} (hnd : l.Nodup)
    (h : ∀ e, e ∈ l ↔ e = a) : l = [a] := by
  match l, hnd, h with
  | [], _, h => exact absurd ((h a).mpr rfl) (List.not_mem_nil a)
  | [x], _, h =>
    have := (h x).mp (by simp)
    rw [this]
  | x :: y :: rest, hnd, h =>
    have hx := (h x).mp (by simp)
    have hy := (h y).mp (by simp)
    rw [List.nodup_cons] at hnd
    exact absurd (by rw [hx, hy]; simp) hnd.1

/-- A container that holds two entries: `remove` of the key of one leaves a root
that is the leaf of the other. -/
theorem trie_remove_of_two {t : Trie V} (hwf : t.WF) {e1 e2 : Key × V}
    (he : ∀ e, e ∈ t.entries ↔ e = e1 ∨ e = e2) (hne : e1.1 ≠ e2.1) :
    t.remove e1.1 = some (true, ⟨some (.leaf e2.1 e2.2)⟩) := by
  have hk : e1.1 ∈ t.keys := trie_mem_keys.mpr ⟨e1.2, (he e1).mpr (Or.inl rfl)⟩
  obtain ⟨t', h1, h2, h3⟩ := trie_remove_present hwf e1.1 hk
  have hent : t'.entries = [e2] := by
    apply eq_singleton_of_nodup ((trie_keys_nodup h2).of_map _)
    intro e
    rw [h3 e, he e]
    constructor
    · rintro ⟨h4 | h4, h5⟩
      · subst h4
        exact absurd rfl h5
      · exact h4
    · intro h4
      subst h4
      exact ⟨Or.inr rfl, fun h => hne h.symm⟩
  rw [h1]
  cases t' with
  | mk root =>
    cases root with
    | none => simp [Trie.entries] at hent
    | some r' =>
      have : r' = .leaf e2.1 e2.2 := wf_singleton_leaf h2 hent
      rw [this]

/-- A leaf bursts at a mismatch index that is a multiple of `2 ^ 37`: the new
branch stores the index 0, files the old key under its nybble at index 0 and
the new key under its nybble at the mismatch index, and the new key is not
found afterwards. -/
theorem emplace_wrapped (a b : Key) (m : Nat) (hm : find_mismatch a b = some m)
    (hwrap : m % 2 ^ index_bits = 0) (hb : nybble_at b m = 1) (ha0 : nybble_at a 0 = 0)
    (hb0 : nybble_at b 0 = 0) :
    Trie.emplace (⟨some (.leaf a ())⟩ : Trie Unit) b ()
      = some ((), ⟨some (.branch [.leaf a (), .leaf b ()] false 2 0 3)⟩) ∧
    Trie.contains (⟨some (.branch [.leaf a (), .leaf b ()] false 2 0 3)⟩ : Trie Unit) b
      = some false := by
  have hne : a ≠ b := by
    intro h
    rw [(find_mismatch_eq_none a b).mpr h] at hm
    cases hm
  constructor
  · simp [Trie.emplace, Node.emplace, hm, Node.leaf_burst, Branch.new, hb, hwrap, NybbleHead,
      Branch.twig_insert_leaf, Branch.twig_nybble, ha0, Branch.twig_insert, Branch.has_twig,
      Branch.twig_index, Branch.twig_emplace_at, Branch.size, Branch.shift_up, Node.ofBranch,
      bitmap_bits, popcount]
  · simp [Trie.contains, Node.contains, Node.find_similar, Branch.twig_nybble, hb0, NybbleHead,
      Branch.has_twig, Branch.twig_index, Node.find_similar_at, Node.get_leaf, hne, popcount]

theorem new_index_mod (m : Nat) (key : Key) (val : V) :
    (Branch.new m key val).nybble_index = m % 2 ^ index_bits := rfl

/-- A key of `2 ^ 36` bytes that starts with a zero byte, and the key of these
bytes and a byte 1 after them: both sizes are at most `max_key_size()`, the
mismatch index is `2 ^ 37`, the branch constructed at it stores the index 0, and
the longer key is not found after its `emplace` into the container that holds
the shorter one. -/
theorem wrap_at_half_max (a : Key) (hlen : a.length = 2 ^ 36) (h0 : a.get? 0 = some 0) :
    a.length ≤ Trie.max_key_size ∧
    (a ++ [1]).length ≤ Trie.max_key_size ∧
    find_mismatch a (a ++ [1]) = some (2 ^ 37) ∧
    (Branch.new (2 ^ 37) (a ++ [1]) ()).nybble_index = 0 ∧
    Trie.emplace (⟨some (.leaf a ())⟩ : Trie Unit) (a ++ [1]) ()
      = some ((), ⟨some (.branch [.leaf a (), .leaf (a ++ [1]) ()] false 2 0 3)⟩) ∧
    Trie.contains (⟨some (.branch [.leaf a (), .leaf (a ++ [1]) ()] false 2 0 3)⟩ : Trie Unit)
        (a ++ [1]) = some false := by
  have hmax : Trie.max_key_size = 2 ^ 37 := by
    unfold Trie.max_key_size
    rw [Nat.one_shiftLeft]
  have hm : find_mismatch a (a ++ [1]) = some (2 ^ 37) := by
    rw [find_mismatch_strict_start _ _ (List.cons_ne_nil _ _), hlen]
    rfl
  have hb : nybble_at (a ++ [1]) (2 ^ 37) = 1 := by
    have h1 : (a ++ [1]).get? (2 ^ 36) = some 1 := by
      rw [List.get?_eq_getElem?, List.getElem?_append_right (by rw [hlen]), hlen, Nat.sub_self]
      rfl
    have h2 := nybble_at_even _ (2 ^ 36) 1 h1
    have e : 2 * 2 ^ 36 = 2 ^ 37 := by norm_num
    rw [e] at h2
    rw [h2]
    rfl
  have ha0 : nybble_at a 0 = 0 := by
    have h2 := nybble_at_even _ 0 0 h0
    rw [Nat.mul_zero] at h2
    rw [h2]
    rfl
  have hb0 : nybble_at (a ++ [1]) 0 = 0 := by
    rw [nybble_at_append_left _ _ _ (by rw [hlen]; norm_num)]
    exact ha0
  have hw : 2 ^ 37 % 2 ^ index_bits = 0 := by
    unfold index_bits
    norm_num
  obtain ⟨e1, e2⟩ := emplace_wrapped _ _ (2 ^ 37) hm hw hb ha0 hb0
  refine ⟨?_, ?_, hm, (new_index_mod _ _ _).trans hw, e1, e2⟩
  · rw [hlen, hmax]
    norm_num
  · rw [List.length_append, hlen, hmax]
    norm_num

/-- Below half of `max_key_size()`: for two distinct keys of at most `2 ^ 36`
bytes the branch constructed at their mismatch index stores that index. -/
theorem index_kept_below_half (a b : Key) (v : V) (hne : a ≠ b) (ha : a.length ≤ 2 ^ 36)
    (hb : b.length ≤ 2 ^ 36) :
    ∃ m, find_mismatch a b = some m ∧ (Branch.new m b v).nybble_index = m := by
  cases hm : find_mismatch a b with
  | none => exact absurd ((find_mismatch_eq_none a b).mp hm) hne
  | some m =>
    refine ⟨m, rfl, ?_⟩
    obtain ⟨_, h2, h3⟩ := find_mismatch_eq_some a b m hm
    have hlt : m < 2 ^ index_bits := by
      unfold index_bits
      by_contra hge
      have h4 : a.length ≤ m / 2 := by omega
      have h5 : b.length ≤ m / 2 := by omega
      apply h2
      rw [(nybble_at_eq_head_iff a m).mpr h4, (nybble_at_eq_head_iff b m).mpr h5]
    exact new_index m b v hlt

end jzt

/-!
## The claims C11 to C15
-/

namespace jzt

variable {V : Type}

/-- C11 (the traversal order is not the byte-lexicographic one). The key of the
one byte 0x12 is smaller than the key of the one byte 0x21 in the byte-wise
lexicographic comparison, and the container that holds the two, built by
`emplace` from the empty one, visits the key 0x21 first and the key 0x12 second
in a traversal from `begin()`: the low four bits of a byte are compared before
its high four bits. -/
theorem traversal_not_byte_lexicographic :
    ∃ (a b : Key) (t : Trie Unit) (it : Iterator Unit),
      byte_lex_lt a b = true ∧ Reachable t ∧
      Trie.emplace_all Trie.empty [(a, ()), (b, ())] = some t ∧
      t.contains a = some true ∧ t.contains b = some true ∧
      t.begin = some it ∧ it.yields [(b, ()), (a, ())] := by
  have hr : Reachable
      (⟨some (.branch [.leaf [33] (), .leaf [18] ()] false 2 0 6)⟩ : Trie Unit) :=
    emplace_all_reachable [([18], ()), ([33], ())] Trie.empty _ Reachable.empty
      (by decide) rfl
  obtain ⟨it, h1, h2⟩ := trie_begin_spec (reachable_wf hr)
  exact ⟨[18], [33], _, it, by decide, hr, rfl, rfl, rfl, h1, h2⟩

/-- Scenario 3 of the specification: after `("123", 4)` and `("1232", 4)` are
emplaced, `find("123")` points to the entry `("123", 4)` and `find("1233")` is
`end()`. -/
theorem scenario_map_lookup :
    (Trie.emplace_all (Trie.empty : Trie Nat) [([49, 50, 51], 4), ([49, 50, 51, 50], 4)]).bind
        (fun t => (t.find [49, 50, 51]).map (fun it => (it.at_end, it.deref)))
      = some (false, some ([49, 50, 51], 4)) ∧
    (Trie.emplace_all (Trie.empty : Trie Nat) [([49, 50, 51], 4), ([49, 50, 51, 50], 4)]).bind
        (fun t => t.find [49, 50, 51, 51]) = some Iterator.iterator_end :=
  ⟨rfl, rfl⟩

/-- C12 (value retrieval in map mode). In every container that `emplace` and
`remove` build and for every addressable key `k` that it does not hold, after
`emplace(k, v)` and after any calls of `emplace` and `remove` with other keys
that follow, none at all included, all these calls are free of failures and
`find(k)` is an iterator that differs from `end()` and dereferences to the pair
`(k, v)`. -/
theorem find_after_emplace (t : Trie V) (hr : Reachable t) (k : Key) (v : V)
    (ha : addressable k) (hk : k ∉ t.keys) (ops : List (Op V))
    (hops : ∀ op ∈ ops, op.key ≠ k ∧ op.admissible) :
    ∃ t1 t2 it, t.emplace k v = some ((), t1) ∧ t1.run ops = some t2 ∧
      t2.find k = some it ∧ it.at_end = false ∧ it.deref = some (k, v) := by
  obtain ⟨t1, h1, h2, h3⟩ := trie_emplace_absent (reachable_wf hr) k v ha hk
  obtain ⟨t2, e1, e2, e3⟩ := run_keeps_entry k v ops t1 h2 ((h3 _).mpr (Or.inl rfl)) hops
  obtain ⟨f1, f2, f3⟩ := trie_find_present e2 e3
  exact ⟨t1, t2, _, h1, e1, f1, f2, f3⟩

theorem find_after_emplace_witness :
    (Reachable (Trie.empty : Trie Nat) ∧ addressable [49, 50, 51] ∧
      [49, 50, 51] ∉ (Trie.empty : Trie Nat).keys ∧
      ∀ op ∈ [Op.emplace [49, 50, 51, 50] 4, Op.remove [49, 50, 51, 51]],
        op.key ≠ [49, 50, 51] ∧ op.admissible) ∧
    ∃ t1 t2 it, (Trie.empty : Trie Nat).emplace [49, 50, 51] 4 = some ((), t1) ∧
      t1.run [Op.emplace [49, 50, 51, 50] 4, Op.remove [49, 50, 51, 51]] = some t2 ∧
      t2.find [49, 50, 51] = some it ∧ it.at_end = false ∧
      it.deref = some ([49, 50, 51], 4) :=
  ⟨⟨Reachable.empty, by decide, by decide, by
      intro op hop
      simp only [List.mem_cons, List.mem_singleton, List.not_mem_nil, or_false] at hop
      rcases hop with h | h <;> subst h
      · exact ⟨by decide, by decide⟩
      · exact ⟨by decide, by decide⟩⟩,
    find_after_emplace Trie.empty Reachable.empty [49, 50, 51] 4 (by decide) (by decide)
      [Op.emplace [49, 50, 51, 50] 4, Op.remove [49, 50, 51, 51]] (by
        intro op hop
        simp only [List.mem_cons, List.mem_singleton, List.not_mem_nil, or_false] at hop
        rcases hop with h | h <;> subst h
        · exact ⟨by decide, by decide⟩
        · exact ⟨by decide, by decide⟩)⟩

/-- C13 (structural invariant). In every container that `emplace` and `remove`
build, every branch passes the assertion of `twig_count`, which returns its
`size`: `size` is the number of set bits of the bitmap plus one when the branch
has a head, and it is at least two. -/
theorem branch_count_invariant (t : Trie V) (hr : Reachable t) :
    ∀ b ∈ t.branches, b.twig_count = some b.size ∧
      b.size = popcount b.bitmap + (if b.head then 1 else 0) ∧ 2 ≤ b.size := by
  intro b hb
  have hwf := trie_wf_of_mem_branches (reachable_wf hr) b hb
  cases b with
  | mk tw h c i bm =>
    cases hwf with
    | branch _ _ _ _ _ hbm hlen hcap hc17 hf hagree hwfs =>
      have hl := hf.length_eq
      rw [slots_length, ← popcount_eq_length_bits bm hbm] at hl
      refine ⟨twig_count_eq hbm hf, ?_, hlen⟩
      simp only [Branch.size]
      cases h <;> simp at hl ⊢ <;> omega

theorem branch_count_invariant_witness :
    Reachable demo_trie ∧ demo_trie.branches.length = 3 ∧
    ∀ b ∈ demo_trie.branches, b.twig_count = some b.size ∧
      b.size = popcount b.bitmap + (if b.head then 1 else 0) ∧ 2 ≤ b.size :=
  ⟨demo_reachable, rfl, branch_count_invariant demo_trie demo_reachable⟩

/-- C14 (fusion). In every container that `emplace` and `remove` build: when the
leaf of a stored key `k` is one of the two twigs of a branch, which the path `p`
of slot numbers leads to from the root, `remove(k)` returns `true` and leaves the
tree in which the twig `sib` that was beside the leaf stands where that branch
stood, at the end of the same path, all else as it was; the entries are those
held before but the one of `k`, each key once. And in a container that holds
two entries, `remove` of the key of one leaves a root that is the leaf of the
other. -/
theorem fusion_correct (t : Trie V) (hr : Reachable t) :
    (∀ (r : Node V) (p : List Nat) (tw : List (Node V)) (h : Bool) (c i bm s : Nat) (k : Key)
        (v : V) (sib : Node V),
      t.root = some r → Node.subtree_at p r = some (.branch tw h c i bm) → tw.length = 2 →
      tw.get? s = some (.leaf k v) → tw.get? (1 - s) = some sib →
      ∃ r', Node.replace_at sib p r = some r' ∧ t.remove k = some (true, ⟨some r'⟩) ∧
        Node.subtree_at p r' = some sib ∧
        (∀ e, e ∈ r'.entries ↔ e ∈ r.entries ∧ e.1 ≠ k) ∧ (r'.entries.map Prod.fst).Nodup) ∧
    (∀ e1 e2 : Key × V, t.entries = [e1, e2] →
      t.remove e1.1 = some (true, ⟨some (.leaf e2.1 e2.2)⟩) ∧
      t.remove e2.1 = some (true, ⟨some (.leaf e1.1 e1.2)⟩)) := by
  have hwf := reachable_wf hr
  constructor
  · intro r p tw h c i bm s k v sib hroot hsub hlen hs hsib
    cases t with
    | mk root =>
      simp only at hroot
      subst hroot
      simp only [List.get?_eq_getElem?] at hs hsib
      obtain ⟨r', h1, h2⟩ := remove_walk_fuse k v sib p r hwf tw h c i bm s hsub hlen hs hsib
      have hkv : (k, v) ∈ r.entries :=
        mem_entries_of_subtree p r _ hsub _ (mem_entries_branch.mpr
          ⟨_, List.mem_iff_getElem?.mpr ⟨s, hs⟩, by simp [entries_leaf]⟩)
      have hrem : Trie.remove ⟨some r⟩ k = some (true, ⟨some r'⟩) := by
        cases r with
        | leaf k0 v0 => simp [Node.remove_walk] at h2
        | branch tw0 h0 c0 i0 bm0 => simp [Trie.remove, Node.remove, h2]
      obtain ⟨t', e1, e2, e3⟩ :=
        trie_remove_present hwf k (trie_mem_keys.mpr ⟨v, hkv⟩)
      rw [hrem] at e1
      simp only [Option.some.injEq, Prod.mk.injEq, true_and] at e1
      subst e1
      exact ⟨r', h1, hrem, subtree_at_replace_at sib p r r' h1, e3, trie_keys_nodup e2⟩
  · intro e1 e2 he
    have hnd := trie_keys_nodup hwf
    simp only [Trie.keys, he, List.map_cons, List.map_nil, List.nodup_cons, List.mem_singleton,
      List.not_mem_nil, not_false_eq_true, List.nodup_nil, and_true] at hnd
    constructor
    · apply trie_remove_of_two hwf _ hnd
      intro e
      rw [he]
      simp
    · apply trie_remove_of_two hwf _ (fun h => hnd h.symm)
      intro e
      rw [he]
      simp [or_comm]

theorem fusion_correct_witness :
    Reachable demo_trie ∧
    (∃ r', Node.replace_at (.leaf [97, 98] 6) [1, 0]
          (.branch
            [.leaf [49, 50, 51, 52, 53] 1,
              .branch
                [.branch [.leaf [97, 98, 99, 120, 121] 5, .leaf [97, 98] 6] true 2 4 8,
                  .leaf [97, 100] 7, .leaf [97] 8] true 3 2 20] false 2 1 72) = some r' ∧
        demo_trie.remove [97, 98, 99, 120, 121] = some (true, ⟨some r'⟩) ∧
        Node.subtree_at [1, 0] r' = some (.leaf [97, 98] 6) ∧
        (∀ e, e ∈ r'.entries ↔
          e ∈ (Node.branch
            [.leaf [49, 50, 51, 52, 53] 1,
              .branch
                [.branch [.leaf [97, 98, 99, 120, 121] 5, .leaf [97, 98] 6] true 2 4 8,
                  .leaf [97, 100] 7, .leaf [97] 8] true 3 2 20] false 2 1 72).entries ∧
            e.1 ≠ [97, 98, 99, 120, 121]) ∧
        (r'.entries.map Prod.fst).Nodup) ∧
    (Trie.remove (⟨some (.branch [.leaf [33] (), .leaf [18] ()] false 2 0 6)⟩ : Trie Unit) [33]
        = some (true, ⟨some (.leaf [18] ())⟩) ∧
      Trie.remove (⟨some (.branch [.leaf [33] (), .leaf [18] ()] false 2 0 6)⟩ : Trie Unit) [18]
        = some (true, ⟨some (.leaf [33] ())⟩)) :=
  ⟨demo_reachable,
    (fusion_correct demo_trie demo_reachable).1 _ [1, 0] _ true 2 4 8 0 [97, 98, 99, 120, 121] 5
      (.leaf [97, 98] 6) rfl rfl rfl rfl rfl,
    (fusion_correct (⟨some (.branch [.leaf [33] (), .leaf [18] ()] false 2 0 6)⟩ : Trie Unit)
      (emplace_all_reachable [([18], ()), ([33], ())] Trie.empty _ Reachable.empty
        (by decide) rfl)).2 ([33], ()) ([18], ()) rfl⟩

/-- C15 (key-length bound), at a pair of keys within `max_key_size()`: the key of
`2 ^ 36` zero bytes and the key of these bytes and a byte 1 after them. Both
sizes are at most `max_key_size() = 2 ^ 37`, `find_mismatch` returns the nybble
index `2 ^ 37`, and the branch constructed at it stores the index 0: `emplace`
of the longer key into the container that holds the shorter one leaves a root
with index 0 that files the two keys under the nybbles 0 and 1, and
`contains` of the key just emplaced is then false. -/
theorem index_wraps_within_max_key_size :
    (List.replicate (2 ^ 36) (0 : Fin 256)).length ≤ Trie.max_key_size ∧
    (List.replicate (2 ^ 36) (0 : Fin 256) ++ [1]).length ≤ Trie.max_key_size ∧
    find_mismatch (List.replicate (2 ^ 36) (0 : Fin 256))
      (List.replicate (2 ^ 36) (0 : Fin 256) ++ [1]) = some (2 ^ 37) ∧
    (Branch.new (2 ^ 37) (List.replicate (2 ^ 36) (0 : Fin 256) ++ [1]) ()).nybble_index = 0 ∧
    Trie.emplace (⟨some (.leaf (List.replicate (2 ^ 36) (0 : Fin 256)) ())⟩ : Trie Unit)
        (List.replicate (2 ^ 36) (0 : Fin 256) ++ [1]) ()
      = some ((), ⟨some (.branch
          [.leaf (List.replicate (2 ^ 36) (0 : Fin 256)) (),
            .leaf (List.replicate (2 ^ 36) (0 : Fin 256) ++ [1]) ()] false 2 0 3)⟩) ∧
    Trie.contains (⟨some (.branch
          [.leaf (List.replicate (2 ^ 36) (0 : Fin 256)) (),
            .leaf (List.replicate (2 ^ 36) (0 : Fin 256) ++ [1]) ()] false 2 0 3)⟩ : Trie Unit)
        (List.replicate (2 ^ 36) (0 : Fin 256) ++ [1]) = some false :=
  wrap_at_half_max (List.replicate (2 ^ 36) (0 : Fin 256)) (List.length_replicate _ _)
    (by rw [List.get?_eq_getElem?, List.getElem?_replicate, if_pos (by norm_num)])

end jzt

/-!
## The claims C16 to C20
-/

namespace jzt

variable {V : Type}

/-- C16 (mismatch position). For all keys `a` and `b`, `find_mismatch` of a leaf
with key `a` against `b` returns no value exactly when `a = b`, and it returns
`m` exactly when `m` is the least nybble index at which `nybble_at` differs on
the two keys. When the keys agree before byte `j` and differ in it, this is
`2 * j` if the low four bits of the two bytes differ and `2 * j + 1` if only the
high four bits do; when one key is a strict start of the other it is twice the
size of the shorter key; and the result is the same with `a` and `b` swapped. -/
theorem find_mismatch_position (a b : Key) :
    (find_mismatch a b = none ↔ a = b) ∧
    (∀ m, find_mismatch a b = some m ↔
      nybble_at a m ≠ nybble_at b m ∧ ∀ j < m, nybble_at a j = nybble_at b j) ∧
    (∀ (j : Nat) (x y : Fin 256), a.get? j = some x → b.get? j = some y →
      a.take j = b.take j → x ≠ y →
      find_mismatch a b
        = some (if x.val &&& 0x0F ≠ y.val &&& 0x0F then 2 * j else 2 * j + 1)) ∧
    ((a <+: b ∨ b <+: a) → a ≠ b →
      find_mismatch a b = some (2 * min a.length b.length)) ∧
    find_mismatch a b = find_mismatch b a := by
  refine ⟨find_mismatch_eq_none a b, find_mismatch_iff_least a b, ?_, ?_,
    find_mismatch_comm a b⟩
  · intro j x y hx hy hpre hne
    exact find_mismatch_at_byte a b j x y hx hy hpre hne
  · intro hpre hne
    have key : ∀ (p r : Key), r ≠ [] →
        find_mismatch p (p ++ r) = some (2 * min p.length (p ++ r).length) := by
      intro p r hr
      rw [find_mismatch_strict_start p r hr, List.length_append, Nat.min_eq_left (by omega)]
    rcases hpre with ⟨r, hr⟩ | ⟨r, hr⟩
    · subst hr
      apply key
      intro h0
      subst h0
      simp at hne
    · subst hr
      rw [find_mismatch_comm, Nat.min_comm]
      apply key
      intro h0
      subst h0
      simp at hne

theorem find_mismatch_position_witness :
    find_mismatch [18, 52] [18, 84] = some (if (52 : Fin 256).val &&& 0x0F ≠
      (84 : Fin 256).val &&& 0x0F then 2 * 1 else 2 * 1 + 1) ∧
    find_mismatch [18, 52] [18, 84] = some 3 ∧
    find_mismatch [18, 52] [18] = some (2 * min [18, 52].length [18].length) :=
  ⟨(find_mismatch_position [18, 52] [18, 84]).2.2.1 1 52 84 rfl rfl rfl (by decide), rfl,
    (find_mismatch_position [18, 52] [18]).2.2.2.1 (Or.inr ⟨[52], rfl⟩) (by decide)⟩

/-- C17 (layout of the child array). In every container that `emplace` and
`remove` build, every branch is laid out as `layout_ok` says: for every set bit
`n` of the bitmap the twig at the offset `twig_index(n)` is the twig of the
nybble `n`, all keys below it having `n` at the index of the branch, these
offsets ascend with the nybbles, and a head is in the last slot. The methods
`twig_insert` (of a leaf and of a branch), `twig_remove` and `remove_head` keep
this layout, with the bitmap within its 16 bits and the size within the
capacity, and leave the other twigs as they are and in the order they are in:
the new child array is the old one with one twig put in, or taken out, at one
slot. -/
theorem child_array_layout :
    (∀ (t : Trie V), Reachable t → ∀ b ∈ t.branches,
      b.layout_ok ∧ b.bitmap < 2 ^ 16 ∧ b.size ≤ b.capacity ∧ 2 ≤ b.capacity ∧
        b.capacity ≤ 17) ∧
    (∀ (b : Branch V) (key : Key) (val : V),
      b.layout_ok → b.bitmap < 2 ^ 16 → b.size ≤ b.capacity → 2 ≤ b.capacity →
      b.capacity ≤ 17 →
      ((b.twig_nybble key = NybbleHead ∧ b.head = false) ∨
        (b.twig_nybble key ≠ NybbleHead ∧ b.bitmap.testBit (b.twig_nybble key) = false)) →
      ∃ b' idx, b.twig_insert key val (b.twig_nybble key) = some b' ∧ b'.layout_ok ∧
        b'.bitmap < 2 ^ 16 ∧ b'.size ≤ b'.capacity ∧ 2 ≤ b'.capacity ∧ b'.capacity ≤ 17 ∧
        idx ≤ b.size ∧ b'.twigs = b.twigs.take idx ++ Node.leaf key val :: b.twigs.drop idx) ∧
    (∀ (b nb : Branch V) (n : Nat),
      b.layout_ok → b.bitmap < 2 ^ 16 → b.size ≤ b.capacity → 2 ≤ b.capacity →
      b.capacity ≤ 17 → n < 16 → b.bitmap.testBit n = false →
      labelled b.index n (Node.ofBranch nb) →
      ∃ b' idx, b.twig_insert_branch nb n = some b' ∧ b'.layout_ok ∧
        b'.bitmap < 2 ^ 16 ∧ b'.size ≤ b'.capacity ∧ 2 ≤ b'.capacity ∧ b'.capacity ≤ 17 ∧
        idx ≤ b.size ∧
        b'.twigs = b.twigs.take idx ++ Node.ofBranch nb :: b.twigs.drop idx) ∧
    (∀ (b : Branch V) (n : Nat),
      b.layout_ok → b.bitmap < 2 ^ 16 → n < 16 → b.bitmap.testBit n = true → 1 < b.size →
      ∃ b' idx, b.twig_remove n = some b' ∧ b'.layout_ok ∧ b'.bitmap < 2 ^ 16 ∧
        b'.capacity = b.capacity ∧ b.twig_index n = some idx ∧ idx < b.size ∧
        b'.twigs = b.twigs.eraseIdx idx) ∧
    (∀ (b : Branch V),
      b.layout_ok → b.bitmap < 2 ^ 16 → b.head = true →
      ∃ b', b.remove_head = some b' ∧ b'.layout_ok ∧ b'.bitmap < 2 ^ 16 ∧
        b'.capacity = b.capacity ∧ b'.twigs = b.twigs.eraseIdx (b.size - 1)) := by
  refine ⟨?_, ?_, ?_, ?_, ?_⟩
  · intro t hr b hb
    have hwf := trie_wf_of_mem_branches (reachable_wf hr) b hb
    cases b with
    | mk tw h c i bm =>
      cases hwf with
      | branch _ _ _ _ _ hbm hlen hcap hc17 hf hagree hwfs =>
        refine ⟨layout_of_slots hbm hf, hbm, hcap, ?_, hc17⟩
        have h2 : 2 ≤ tw.length := hlen
        have h3 : tw.length ≤ c := hcap
        show 2 ≤ c
        omega
  · intro b key val hl hbm hsz hc2 hc17 hfree
    obtain ⟨b', idx, e1, e2, e3, _, e5, e6, e7, e8, e9⟩ :=
      twig_insert_layout b key val hbm hsz hc2 hc17 hl hfree
    exact ⟨b', idx, e1, e2, e3, e5, by omega, e7, e8, e9⟩
  · intro b nb n hl hbm hsz hc2 hc17 hn hb hx
    obtain ⟨b', idx, e1, e2, e3, _, e5, e6, e7, e8, e9⟩ :=
      twig_insert_branch_layout b nb n hbm hsz hc2 hc17 hl hn hb hx
    exact ⟨b', idx, e1, e2, e3, e5, by omega, e7, e8, e9⟩
  · intro b n hl hbm hn hb h1
    obtain ⟨b', idx, e1, e2, e3, _, e5, _, e7, e8, e9⟩ :=
      twig_remove_layout b n hbm hl hn hb h1
    exact ⟨b', idx, e1, e2, e3, e5, e7, e8, e9⟩
  · intro b hl hbm hh
    obtain ⟨b', e1, e2, e3, _, e5, _, _, e8⟩ := remove_head_layout b hbm hl hh
    exact ⟨b', e1, e2, by rw [e3]; exact hbm, e5, e8⟩

theorem child_array_layout_witness :
    (Reachable demo_trie ∧
      (⟨[.leaf [97, 98, 99, 120, 121] 5, .leaf [97, 98] 6], true, 2, 4, 8⟩ : Branch Nat)
        ∈ demo_trie.branches) ∧
    (Branch.layout_ok
        (⟨[.leaf [97, 98, 99, 120, 121] 5, .leaf [97, 98] 6], true, 2, 4, 8⟩ : Branch Nat) ∧
      (8 : Nat) < 2 ^ 16 ∧
      Branch.size
        (⟨[.leaf [97, 98, 99, 120, 121] 5, .leaf [97, 98] 6], true, 2, 4, 8⟩ : Branch Nat) ≤ 2 ∧
      2 ≤ 2 ∧ 2 ≤ 17) ∧
    (∃ b' idx, Branch.twig_insert
        (⟨[.leaf [97, 98, 99, 120, 121] 5, .leaf [97, 98] 6], true, 2, 4, 8⟩ : Branch Nat)
        [97, 98, 100] 9 4 = some b' ∧ b'.layout_ok ∧
      b'.bitmap < 2 ^ 16 ∧ b'.size ≤ b'.capacity ∧ 2 ≤ b'.capacity ∧ b'.capacity ≤ 17 ∧
      idx ≤ 2 ∧
      b'.twigs = List.take idx [.leaf [97, 98, 99, 120, 121] 5, .leaf [97, 98] 6] ++
        Node.leaf [97, 98, 100] 9 ::
          List.drop idx [.leaf [97, 98, 99, 120, 121] 5, .leaf [97, 98] 6]) :=
  ⟨⟨demo_reachable, by simp [demo_trie, Trie.branches, Node.branches, Node.branches_each]⟩,
    (child_array_layout (V := Nat)).1 demo_trie demo_reachable _
      (by simp [demo_trie, Trie.branches, Node.branches, Node.branches_each]),
    (child_array_layout (V := Nat)).2.1
      ⟨[.leaf [97, 98, 99, 120, 121] 5, .leaf [97, 98] 6], true, 2, 4, 8⟩ [97, 98, 100] 9
      ((child_array_layout (V := Nat)).1 demo_trie demo_reachable _
        (by simp [demo_trie, Trie.branches, Node.branches, Node.branches_each])).1
      (by norm_num) (by decide) (by decide) (by decide) (Or.inr ⟨by decide, by decide⟩)⟩

/-- C18 (capacity). In every container that `emplace` and `remove` build, every
branch has `size ≤ capacity ≤ 17`; and `remove` of any key is free of failures
and leaves branches that were there before, each with the index and the capacity
it had and in the order they were in: the capacity of a branch that is still
there has not decreased. -/
theorem capacity_invariant (t : Trie V) (hr : Reachable t) :
    (∀ b ∈ t.branches, b.size ≤ b.capacity ∧ b.capacity ≤ 17) ∧
    ∀ k : Key, ∃ ok t', t.remove k = some (ok, t') ∧
      (t'.branches.map (fun b => (b.index, b.capacity))).Sublist
        (t.branches.map (fun b => (b.index, b.capacity))) ∧
      ∀ b' ∈ t'.branches, ∃ b ∈ t.branches, b.index = b'.index ∧ b.capacity ≤ b'.capacity := by
  have hwf := reachable_wf hr
  constructor
  · intro b hb
    have hwfb := trie_wf_of_mem_branches hwf b hb
    cases b with
    | mk tw h c i bm =>
      cases hwfb with
      | branch _ _ _ _ _ hbm hlen hcap hc17 hf hagree hwfs => exact ⟨hcap, hc17⟩
  · intro k
    have hex : ∃ ok t', t.remove k = some (ok, t') := by
      by_cases hk : k ∈ t.keys
      · obtain ⟨t', h1, _, _⟩ := trie_remove_present hwf k hk
        exact ⟨true, t', h1⟩
      · exact ⟨false, t, trie_remove_absent hwf k hk⟩
    obtain ⟨ok, t', h1⟩ := hex
    have hsub := trie_remove_survivors hwf k ok t' h1
    refine ⟨ok, t', h1, hsub, ?_⟩
    intro b' hb'
    have hm : (b'.index, b'.capacity) ∈ t'.branches.map (fun b => (b.index, b.capacity)) :=
      List.mem_map.mpr ⟨b', hb', rfl⟩
    obtain ⟨b, hb, he⟩ := List.mem_map.mp (hsub.subset hm)
    simp only [Prod.mk.injEq] at he
    exact ⟨b, hb, he.1, by omega⟩

theorem capacity_invariant_witness :
    Reachable demo_trie ∧
    ((∀ b ∈ demo_trie.branches, b.size ≤ b.capacity ∧ b.capacity ≤ 17) ∧
    ∀ k : Key, ∃ ok t', demo_trie.remove k = some (ok, t') ∧
      (t'.branches.map (fun b => (b.index, b.capacity))).Sublist
        (demo_trie.branches.map (fun b => (b.index, b.capacity))) ∧
      ∀ b' ∈ t'.branches, ∃ b ∈ demo_trie.branches,
        b.index = b'.index ∧ b.capacity ≤ b'.capacity) :=
  ⟨demo_reachable, capacity_invariant demo_trie demo_reachable⟩

/-- A branch with one twig in an array of one slot is a value of the type that
no constructor and no call builds (a branch is constructed with capacity 2 and a
capacity is only ever raised): on it `min(floor(1.5 * 1), 17)` is 1, less than the
two slots that the twig and the new one need, and `twig_emplace_at` fails. -/
theorem twig_emplace_at_capacity_one :
    Branch.size (⟨[.leaf [] ()], true, 1, 0, 0⟩ : Branch Unit) = 1 ∧
    Branch.capacity (⟨[.leaf [] ()], true, 1, 0, 0⟩ : Branch Unit) = 1 ∧
    min (1 * 3 / 2) 17 < Branch.size (⟨[.leaf [] ()], true, 1, 0, 0⟩ : Branch Unit) + 1 ∧
    Branch.twig_expand_emplace_at (⟨[.leaf [] ()], true, 1, 0, 0⟩ : Branch Unit) 0
      (.leaf [1] ()) = none ∧
    Branch.twig_emplace_at (⟨[.leaf [] ()], true, 1, 0, 0⟩ : Branch Unit) 0
      (.leaf [1] ()) = none :=
  ⟨rfl, rfl, by decide, rfl, rfl⟩

/-- The branches of a container that `emplace` and `remove` build have a
capacity of 2 or more. -/
theorem reachable_capacity_ge_two (t : Trie V) (hr : Reachable t) (b : Branch V)
    (hb : b ∈ t.branches) : 2 ≤ b.size ∧ 2 ≤ b.capacity := by
  have hwfb := trie_wf_of_mem_branches (reachable_wf hr) b hb
  cases b with
  | mk tw h c i bm =>
    cases hwfb with
    | branch _ _ _ _ _ hbm hlen hcap hc17 hf hagree hwfs =>
      have h2 : 2 ≤ tw.length := hlen
      have h3 : tw.length ≤ c := hcap
      exact ⟨h2, show 2 ≤ c by omega⟩

/-- Growth of a full child array of 2 to 16 slots: `twig_emplace_at` is free of
failures and leaves the capacity `min(floor(1.5 * c), 17)`, which is at least
`size + 1`, with the old twigs in their order and the new one at its slot. -/
theorem twig_emplace_at_full (b : Branch V) (idx : Nat) (x : Node V) (c : Nat)
    (hs : b.size = c) (hc : b.capacity = c) (hc2 : 2 ≤ c) (hc17 : c < 17)
    (hidx : idx ≤ b.size) :
    ∃ b', b.twig_emplace_at idx x = some b' ∧ b'.capacity = min (c * 3 / 2) 17 ∧
      b.size + 1 ≤ b'.capacity ∧ b'.size = b.size + 1 ∧
      b'.twigs = b.twigs.take idx ++ x :: b.twigs.drop idx := by
  obtain ⟨c', e1, e2, e3, e4⟩ :=
    twig_emplace_at_eq b idx x (by omega) hidx (by omega) (by omega) (by omega)
  have e5 := twig_emplace_at_capacity b _ idx x e1
  simp only at e5
  rw [if_pos (by omega), hc] at e5
  refine ⟨_, e1, e5, ?_, ?_, rfl⟩
  · show b.size + 1 ≤ c'
    exact e2
  · simp only [Branch.size, List.length_append, List.length_take, List.length_cons,
      List.length_drop]
    unfold Branch.size at hidx
    omega

/-- C19 (growth policy). In every container that `emplace` and `remove` build,
for every branch whose child array is full, with `size = capacity = c` and
`1 ≤ c < 17`, and for every slot `idx ≤ size` and every new twig:
`twig_emplace_at` is free of failures and leaves a child array of exactly
`min(floor(1.5 * c), 17)` slots, which is at least `size + 1`, and that array
holds the old twigs in their order and the new one at its slot. The one other
branch the code inserts into is a newly constructed one, which has one twig in
an array of two slots and is not full. -/
theorem growth_policy (t : Trie V) (hr : Reachable t) :
    (∀ b ∈ t.branches, ∀ (idx : Nat) (x : Node V) (c : Nat),
      b.size = c → b.capacity = c → 1 ≤ c → c < 17 → idx ≤ b.size →
      ∃ b', b.twig_emplace_at idx x = some b' ∧ b'.capacity = min (c * 3 / 2) 17 ∧
        b.size + 1 ≤ b'.capacity ∧ b'.size = b.size + 1 ∧
        b'.twigs = b.twigs.take idx ++ x :: b.twigs.drop idx) ∧
    (∀ (i : Nat) (key : Key) (val : V),
      (Branch.new i key val).size = 1 ∧ (Branch.new i key val).capacity = 2) := by
  refine ⟨?_, fun _ _ _ => ⟨rfl, rfl⟩⟩
  intro b hb idx x c hs hc _ hc17 hidx
  have h2 := (reachable_capacity_ge_two t hr b hb).2
  exact twig_emplace_at_full b idx x c hs hc (by omega) hc17 hidx

theorem growth_policy_witness :
    (Reachable demo_trie ∧
      (⟨[.leaf [97, 98, 99, 120, 121] 5, .leaf [97, 98] 6], true, 2, 4, 8⟩ : Branch Nat)
        ∈ demo_trie.branches ∧
      Branch.size
        (⟨[.leaf [97, 98, 99, 120, 121] 5, .leaf [97, 98] 6], true, 2, 4, 8⟩ : Branch Nat) = 2 ∧
      Branch.capacity
        (⟨[.leaf [97, 98, 99, 120, 121] 5, .leaf [97, 98] 6], true, 2, 4, 8⟩ : Branch Nat) = 2 ∧
      1 ≤ 2 ∧ 2 < 17 ∧
      1 ≤ Branch.size
        (⟨[.leaf [97, 98, 99, 120, 121] 5, .leaf [97, 98] 6], true, 2, 4, 8⟩ : Branch Nat)) ∧
    ∃ b', Branch.twig_emplace_at
        (⟨[.leaf [97, 98, 99, 120, 121] 5, .leaf [97, 98] 6], true, 2, 4, 8⟩ : Branch Nat) 1
        (.leaf [97, 98, 100] 9) = some b' ∧
      b'.capacity = min (2 * 3 / 2) 17 ∧
      Branch.size
        (⟨[.leaf [97, 98, 99, 120, 121] 5, .leaf [97, 98] 6], true, 2, 4, 8⟩ : Branch Nat) + 1
        ≤ b'.capacity ∧
      b'.size = Branch.size
        (⟨[.leaf [97, 98, 99, 120, 121] 5, .leaf [97, 98] 6], true, 2, 4, 8⟩ : Branch Nat) + 1 ∧
      b'.twigs = List.take 1 [.leaf [97, 98, 99, 120, 121] 5, .leaf [97, 98] 6] ++
        Node.leaf [97, 98, 100] 9 ::
          List.drop 1 [.leaf [97, 98, 99, 120, 121] 5, .leaf [97, 98] 6] :=
  ⟨⟨demo_reachable, by simp [demo_trie, Trie.branches, Node.branches, Node.branches_each],
      rfl, rfl, by decide, by decide, by decide⟩,
    (growth_policy demo_trie demo_reachable).1
      ⟨[.leaf [97, 98, 99, 120, 121] 5, .leaf [97, 98] 6], true, 2, 4, 8⟩
      (by simp [demo_trie, Trie.branches, Node.branches, Node.branches_each]) 1
      (.leaf [97, 98, 100] 9) 2 rfl rfl (by decide) (by decide) (by decide)⟩

/-- C20 (the second walk of `emplace`). In every container that `emplace` and
`remove` build, with root `r`, and for every key `k` that it does not hold:
`find_similar(k)` ends at a leaf with a key `sk`, `find_mismatch` of that leaf
against `k` returns an index `m`, and at every branch the second walk of `emplace`
stands at, if the index of the branch is below `m` then the nybble of `k` at that
index is not the past-end sentinel, `has_twig` is true for it and the twig at its
`twig_index` exists; and if the index of the branch is `m` then the branch has no
head when `k` ends at `m`, and no twig for the nybble of `k` at `m` otherwise. -/
theorem rewalk_safety (t : Trie V) (hr : Reachable t) (r : Node V) (hroot : t.root = some r)
    (k : Key) (hk : k ∉ t.keys) :
    ∃ sk sv m, r.find_similar k = some (.leaf sk sv) ∧ find_mismatch sk k = some m ∧
      ∀ b ∈ r.emplace_visited k m,
        (b.nybble_index < m →
          b.twig_nybble k ≠ NybbleHead ∧ b.has_twig (b.twig_nybble k) = some true ∧
            ∃ idx x, b.twig_index (b.twig_nybble k) = some idx ∧ b.twig idx = some x) ∧
        (b.nybble_index = m →
          (b.twig_nybble k = NybbleHead → b.has_head = false) ∧
          (b.twig_nybble k ≠ NybbleHead → b.has_twig (b.twig_nybble k) = some false)) := by
  have hwf := reachable_wf hr
  cases t with
  | mk root =>
    simp only at hroot
    subst hroot
    exact emplace_rewalk hwf k hk

theorem rewalk_safety_witness :
    (Reachable demo_trie ∧ [97, 99] ∉ demo_trie.keys ∧
      (Node.emplace_visited [97, 99] 2
        (.branch
          [.leaf [49, 50, 51, 52, 53] 1,
            .branch
              [.branch [.leaf [97, 98, 99, 120, 121] 5, .leaf [97, 98] 6] true 2 4 8,
                .leaf [97, 100] 7, .leaf [97] 8] true 3 2 20] false 2 1 72 : Node Nat)).length
        = 2) ∧
    ∃ sk sv m,
      Node.find_similar
        (.branch
          [.leaf [49, 50, 51, 52, 53] 1,
            .branch
              [.branch [.leaf [97, 98, 99, 120, 121] 5, .leaf [97, 98] 6] true 2 4 8,
                .leaf [97, 100] 7, .leaf [97] 8] true 3 2 20] false 2 1 72 : Node Nat)
        [97, 99] = some (.leaf sk sv) ∧
      find_mismatch sk [97, 99] = some m ∧
      ∀ b ∈ Node.emplace_visited [97, 99] m
          (.branch
            [.leaf [49, 50, 51, 52, 53] 1,
              .branch
                [.branch [.leaf [97, 98, 99, 120, 121] 5, .leaf [97, 98] 6] true 2 4 8,
                  .leaf [97, 100] 7, .leaf [97] 8] true 3 2 20] false 2 1 72 : Node Nat),
        (b.nybble_index < m →
          b.twig_nybble [97, 99] ≠ NybbleHead ∧
            b.has_twig (b.twig_nybble [97, 99]) = some true ∧
            ∃ idx x, b.twig_index (b.twig_nybble [97, 99]) = some idx ∧
              b.twig idx = some x) ∧
        (b.nybble_index = m →
          (b.twig_nybble [97, 99] = NybbleHead → b.has_head = false) ∧
          (b.twig_nybble [97, 99] ≠ NybbleHead →
            b.has_twig (b.twig_nybble [97, 99]) = some false)) :=
  ⟨⟨demo_reachable, by decide, rfl⟩,
    rewalk_safety demo_trie demo_reachable _ rfl [97, 99] (by decide)⟩

end jzt

/-!
## The turns of the approximate descent
-/

namespace jzt

variable {V : Type}

theorem similar_run_zero (key : Key) (t : Node V) : Node.similar_run key 0 t = some t := rfl

theorem similar_run_succ (key : Key) (n : Nat) (t x : Node V)
    (h : Node.similar_step key t = some x) :
    Node.similar_run key (n + 1) t = Node.similar_run key n x := by
  simp [Node.similar_run, h]

/-- The method `find_similar` at a branch is one turn of its loop and then
`find_similar` from the twig the turn steps to. -/
theorem find_similar_step (tw : List (Node V)) (h : Bool) (c i bm : Nat) (key : Key)
    (x : Node V) (hs : Node.similar_step key (.branch tw h c i bm) = some x) :
    Node.find_similar (.branch tw h c i bm) key = x.find_similar key := by
  simp only [Node.similar_step, Branch.twig_nybble, Branch.has_head, Branch.get_head,
    Branch.twig, Branch.size, List.get?_eq_getElem?] at hs
  simp only [Node.find_similar, Branch.twig_nybble, Branch.has_head, Branch.size,
    find_similar_at_eq]
  by_cases hn : nybble_at key i = NybbleHead
  · simp only [hn, if_true] at hs ⊢
    cases h with
    | true =>
      simp only [if_true] at hs ⊢
      rw [hs]
      rfl
    | false =>
      simp only [Bool.false_eq_true, if_false] at hs ⊢
      rw [hs]
      rfl
  · simp only [hn, if_false] at hs ⊢
    cases hb : Branch.has_twig ⟨tw, h, c, i, bm⟩ (nybble_at key i) with
    | none => simp [hb] at hs
    | some b =>
      cases b with
      | true =>
        simp only [hb] at hs ⊢
        cases hti : Branch.twig_index ⟨tw, h, c, i, bm⟩ (nybble_at key i) with
        | none => simp [hti] at hs
        | some idx =>
          simp only [hti] at hs ⊢
          rw [hs]
          rfl
      | false =>
        simp only [hb] at hs ⊢
        cases h with
        | true =>
          simp only [if_true] at hs ⊢
          rw [hs]
          rfl
        | false =>
          simp only [Bool.false_eq_true, if_false] at hs ⊢
          rw [hs]
          rfl

/-- The twig a turn of the loop of `find_similar` steps to is the one the rule
names: the twig of the nybble of the key if the branch has one, else the head if
the branch has one, else the twig in slot 0. -/
theorem similar_step_rule (b : Branch V) (key : Key) (x : Node V)
    (hs : Node.similar_step key (Node.ofBranch b) = some x) :
    (b.twig_nybble key ≠ NybbleHead → b.has_twig (b.twig_nybble key) = some true →
      ∃ idx, b.twig_index (b.twig_nybble key) = some idx ∧ b.twig idx = some x) ∧
    ((b.twig_nybble key = NybbleHead ∨ b.has_twig (b.twig_nybble key) = some false) →
      b.has_head = true → b.get_head = some x) ∧
    ((b.twig_nybble key = NybbleHead ∨ b.has_twig (b.twig_nybble key) = some false) →
      b.has_head = false → b.twig 0 = some x) := by
  cases b with
  | mk tw h c i bm =>
    simp only [Node.ofBranch, Node.similar_step] at hs
    refine ⟨?_, ?_, ?_⟩
    · intro hn hb
      rw [if_neg hn, hb] at hs
      simp only at hs
      cases hti : Branch.twig_index ⟨tw, h, c, i, bm⟩
          (Branch.twig_nybble ⟨tw, h, c, i, bm⟩ key) with
      | none => simp [hti] at hs
      | some idx =>
        simp only [hti] at hs
        exact ⟨idx, rfl, hs⟩
    · intro hcase hh
      rcases hcase with hn | hb
      · rw [if_pos hn, if_pos hh] at hs
        exact hs
      · have hn : Branch.twig_nybble ⟨tw, h, c, i, bm⟩ key ≠ NybbleHead := by
          intro hn
          simp [Branch.has_twig, hn] at hb
        rw [if_neg hn, hb] at hs
        simp only [hh, if_true] at hs
        exact hs
    · intro hcase hh
      rcases hcase with hn | hb
      · rw [if_pos hn, hh] at hs
        simp only [Bool.false_eq_true, if_false] at hs
        exact hs
      · have hn : Branch.twig_nybble ⟨tw, h, c, i, bm⟩ key ≠ NybbleHead := by
          intro hn
          simp [Branch.has_twig, hn] at hb
        rw [if_neg hn, hb] at hs
        simp only [hh, Bool.false_eq_true, if_false] at hs
        exact hs

/-- A branch always has a twig to step to. -/
theorem similar_step_some {tw : List (Node V)} {h : Bool} {c i bm : Nat}
    (hwf : (Node.branch tw h c i bm).WF) (key : Key) :
    ∃ x, Node.similar_step key (.branch tw h c i bm) = some x ∧ x ∈ tw := by
  cases hwf with
  | branch _ _ _ _ _ hbm hlen hcap hc17 hf hagree hwfs =>
    have hzero : ∃ x, tw[0]? = some x ∧ x ∈ tw := by
      match tw, hlen with
      | a :: _, _ => exact ⟨a, by simp, by simp⟩
    have hhead : h = true → ∃ x, tw[tw.length - 1]? = some x ∧ x ∈ tw := by
      intro hh
      subst hh
      obtain ⟨x, hx, _⟩ := twig_of_head hf
      exact ⟨x, hx, List.mem_iff_getElem?.mpr ⟨_, hx⟩⟩
    have hrest : ∃ x, (if h = true then
          (if h = true then tw[tw.length - 1]? else none) else tw[0]?) = some x ∧ x ∈ tw := by
      cases h with
      | true =>
        simp only [if_true]
        exact hhead rfl
      | false =>
        simp only [Bool.false_eq_true, if_false]
        exact hzero
    simp only [Node.similar_step, Branch.twig_nybble, Branch.has_head, Branch.get_head,
      Branch.twig, Branch.size, List.get?_eq_getElem?]
    by_cases hn : nybble_at key i = NybbleHead
    · simp only [hn, if_true]
      exact hrest
    · simp only [hn, if_false]
      rw [has_twig_eq _ _ hn]
      have hn16 : nybble_at key i < 16 := by
        rcases nybble_at_cases key i with h1 | h1
        · exact h1
        · exact absurd h1 hn
      cases hb : bm.testBit (nybble_at key i) with
      | true =>
        simp only [hb]
        rw [twig_index_eq _ _ hn16]
        simp only
        obtain ⟨x, hx, _⟩ := twig_of_bit hf hn16 hb
        exact ⟨x, hx, List.mem_iff_getElem?.mpr ⟨_, hx⟩⟩
      | false =>
        simp only [hb]
        exact hrest

/-- The approximate descent ends: after at most as many turns as the subtree has
branches the loop of `find_similar` stands at a leaf, the one `find_similar`
returns; before that it stands at branches of the subtree, and every turn steps
to a twig of the branch it stands at, the one the rule names. -/
theorem similar_run_spec {r : Node V} (hwf : r.WF) (key : Key) :
    ∃ n sk sv, n ≤ r.branches.length ∧ Node.similar_run key n r = some (.leaf sk sv) ∧
      r.find_similar key = some (.leaf sk sv) ∧ (sk, sv) ∈ r.entries ∧
      ∀ j < n, ∃ b x, Node.similar_run key j r = some (Node.ofBranch b) ∧ b ∈ r.branches ∧
        Node.similar_run key (j + 1) r = some x ∧ x ∈ b.twigs ∧
        Node.similar_step key (Node.ofBranch b) = some x := by
  induction hwf with
  | leaf k v =>
    refine ⟨0, k, v, Nat.zero_le _, rfl, by simp [Node.find_similar], by simp [entries_leaf], ?_⟩
    intro j hj
    omega
  | branch tw h c i bm hbm hlen hcap hc17 hf hagree hwfs ih =>
    have hwfb : (Node.branch tw h c i bm).WF :=
      Node.WF.branch tw h c i bm hbm hlen hcap hc17 hf hagree hwfs
    obtain ⟨x, hs, hx⟩ := similar_step_some hwfb key
    obtain ⟨n, sk, sv, h1, h2, h3, h4, h5⟩ := ih x hx
    have hsubl : x.branches.length ≤ ((tw.map Node.branches).flatten).length :=
      (List.sublist_flatten_of_mem (List.mem_map.mpr ⟨x, hx, rfl⟩)).length_le
    refine ⟨n + 1, sk, sv, ?_, ?_, ?_, ?_, ?_⟩
    · rw [branches_branch, List.length_cons]
      omega
    · rw [similar_run_succ key n _ x hs]
      exact h2
    · rw [find_similar_step tw h c i bm key x hs]
      exact h3
    · exact mem_entries_branch.mpr ⟨x, hx, h4⟩
    · intro j hj
      cases j with
      | zero =>
        refine ⟨⟨tw, h, c, i, bm⟩, x, rfl, ?_, ?_, hx, hs⟩
        · exact mem_branches_branch.mpr (Or.inl rfl)
        · rw [similar_run_succ key 0 _ x hs]
          rfl
      | succ j =>
        obtain ⟨b, y, e1, e2, e3, e4, e5⟩ := h5 j (by omega)
        refine ⟨b, y, ?_, ?_, ?_, e4, e5⟩
        · rw [similar_run_succ key j _ x hs]
          exact e1
        · exact mem_branches_branch.mpr (Or.inr ⟨x, hx, e2⟩)
        · rw [similar_run_succ key (j + 1) _ x hs]
          exact e3

end jzt

/-!
## The shape of a trie is determined by its keys
-/

namespace jzt

variable {V : Type}

/-- Below a branch there are two keys that differ at the index of the branch. -/
theorem wf_branch_two_differ {tw : List (Node V)} {h : Bool} {c i bm : Nat}
    (hwf : (Node.branch tw h c i bm).WF) :
    ∃ e1 e2, e1 ∈ (Node.branch tw h c i bm).entries ∧ e2 ∈ (Node.branch tw h c i bm).entries ∧
      nybble_at e1.1 i ≠ nybble_at e2.1 i := by
  cases hwf with
  | branch _ _ _ _ _ hbm hlen hcap hc17 hf hagree hwfs =>
    match tw, hlen, hf, hwfs with
    | a :: b :: rest, _, hf, hwfs =>
      obtain ⟨n0, hn0, hl0⟩ := forall₂_getElem?_right hf (j := 0) (t := a) (by simp)
      obtain ⟨n1, hn1, hl1⟩ := forall₂_getElem?_right hf (j := 1) (t := b) (by simp)
      obtain ⟨e0, he0⟩ := (hwfs a (by simp)).exists_entry
      obtain ⟨e1, he1⟩ := (hwfs b (by simp)).exists_entry
      refine ⟨e0, e1, mem_entries_branch.mpr ⟨a, by simp, he0⟩,
        mem_entries_branch.mpr ⟨b, by simp, he1⟩, ?_⟩
      rw [hl0 e0 he0, hl1 e1 he1]
      intro hne
      rw [hne] at hn0
      have := slots_index_inj h bm hn0 hn1
      omega

/-- A branch that is a twig of a branch has a greater index. -/
theorem child_index_lt {tw : List (Node V)} {h : Bool} {c i bm : Nat}
    (hwf : (Node.branch tw h c i bm).WF) {tw0 : List (Node V)} {h0 : Bool} {c0 i0 bm0 : Nat}
    (hx : Node.branch tw0 h0 c0 i0 bm0 ∈ tw) : i < i0 := by
  cases hwf with
  | branch _ _ _ _ _ hbm hlen hcap hc17 hf hagree hwfs =>
    obtain ⟨e1, e2, h1, h2, hne⟩ := wf_branch_two_differ (hwfs _ hx)
    by_contra hle
    apply hne
    by_cases hlt : i0 < i
    · exact hagree _ hx _ hx e1 h1 e2 h2 i0 hlt
    · have he : i0 = i := by omega
      subst he
      obtain ⟨j, hj⟩ := List.mem_iff_getElem?.mp hx
      obtain ⟨n, _, hl⟩ := forall₂_getElem?_right hf hj
      rw [hl e1 h1, hl e2 h2]

/-- The head of a branch is a leaf, and its key has ended at the index of the
branch. -/
theorem head_is_leaf {tw : List (Node V)} {c i bm : Nat}
    (hwf : (Node.branch tw true c i bm).WF) :
    ∃ k v, tw[tw.length - 1]? = some (.leaf k v) ∧ nybble_at k i = NybbleHead := by
  cases hwf with
  | branch _ _ _ _ _ hbm hlen hcap hc17 hf hagree hwfs =>
    obtain ⟨t, ht, hl⟩ := twig_of_head hf
    have htm : t ∈ tw := List.mem_iff_getElem?.mpr ⟨_, ht⟩
    cases t with
    | leaf k v =>
      exact ⟨k, v, ht, hl (k, v) (by simp [entries_leaf])⟩
    | branch tw0 h0 c0 i0 bm0 =>
      exfalso
      obtain ⟨e1, e2, h1, h2, hne⟩ := wf_branch_two_differ (hwfs _ htm)
      apply hne
      have : e1.1 = e2.1 := by
        apply key_ext
        intro j
        by_cases hj : j < i
        · exact hagree _ htm _ htm e1 h1 e2 h2 j hj
        · rw [nybble_at_head_mono e1.1 i j (by omega) (hl e1 h1),
            nybble_at_head_mono e2.1 i j (by omega) (hl e2 h2)]
      rw [this]

theorem reshape_each_eq {W : Type} (f : V → W) (tw : List (Node V)) :
    Node.reshape_each f tw = tw.map (Node.reshape f) := by
  induction tw with
  | nil => rfl
  | cons t ts ih => simp [Node.reshape_each, ih]

theorem reshape_branch {W : Type} (f : V → W) (tw : List (Node V)) (h : Bool) (c i bm : Nat) :
    Node.reshape f (.branch tw h c i bm) = .branch (tw.map (Node.reshape f)) h 0 i bm := by
  rw [Node.reshape, reshape_each_eq]

/-- The entries below the twig in a slot are the entries below the branch whose
key has the nybble of the slot at the index of the branch. -/
theorem twig_entries_iff {tw : List (Node V)} {h : Bool} {c i bm : Nat}
    (hf : List.Forall₂ (labelled i) (slots h bm) tw) {j n : Nat} {t : Node V}
    (ht : tw[j]? = some t) (hn : (slots h bm)[j]? = some n) (e : Key × V) :
    e ∈ t.entries ↔ e ∈ (Node.branch tw h c i bm).entries ∧ nybble_at e.1 i = n := by
  constructor
  · intro he
    obtain ⟨n', hn', hl⟩ := forall₂_getElem?_right hf ht
    rw [hn] at hn'
    cases hn'
    exact ⟨mem_entries_branch.mpr ⟨t, List.mem_iff_getElem?.mpr ⟨j, ht⟩, he⟩, hl e he⟩
  · rintro ⟨he, hne⟩
    obtain ⟨j', t', hj', het, hs⟩ := child_of_entry hf he
    rw [hne] at hs
    have := slots_index_inj h bm hs hn
    subst this
    rw [ht] at hj'
    cases hj'
    exact het

/-- The head flag of a branch says whether a key below it has ended at its
index. -/
theorem head_iff_ended {tw : List (Node V)} {h : Bool} {c i bm : Nat}
    (hwf : (Node.branch tw h c i bm).WF) :
    h = true ↔ ∃ e ∈ (Node.branch tw h c i bm).entries, nybble_at e.1 i = NybbleHead := by
  cases hwf with
  | branch _ _ _ _ _ hbm hlen hcap hc17 hf hagree hwfs =>
    constructor
    · intro hh
      subst hh
      obtain ⟨t, ht, hl⟩ := twig_of_head hf
      have htm : t ∈ tw := List.mem_iff_getElem?.mpr ⟨_, ht⟩
      obtain ⟨e, he⟩ := (hwfs t htm).exists_entry
      exact ⟨e, mem_entries_branch.mpr ⟨t, htm, he⟩, hl e he⟩
    · rintro ⟨e, he, hn⟩
      exact (child_of_entry_head hf he hn).1

/-- A bit of the bitmap of a branch says whether a key below it has that nybble
at its index. -/
theorem bit_iff_nybble {tw : List (Node V)} {h : Bool} {c i bm : Nat}
    (hwf : (Node.branch tw h c i bm).WF) (n : Nat) :
    bm.testBit n = true ↔
      n < 16 ∧ ∃ e ∈ (Node.branch tw h c i bm).entries, nybble_at e.1 i = n := by
  cases hwf with
  | branch _ _ _ _ _ hbm hlen hcap hc17 hf hagree hwfs =>
    constructor
    · intro hb
      have hn : n < 16 := by
        by_contra hge
        have : bm.testBit n = false :=
          Nat.testBit_eq_false_of_lt (lt_of_lt_of_le hbm (Nat.pow_le_pow_right (by omega)
            (by omega)))
        rw [this] at hb
        cases hb
      obtain ⟨t, ht, hl⟩ := twig_of_bit hf hn hb
      have htm : t ∈ tw := List.mem_iff_getElem?.mpr ⟨_, ht⟩
      obtain ⟨e, he⟩ := (hwfs t htm).exists_entry
      exact ⟨hn, e, mem_entries_branch.mpr ⟨t, htm, he⟩, hl e he⟩
    · rintro ⟨hn, e, he, hne⟩
      have hnh : nybble_at e.1 i ≠ NybbleHead := by
        rw [hne]
        unfold NybbleHead
        omega
      have := (child_of_entry_bit hf he hnh).2.1
      rw [hne] at this
      exact this

/-- Two subtrees that satisfy the invariant and hold the same keys, with the same
images of the mapped values under `f`, have the same shape. -/
theorem reshape_unique {W : Type} (f : V → W) {r1 : Node V} (h1 : r1.WF) :
    ∀ {r2 : Node V}, r2.WF →
      (∀ p : Key × W, p ∈ r1.entries.map (Prod.map id f) ↔
        p ∈ r2.entries.map (Prod.map id f)) →
      r1.reshape f = r2.reshape f := by
  induction h1 with
  | leaf k v =>
    intro r2 h2 H
    cases r2 with
    | leaf k2 v2 =>
      have := (H (k2, f v2)).mpr (by simp [entries_leaf])
      simp only [entries_leaf, List.map_cons, List.map_nil, List.mem_singleton, Prod.map_apply,
        id_eq, Prod.mk.injEq] at this
      simp only [Node.reshape, this.1, this.2]
    | branch tw2 hd2 c2 i2 bm2 =>
      exfalso
      obtain ⟨e1, e2, m1, m2, hne⟩ := wf_branch_two_differ h2
      have a1 := (H (e1.1, f e1.2)).mpr (List.mem_map.mpr ⟨e1, m1, rfl⟩)
      have a2 := (H (e2.1, f e2.2)).mpr (List.mem_map.mpr ⟨e2, m2, rfl⟩)
      simp only [entries_leaf, List.map_cons, List.map_nil, List.mem_singleton, Prod.map_apply,
        id_eq, Prod.mk.injEq] at a1 a2
      apply hne
      rw [a1.1, a2.1]
  | branch tw h c i bm hbm hlen hcap hc17 hf hagree hwfs ih =>
    intro r2 h2 H
    have hwf1 : (Node.branch tw h c i bm).WF :=
      Node.WF.branch tw h c i bm hbm hlen hcap hc17 hf hagree hwfs
    -- the keys of the two subtrees are the same
    have hk12 : ∀ e ∈ (Node.branch tw h c i bm).entries, ∃ e' ∈ r2.entries, e'.1 = e.1 := by
      intro e he
      obtain ⟨e', he', hp⟩ := List.mem_map.mp ((H (e.1, f e.2)).mp (List.mem_map.mpr ⟨e, he, rfl⟩))
      have := congrArg Prod.fst hp
      exact ⟨e', he', by simpa using this⟩
    have hk21 : ∀ e ∈ r2.entries, ∃ e' ∈ (Node.branch tw h c i bm).entries, e'.1 = e.1 := by
      intro e he
      obtain ⟨e', he', hp⟩ := List.mem_map.mp ((H (e.1, f e.2)).mpr (List.mem_map.mpr ⟨e, he, rfl⟩))
      have := congrArg Prod.fst hp
      exact ⟨e', he', by simpa using this⟩
    cases r2 with
    | leaf k2 v2 =>
      exfalso
      obtain ⟨e1, e2, m1, m2, hne⟩ := wf_branch_two_differ hwf1
      obtain ⟨e1', a1, b1⟩ := hk12 e1 m1
      obtain ⟨e2', a2, b2⟩ := hk12 e2 m2
      simp only [entries_leaf, List.mem_singleton] at a1 a2
      apply hne
      rw [← b1, ← b2, a1, a2]
    | branch tw2 hd2 c2 i2 bm2 =>
      have hwf2 := h2
      cases h2 with
      | branch _ _ _ _ _ hbm2 hlen2 hcap2 hc172 hf2 hagree2 hwfs2 =>
        -- the index
        have hi : i = i2 := by
          rcases Nat.lt_trichotomy i i2 with hlt | heq | hgt
          · exfalso
            obtain ⟨e1, e2, m1, m2, hne⟩ := wf_branch_two_differ hwf1
            obtain ⟨e1', a1, b1⟩ := hk12 e1 m1
            obtain ⟨e2', a2, b2⟩ := hk12 e2 m2
            apply hne
            rw [← b1, ← b2]
            exact agree_le_of_lt hagree2 a1 a2 hlt
          · exact heq
          · exfalso
            obtain ⟨e1, e2, m1, m2, hne⟩ := wf_branch_two_differ hwf2
            obtain ⟨e1', a1, b1⟩ := hk21 e1 m1
            obtain ⟨e2', a2, b2⟩ := hk21 e2 m2
            apply hne
            rw [← b1, ← b2]
            exact agree_le_of_lt hagree a1 a2 hgt
        subst hi
        -- the head flag
        have hh : h = hd2 := by
          rw [Bool.eq_iff_iff, head_iff_ended hwf1, head_iff_ended hwf2]
          constructor
          · rintro ⟨e, he, hn⟩
            obtain ⟨e', a, b⟩ := hk12 e he
            exact ⟨e', a, by rw [b]; exact hn⟩
          · rintro ⟨e, he, hn⟩
            obtain ⟨e', a, b⟩ := hk21 e he
            exact ⟨e', a, by rw [b]; exact hn⟩
        subst hh
        -- the bitmap
        have hb : bm = bm2 := by
          apply Nat.eq_of_testBit_eq
          intro n
          rw [Bool.eq_iff_iff, bit_iff_nybble hwf1, bit_iff_nybble hwf2]
          constructor
          · rintro ⟨hn, e, he, hne⟩
            obtain ⟨e', a, b⟩ := hk12 e he
            exact ⟨hn, e', a, by rw [b]; exact hne⟩
          · rintro ⟨hn, e, he, hne⟩
            obtain ⟨e', a, b⟩ := hk21 e he
            exact ⟨hn, e', a, by rw [b]; exact hne⟩
        subst hb
        -- the twigs
        rw [reshape_branch, reshape_branch]
        congr 1
        apply List.ext_getElem?
        intro j
        rw [List.getElem?_map, List.getElem?_map]
        have hl12 : tw.length = tw2.length := by
          rw [← hf.length_eq, ← hf2.length_eq]
        cases ht : tw[j]? with
        | none =>
          have : tw2[j]? = none := by
            rw [List.getElem?_eq_none_iff] at ht ⊢
            omega
          rw [this]
        | some t =>
          have hjlt : j < tw2.length := by
            have := (List.getElem?_eq_some.mp ht).1
            omega
          have ht2 : tw2[j]? = some tw2[j] := List.getElem?_eq_getElem hjlt
          rw [ht2]
          simp only [Option.map_some', Option.some.injEq]
          obtain ⟨n, hn, _⟩ := forall₂_getElem?_right hf ht
          have htm : t ∈ tw := List.mem_iff_getElem?.mpr ⟨j, ht⟩
          have ht2m : tw2[j] ∈ tw2 := List.getElem_mem hjlt
          apply ih t htm (hwfs2 _ ht2m)
          intro p
          simp only [List.mem_map, Prod.map_apply, id_eq]
          constructor
          · rintro ⟨e, he, hp⟩
            obtain ⟨m1, m2⟩ := (twig_entries_iff (c := c) hf ht hn e).mp he
            obtain ⟨e', he', hp'⟩ :=
              List.mem_map.mp ((H p).mp (List.mem_map.mpr ⟨e, m1, hp⟩))
            refine ⟨e', (twig_entries_iff (c := c2) hf2 ht2 hn e').mpr ⟨he', ?_⟩, hp'⟩
            have : e'.1 = e.1 := by
              have := congrArg Prod.fst (hp'.trans hp.symm)
              simpa using this
            rw [this]
            exact m2
          · rintro ⟨e, he, hp⟩
            obtain ⟨m1, m2⟩ := (twig_entries_iff (c := c2) hf2 ht2 hn e).mp he
            obtain ⟨e', he', hp'⟩ :=
              List.mem_map.mp ((H p).mpr (List.mem_map.mpr ⟨e, m1, hp⟩))
            refine ⟨e', (twig_entries_iff (c := c) hf ht hn e').mpr ⟨he', ?_⟩, hp'⟩
            have : e'.1 = e.1 := by
              have := congrArg Prod.fst (hp'.trans hp.symm)
              simpa using this
            rw [this]
            exact m2

end jzt

/-!
## The order of a traversal and the comparison byte by byte
-/

namespace jzt

variable {V : Type}

/-- An iterator yields one list of entries only. -/
theorem yields_unique {it : Iterator V} {l1 l2 : List (Key × V)} (h1 : it.yields l1)
    (h2 : it.yields l2) : l1 = l2 := by
  have hlen : ∀ {la lb : List (Key × V)}, it.yields la → it.yields lb →
      ¬ la.length < lb.length := by
    intro la lb ha hb hlt
    obtain ⟨it1, e1, e2, _⟩ := hb.1 la.length hlt
    obtain ⟨it2, f1, f2⟩ := ha.2
    rw [e1] at f1
    cases f1
    rw [e2] at f2
    cases f2
  have hl : l1.length = l2.length := by
    have a := hlen h1 h2
    have b := hlen h2 h1
    omega
  apply List.ext_get?
  intro j
  by_cases hj : j < l1.length
  · obtain ⟨it1, e1, _, e3⟩ := h1.1 j hj
    obtain ⟨it2, f1, _, f3⟩ := h2.1 j (by omega)
    rw [e1] at f1
    cases f1
    rw [← e3, ← f3]
  · rw [List.get?_eq_none.mpr (by omega), List.get?_eq_none.mpr (by omega)]

theorem nybble_at_congr (a b : Key) (i : Nat) (h : a.get? (i / 2) = b.get? (i / 2)) :
    nybble_at a i = nybble_at b i := by
  unfold nybble_at
  simp only [h]

/-- The comparison byte by byte of two keys that agree but in byte `j` compares
their bytes `j`. -/
theorem byte_lex_lt_at : ∀ (j : Nat) (a b : Key) (x y : Fin 256), a.get? j = some x →
    b.get? j = some y → x ≠ y → (∀ i, i < j → a.get? i = b.get? i) →
    byte_lex_lt a b = decide (x < y) := by
  intro j
  induction j with
  | zero =>
    intro a b x y ha hb hne _
    match a, b, ha, hb with
    | x0 :: a', y0 :: b', ha, hb =>
      simp only [List.get?_cons_zero, Option.some.injEq] at ha hb
      subst ha hb
      unfold byte_lex_lt
      by_cases hlt : x0 < y0
      · simp [hlt]
      · have hgt : y0 < x0 := lt_of_le_of_ne (not_lt.mp hlt) (fun h => hne h.symm)
        simp [hlt, hgt]
  | succ j ih =>
    intro a b x y ha hb hne hrest
    match a, b, ha, hb, hrest with
    | x0 :: a', y0 :: b', ha, hb, hrest =>
      have h0 := hrest 0 (by omega)
      simp only [List.get?_cons_zero, Option.some.injEq] at h0
      subst h0
      simp only [List.get?_cons_succ] at ha hb
      have := ih a' b' x y ha hb hne (fun i hi => by
        have := hrest (i + 1) (by omega)
        simpa using this)
      unfold byte_lex_lt
      simp only [lt_self_iff_false, if_false]
      exact this

theorem high_lt_of_lt (x y : Fin 256) (hlow : x.val &&& 0x0F = y.val &&& 0x0F) (h : x < y) :
    x.val >>> 4 < y.val >>> 4 := by
  have e1 : x.val &&& 0x0F = x.val % 16 := Nat.and_pow_two_sub_one_eq_mod x.val 4
  have e2 : y.val &&& 0x0F = y.val % 16 := Nat.and_pow_two_sub_one_eq_mod y.val 4
  have e3 : x.val >>> 4 = x.val / 16 := Nat.shiftRight_eq_div_pow x.val 4
  have e4 : y.val >>> 4 = y.val / 16 := Nat.shiftRight_eq_div_pow y.val 4
  have h' : x.val < y.val := h
  omega

/-- Two keys that differ in the high four bits of one byte only: the smaller in
the comparison byte by byte comes first in the order of the nybble sequences. -/
theorem high_bits_order {a b : Key} (hd : differ_in_high_bits a b)
    (hlt : byte_lex_lt a b = true) : nybble_lt a b := by
  obtain ⟨_, j, x, y, ha, hb, hhigh, hlow, hrest⟩ := hd
  have hne : x ≠ y := by
    intro h
    rw [h] at hhigh
    exact hhigh rfl
  have hxy : x < y := by
    have := byte_lex_lt_at j a b x y ha hb hne (fun i hi => hrest i (by omega))
    rw [hlt] at this
    exact of_decide_eq_true this.symm
  refine ⟨2 * j + 1, ?_, ?_⟩
  · intro i hi
    by_cases h2 : i = 2 * j
    · subst h2
      rw [nybble_at_even a j x ha, nybble_at_even b j y hb, hlow]
    · exact nybble_at_congr a b i (hrest (i / 2) (by omega))
  · rw [nybble_at_odd a j x ha, nybble_at_odd b j y hb]
    have h1 := high_lt x
    have h2 := high_lt y
    have h3 := high_lt_of_lt x y hlow hxy
    unfold nybble_rank NybbleHead
    rw [if_neg (by omega), if_neg (by omega)]
    omega

/-- A traversal visits the keys in the order of their nybble sequences. -/
theorem visits_before_iff {t : Trie V} (hwf : t.WF) {a b : Key} (ha : a ∈ t.keys)
    (hb : b ∈ t.keys) : t.visits_before a b ↔ nybble_lt a b := by
  obtain ⟨it, h1, h2⟩ := trie_begin_spec hwf
  have hs := trie_entries_sorted hwf
  rw [List.pairwise_iff_getElem] at hs
  constructor
  · rintro ⟨it', l, i, j, e1, e2, hij, hi, hj⟩
    rw [h1] at e1
    cases e1
    have hl := yields_unique e2 h2
    subst hl
    simp only [List.get?_eq_getElem?, ← List.getElem?_map] at hi hj
    obtain ⟨hi1, hi2⟩ := List.getElem?_eq_some.mp hi
    obtain ⟨hj1, hj2⟩ := List.getElem?_eq_some.mp hj
    have := hs i j hi1 hj1 hij
    rw [hi2, hj2] at this
    exact this
  · intro hab
    unfold Trie.keys at ha hb
    obtain ⟨i, hi⟩ := List.mem_iff_getElem?.mp ha
    obtain ⟨j, hj⟩ := List.mem_iff_getElem?.mp hb
    refine ⟨it, t.entries, i, j, h1, h2, ?_, ?_, ?_⟩
    · obtain ⟨hi1, hi2⟩ := List.getElem?_eq_some.mp hi
      obtain ⟨hj1, hj2⟩ := List.getElem?_eq_some.mp hj
      by_contra hcon
      rcases Nat.lt_or_eq_of_le (Nat.le_of_not_lt hcon) with h | h
      · have := hs j i hj1 hi1 h
        rw [hi2, hj2] at this
        exact nybble_lt_asymm hab this
      · subst h
        rw [hi] at hj
        cases hj
        exact nybble_lt_irrefl _ hab
    · simp only [List.get?_eq_getElem?, ← List.getElem?_map]
      exact hi
    · simp only [List.get?_eq_getElem?, ← List.getElem?_map]
      exact hj

/-- Two lists of keys in the order of the nybble sequences with the same members
are equal. -/
theorem sorted_keys_eq {l1 l2 : List Key} (h1 : l1.Pairwise nybble_lt)
    (h2 : l2.Pairwise nybble_lt) (hm : ∀ k, k ∈ l1 ↔ k ∈ l2) : l1 = l2 := by
  haveI : IsAntisymm Key nybble_lt := ⟨fun a b hab hba => (nybble_lt_asymm hab hba).elim⟩
  have hnd : ∀ l : List Key, l.Pairwise nybble_lt → l.Nodup := by
    intro l hl
    apply hl.imp
    intro a b hab heq
    rw [heq] at hab
    exact nybble_lt_irrefl _ hab
  exact List.eq_of_perm_of_sorted ((List.perm_ext_iff_of_nodup (hnd l1 h1) (hnd l2 h2)).mpr hm)
    h1 h2

/-- Two containers that satisfy the invariant and hold the same keys, with the same
images of the mapped values under `f`, have the same shape. -/
theorem trie_reshape_unique {W : Type} (f : V → W) {t1 t2 : Trie V} (h1 : t1.WF) (h2 : t2.WF)
    (H : ∀ p : Key × W, p ∈ t1.entries.map (Prod.map id f) ↔
      p ∈ t2.entries.map (Prod.map id f)) :
    t1.reshape f = t2.reshape f := by
  cases t1 with
  | mk root1 =>
    cases t2 with
    | mk root2 =>
      cases root1 with
      | none =>
        cases root2 with
        | none => rfl
        | some r2 =>
          exfalso
          obtain ⟨e, he⟩ := Node.WF.exists_entry h2
          have := (H (Prod.map id f e)).mpr (List.mem_map.mpr ⟨e, he, rfl⟩)
          simp [Trie.entries] at this
      | some r1 =>
        cases root2 with
        | none =>
          exfalso
          obtain ⟨e, he⟩ := Node.WF.exists_entry h1
          have := (H (Prod.map id f e)).mp (List.mem_map.mpr ⟨e, he, rfl⟩)
          simp [Trie.entries] at this
        | some r2 =>
          simp only [Trie.reshape]
          congr 2
          exact reshape_unique f h1 h2 H

end jzt

/-!
## The claims C21 to C26
-/

namespace jzt

variable {V : Type}

/-- C21 (the approximate descent ends). In every container that `emplace` and
`remove` build, with root `r`, and for every probe key: after `n` turns of the
loop of `find_similar`, with `n` at most the number of branches of the
container, the loop stands at a leaf, which is what `find_similar` returns and
an entry of the container; before that it stands at branches of the container,
and at each of them the turn finds a twig to step to: the twig at `twig_index`
of the nybble of the probe if the branch has one, else the head if the branch
has one, else the twig in slot 0. -/
theorem find_similar_terminates (t : Trie V) (hr : Reachable t) (r : Node V)
    (hroot : t.root = some r) (key : Key) :
    ∃ n sk sv, n ≤ t.branches.length ∧ Node.similar_run key n r = some (.leaf sk sv) ∧
      r.find_similar key = some (.leaf sk sv) ∧ (sk, sv) ∈ t.entries ∧
      ∀ j < n, ∃ b x, Node.similar_run key j r = some (Node.ofBranch b) ∧ b ∈ t.branches ∧
        Node.similar_run key (j + 1) r = some x ∧ x ∈ b.twigs ∧
        (b.twig_nybble key ≠ NybbleHead → b.has_twig (b.twig_nybble key) = some true →
          ∃ idx, b.twig_index (b.twig_nybble key) = some idx ∧ b.twig idx = some x) ∧
        ((b.twig_nybble key = NybbleHead ∨ b.has_twig (b.twig_nybble key) = some false) →
          b.has_head = true → b.get_head = some x) ∧
        ((b.twig_nybble key = NybbleHead ∨ b.has_twig (b.twig_nybble key) = some false) →
          b.has_head = false → b.twig 0 = some x) := by
  have hwf := reachable_wf hr
  cases t with
  | mk root =>
    simp only at hroot
    subst hroot
    obtain ⟨n, sk, sv, h1, h2, h3, h4, h5⟩ := similar_run_spec hwf key
    refine ⟨n, sk, sv, h1, h2, h3, h4, ?_⟩
    intro j hj
    obtain ⟨b, x, e1, e2, e3, e4, e5⟩ := h5 j hj
    exact ⟨b, x, e1, e2, e3, e4, similar_step_rule b key x e5⟩

theorem find_similar_terminates_witness :
    Reachable demo_trie ∧
    ∃ n sk sv, n ≤ demo_trie.branches.length ∧
      Node.similar_run [97, 99] n
        (.branch
          [.leaf [49, 50, 51, 52, 53] 1,
            .branch
              [.branch [.leaf [97, 98, 99, 120, 121] 5, .leaf [97, 98] 6] true 2 4 8,
                .leaf [97, 100] 7, .leaf [97] 8] true 3 2 20] false 2 1 72 : Node Nat)
        = some (.leaf sk sv) ∧
      Node.find_similar
        (.branch
          [.leaf [49, 50, 51, 52, 53] 1,
            .branch
              [.branch [.leaf [97, 98, 99, 120, 121] 5, .leaf [97, 98] 6] true 2 4 8,
                .leaf [97, 100] 7, .leaf [97] 8] true 3 2 20] false 2 1 72 : Node Nat)
        [97, 99] = some (.leaf sk sv) ∧
      (sk, sv) ∈ demo_trie.entries ∧
      ∀ j < n, ∃ b x,
        Node.similar_run [97, 99] j
          (.branch
            [.leaf [49, 50, 51, 52, 53] 1,
              .branch
                [.branch [.leaf [97, 98, 99, 120, 121] 5, .leaf [97, 98] 6] true 2 4 8,
                  .leaf [97, 100] 7, .leaf [97] 8] true 3 2 20] false 2 1 72 : Node Nat)
          = some (Node.ofBranch b) ∧
        b ∈ demo_trie.branches ∧
        Node.similar_run [97, 99] (j + 1)
          (.branch
            [.leaf [49, 50, 51, 52, 53] 1,
              .branch
                [.branch [.leaf [97, 98, 99, 120, 121] 5, .leaf [97, 98] 6] true 2 4 8,
                  .leaf [97, 100] 7, .leaf [97] 8] true 3 2 20] false 2 1 72 : Node Nat)
          = some x ∧
        x ∈ b.twigs ∧
        (b.twig_nybble [97, 99] ≠ NybbleHead →
          b.has_twig (b.twig_nybble [97, 99]) = some true →
          ∃ idx, b.twig_index (b.twig_nybble [97, 99]) = some idx ∧ b.twig idx = some x) ∧
        ((b.twig_nybble [97, 99] = NybbleHead ∨
            b.has_twig (b.twig_nybble [97, 99]) = some false) →
          b.has_head = true → b.get_head = some x) ∧
        ((b.twig_nybble [97, 99] = NybbleHead ∨
            b.has_twig (b.twig_nybble [97, 99]) = some false) →
          b.has_head = false → b.twig 0 = some x) :=
  ⟨demo_reachable, find_similar_terminates demo_trie demo_reachable _ rfl [97, 99]⟩

/-- C22 (indices deepen). In every container that `emplace` and `remove` build,
a branch that is a twig of a branch has a nybble index greater than the nybble
index of that branch. -/
theorem indices_deepen (t : Trie V) (hr : Reachable t) :
    ∀ b ∈ t.branches, ∀ x ∈ b.twigs, ∀ cb : Branch V, x.get_branch = some cb →
      b.nybble_index < cb.nybble_index := by
  intro b hb x hx cb hcb
  have hwf := trie_wf_of_mem_branches (reachable_wf hr) b hb
  cases b with
  | mk tw h c i bm =>
    cases x with
    | leaf k v => simp [Node.get_branch] at hcb
    | branch tw0 h0 c0 i0 bm0 =>
      simp only [Node.get_branch, Option.some.injEq] at hcb
      subst hcb
      exact child_index_lt hwf hx

theorem indices_deepen_witness :
    Reachable demo_trie ∧ demo_trie.branches.map Branch.nybble_index = [1, 2, 4] ∧
    ∀ b ∈ demo_trie.branches, ∀ x ∈ b.twigs, ∀ cb : Branch Nat, x.get_branch = some cb →
      b.nybble_index < cb.nybble_index :=
  ⟨demo_reachable, rfl, indices_deepen demo_trie demo_reachable⟩

/-- C23 as stated has no instance: there are no two keys that differ in the high
four bits of one byte only and that some container, of any mapped type, built by
`emplace` and `remove` and holding both, visits in the order opposite to the
comparison byte by byte. -/
theorem high_bits_keep_byte_order :
    ¬ ∃ (W : Type) (a b : Key) (t : Trie W), differ_in_high_bits a b ∧
      byte_lex_lt a b = true ∧ Reachable t ∧ a ∈ t.keys ∧ b ∈ t.keys ∧ t.visits_before b a := by
  rintro ⟨W, a, b, t, hd, hlt, hr, ha, hb, hv⟩
  have h1 := (visits_before_iff (reachable_wf hr) hb ha).mp hv
  exact nybble_lt_asymm (high_bits_order hd hlt) h1

/-- C23 (a byte against the comparison byte by byte), amended. The keys of the two
bytes 0x61 0x12 and 0x61 0x21 have the same size and differ in one byte only, in
its low and in its high four bits; the first is the smaller in the comparison
byte by byte, and the container that holds the two, built by `emplace`, visits
the second before the first. Two keys that differ in the high four bits of one
byte only are visited, by every container that `emplace` and `remove` build and
that holds both, in the order of the comparison byte by byte. -/
theorem one_byte_reversal :
    (∃ (a b : Key) (t : Trie Unit), a.length = b.length ∧
      (∃ (j : Nat) (x y : Fin 256), a.get? j = some x ∧ b.get? j = some y ∧
        x.val &&& 0x0F ≠ y.val &&& 0x0F ∧ x.val >>> 4 ≠ y.val >>> 4 ∧
        ∀ i, i ≠ j → a.get? i = b.get? i) ∧
      byte_lex_lt a b = true ∧ Reachable t ∧ a ∈ t.keys ∧ b ∈ t.keys ∧
      t.visits_before b a) ∧
    (∀ (a b : Key) (t : Trie V), differ_in_high_bits a b → byte_lex_lt a b = true →
      Reachable t → a ∈ t.keys → b ∈ t.keys → t.visits_before a b) := by
  constructor
  · have hr : Reachable
        (⟨some (.branch [.leaf [97, 33] (), .leaf [97, 18] ()] false 2 2 6)⟩ : Trie Unit) :=
      emplace_all_reachable [([97, 18], ()), ([97, 33], ())] Trie.empty _ Reachable.empty
        (by decide) rfl
    refine ⟨[97, 18], [97, 33], _, rfl, ⟨1, 18, 33, rfl, rfl, by decide, by decide, ?_⟩,
      by decide, hr, by decide, by decide, ?_⟩
    · intro i hi
      match i, hi with
      | 0, _ => rfl
      | i + 2, _ => rfl
    · obtain ⟨it, h1, h2⟩ := trie_begin_spec (reachable_wf hr)
      exact ⟨it, _, 0, 1, h1, h2, by decide, rfl, rfl⟩
  · intro a b t hd hlt hr ha hb
    exact (visits_before_iff (reachable_wf hr) ha hb).mpr (high_bits_order hd hlt)

theorem one_byte_reversal_witness :
    (differ_in_high_bits [18] [34] ∧ byte_lex_lt [18] [34] = true ∧
      Reachable (⟨some (.branch [.leaf [18] (), .leaf [34] ()] false 2 1 6)⟩ : Trie Unit) ∧
      [18] ∈ Trie.keys (⟨some (.branch [.leaf [18] (), .leaf [34] ()] false 2 1 6)⟩ : Trie Unit) ∧
      [34] ∈ Trie.keys
        (⟨some (.branch [.leaf [18] (), .leaf [34] ()] false 2 1 6)⟩ : Trie Unit)) ∧
    Trie.visits_before (⟨some (.branch [.leaf [18] (), .leaf [34] ()] false 2 1 6)⟩ : Trie Unit)
      [18] [34] :=
  ⟨⟨⟨rfl, 0, 18, 34, rfl, rfl, by decide, by decide, fun i hi => by
        match i, hi with
        | i + 1, _ => rfl⟩,
      by decide,
      emplace_all_reachable [([18], ()), ([34], ())] Trie.empty _ Reachable.empty
        (by decide) rfl,
      by decide, by decide⟩,
    (one_byte_reversal (V := Unit)).2 [18] [34] _
      ⟨rfl, 0, 18, 34, rfl, rfl, by decide, by decide, fun i hi => by
        match i, hi with
        | i + 1, _ => rfl⟩
      (by decide)
      (emplace_all_reachable [([18], ()), ([34], ())] Trie.empty _ Reachable.empty
        (by decide) rfl)
      (by decide) (by decide)⟩

/-- C24 (shared start). In every container that `emplace` and `remove` build and
for every branch in it, with nybble index `i`: all keys below the branch have the
same nybble, the past-end sentinel included, at every index below `i`; for every
set bit `n` of the bitmap the twig at `twig_index(n)` exists and every key below
it has the nybble `n` at `i`; and a head is a leaf whose key has the past-end
sentinel at `i`. -/
theorem shared_start_invariant (t : Trie V) (hr : Reachable t) :
    ∀ b ∈ t.branches,
      (∀ e1 ∈ (Node.ofBranch b).entries, ∀ e2 ∈ (Node.ofBranch b).entries,
        ∀ j < b.nybble_index, nybble_at e1.1 j = nybble_at e2.1 j) ∧
      (∀ n, n < 16 → b.bitmap.testBit n = true →
        ∃ idx x, b.twig_index n = some idx ∧ b.twig idx = some x ∧
          ∀ e ∈ x.entries, nybble_at e.1 b.nybble_index = n) ∧
      (b.has_head = true →
        ∃ k v, b.get_head = some (.leaf k v) ∧ nybble_at k b.nybble_index = NybbleHead) := by
  intro b hb
  have hwf := trie_wf_of_mem_branches (reachable_wf hr) b hb
  cases b with
  | mk tw h c i bm =>
    have hwf0 := hwf
    cases hwf with
    | branch _ _ _ _ _ hbm hlen hcap hc17 hf hagree hwfs =>
      refine ⟨?_, ?_, ?_⟩
      · intro e1 h1 e2 h2 j hj
        exact agree_le_of_lt hagree h1 h2 hj
      · intro n hn hbit
        obtain ⟨x, hx, hl⟩ := twig_of_bit hf hn hbit
        refine ⟨_, x, twig_index_eq _ n hn, ?_, hl⟩
        simp only [Branch.twig, List.get?_eq_getElem?]
        exact hx
      · intro hh
        simp only [Branch.has_head] at hh
        subst hh
        obtain ⟨k, v, e1, e2⟩ := head_is_leaf hwf0
        refine ⟨k, v, ?_, e2⟩
        simp only [Branch.get_head, Branch.size, if_true, List.get?_eq_getElem?]
        exact e1

theorem shared_start_invariant_witness :
    Reachable demo_trie ∧ demo_trie.branches.length = 3 ∧
    ∀ b ∈ demo_trie.branches,
      (∀ e1 ∈ (Node.ofBranch b).entries, ∀ e2 ∈ (Node.ofBranch b).entries,
        ∀ j < b.nybble_index, nybble_at e1.1 j = nybble_at e2.1 j) ∧
      (∀ n, n < 16 → b.bitmap.testBit n = true →
        ∃ idx x, b.twig_index n = some idx ∧ b.twig idx = some x ∧
          ∀ e ∈ x.entries, nybble_at e.1 b.nybble_index = n) ∧
      (b.has_head = true →
        ∃ k v, b.get_head = some (.leaf k v) ∧ nybble_at k b.nybble_index = NybbleHead) :=
  ⟨demo_reachable, rfl, shared_start_invariant demo_trie demo_reachable⟩

/-- C25 (canonical shape). Two containers that `emplace` and `remove` build from
the empty one and that hold the same keys have the same shape: the same branches
with the same indices, bitmaps and head flags, and the same keys in the same
slots, whatever the capacities and the mapped values; if they hold the same
entries, they are equal but for the capacities. A traversal from `begin()` of
either visits the same keys in the same order. -/
theorem canonical_shape (t1 t2 : Trie V) (h1 : Reachable t1) (h2 : Reachable t2)
    (hk : ∀ k, k ∈ t1.keys ↔ k ∈ t2.keys) :
    t1.reshape (fun _ => ()) = t2.reshape (fun _ => ()) ∧
    ((∀ e, e ∈ t1.entries ↔ e ∈ t2.entries) → t1.reshape id = t2.reshape id) ∧
    t1.keys = t2.keys ∧
    ∃ it1 it2 l1 l2, t1.begin = some it1 ∧ it1.yields l1 ∧ t2.begin = some it2 ∧
      it2.yields l2 ∧ l1.map Prod.fst = l2.map Prod.fst := by
  have w1 := reachable_wf h1
  have w2 := reachable_wf h2
  have hkeys : t1.keys = t2.keys :=
    sorted_keys_eq (trie_entries_sorted w1) (trie_entries_sorted w2) hk
  refine ⟨?_, ?_, hkeys, ?_⟩
  · apply trie_reshape_unique _ w1 w2
    intro p
    have e : ∀ t : Trie V, p ∈ t.entries.map (Prod.map id (fun _ => ())) ↔ p.1 ∈ t.keys := by
      intro t
      simp only [Trie.keys, List.mem_map]
      constructor
      · rintro ⟨e, he, hp⟩
        exact ⟨e, he, by rw [← hp]; rfl⟩
      · rintro ⟨e, he, hp⟩
        exact ⟨e, he, Prod.ext hp (Subsingleton.elim _ _)⟩
    rw [e t1, e t2]
    exact hk p.1
  · intro he
    apply trie_reshape_unique _ w1 w2
    intro p
    simp only [List.mem_map, he]
  · obtain ⟨it1, a1, a2⟩ := trie_begin_spec w1
    obtain ⟨it2, b1, b2⟩ := trie_begin_spec w2
    exact ⟨it1, it2, _, _, a1, a2, b1, b2, hkeys⟩

theorem canonical_shape_witness :
    (Reachable (⟨some (.branch [.leaf [33] 0, .leaf [18] 0] false 2 0 6)⟩ : Trie Nat) ∧
      Reachable (⟨some (.branch [.leaf [33] 7, .leaf [18] 5] false 3 0 6)⟩ : Trie Nat) ∧
      ∀ k, k ∈ Trie.keys (⟨some (.branch [.leaf [33] 0, .leaf [18] 0] false 2 0 6)⟩ : Trie Nat) ↔
        k ∈ Trie.keys (⟨some (.branch [.leaf [33] 7, .leaf [18] 5] false 3 0 6)⟩ : Trie Nat)) ∧
    Trie.reshape (fun _ => ())
        (⟨some (.branch [.leaf [33] 0, .leaf [18] 0] false 2 0 6)⟩ : Trie Nat)
      = Trie.reshape (fun _ => ())
        (⟨some (.branch [.leaf [33] 7, .leaf [18] 5] false 3 0 6)⟩ : Trie Nat) :=
  ⟨⟨emplace_all_reachable [([18], 0), ([33], 0)] Trie.empty _ Reachable.empty (by decide) (by rfl),
      Reachable.remove
        (⟨some (.branch [.leaf [33] 7, .leaf [18] 5, .leaf [52] 0] false 3 0 22)⟩ : Trie Nat)
        (⟨some (.branch [.leaf [33] 7, .leaf [18] 5] false 3 0 6)⟩ : Trie Nat) [52] true
        (emplace_all_reachable [([33], 7), ([52], 0), ([18], 5)] Trie.empty _ Reachable.empty
          (by decide) (by rfl)) (by rfl),
      fun _ => Iff.rfl⟩,
    (canonical_shape
      (⟨some (.branch [.leaf [33] 0, .leaf [18] 0] false 2 0 6)⟩ : Trie Nat)
      (⟨some (.branch [.leaf [33] 7, .leaf [18] 5] false 3 0 6)⟩ : Trie Nat)
      (emplace_all_reachable [([18], 0), ([33], 0)] Trie.empty _ Reachable.empty (by decide) (by rfl))
      (Reachable.remove
        (⟨some (.branch [.leaf [33] 7, .leaf [18] 5, .leaf [52] 0] false 3 0 22)⟩ : Trie Nat)
        (⟨some (.branch [.leaf [33] 7, .leaf [18] 5] false 3 0 6)⟩ : Trie Nat) [52] true
        (emplace_all_reachable [([33], 7), ([52], 0), ([18], 5)] Trie.empty _ Reachable.empty
          (by decide) (by rfl)) (by rfl))
      (fun _ => Iff.rfl)).1⟩

/-- C26 (a failed removal changes nothing). In every container that `emplace` and
`remove` build and for every key, `remove` is free of failures and returns
`false` exactly when the container does not hold the key, and after a call that
returns `false` the container is what it was before the call: the root with
every branch, its index, bitmap, head flag, capacity and twigs, and every
entry. -/
theorem failed_remove_atomic (t : Trie V) (hr : Reachable t) (k : Key) :
    ∃ ok t', t.remove k = some (ok, t') ∧ (ok = false ↔ k ∉ t.keys) ∧
      (ok = false → t' = t) := by
  have hwf := reachable_wf hr
  by_cases hk : k ∈ t.keys
  · obtain ⟨t', h1, _, _⟩ := trie_remove_present hwf k hk
    exact ⟨true, t', h1, by simp [hk], by simp⟩
  · exact ⟨false, t, trie_remove_absent hwf k hk, by simp [hk], fun _ => rfl⟩

theorem failed_remove_atomic_witness :
    Reachable demo_trie ∧
    (∃ ok t', demo_trie.remove [97, 99] = some (ok, t') ∧
      (ok = false ↔ [97, 99] ∉ demo_trie.keys) ∧ (ok = false → t' = demo_trie)) ∧
    demo_trie.remove [97, 99] = some (false, demo_trie) :=
  ⟨demo_reachable, failed_remove_atomic demo_trie demo_reachable [97, 99], rfl⟩

end jzt
